import Mathlib

/-!
Verification of the foolysh scene-graph / quadtree core (src/ext, with
src/scenegraph_dev as an earlier revision of the same code).

Conventions of the shallow embedding:
* C++ `double` is modelled as an exact fraction `D` over `ℤ` (all
  claim-relevant arithmetic is exact: sums, products, divisions by two,
  comparisons).  The fraction is not normalized, which keeps every operation
  kernel-reducible; the semantics of a value is `D.toRat` and every
  comparison the source performs is embedded as the corresponding comparison
  of the represented rational numbers (valid for positive denominators,
  which all constructed values have).
* C++ `int` indices are modelled as `ℤ` with the source's `-1` sentinels.
* Out-of-bounds vector/array accesses (undefined behaviour in C++) are
  modelled by `Option`-returning accessors; an operation that performs such
  an access is said to fault (`QtFault.oob` below) as opposed to raising
  one of the source's `std::logic_error`/`std::domain_error` exceptions.
* `Vector2::rotate` calls `std::sin`/`std::cos`; rotation is therefore kept
  abstract as a parameter `rot` threaded through the node-system functions.
  Every claim below is either independent of `rot` or only exercises code
  paths where the source does not rotate (angle 0).
-/

namespace Foolysh

/-! ## Exact embedding of double arithmetic -/

/-- A double value, held as an exact (not necessarily reduced) fraction.
Every value built by the embedding has a positive denominator. -/
structure D where
  num : Int
  den : Int
  deriving DecidableEq, Repr

namespace D

/-- Integer literal as a D value. -/
def ofInt (n : Int) : D := ⟨n, 1⟩

instance (n : Nat) : OfNat D n := ⟨⟨(n : Int), 1⟩⟩

instance : Neg D := ⟨fun a => ⟨-a.num, a.den⟩⟩

instance : Add D := ⟨fun a b => ⟨a.num * b.den + b.num * a.den, a.den * b.den⟩⟩

instance : Sub D := ⟨fun a b => ⟨a.num * b.den - b.num * a.den, a.den * b.den⟩⟩

instance : Mul D := ⟨fun a b => ⟨a.num * b.num, a.den * b.den⟩⟩

/-- Division; only ever used with a divisor whose numerator is positive
(the source divides by the literal 2). -/
instance : Div D := ⟨fun a b => ⟨a.num * b.den, a.den * b.num⟩⟩

/-- Comparison `a < b` of the represented values (denominators positive). -/
def lt (a b : D) : Bool := decide (a.num * b.den < b.num * a.den)

/-- Comparison `a <= b` of the represented values (denominators positive). -/
def le (a b : D) : Bool := decide (a.num * b.den ≤ b.num * a.den)

/-- Comparison `a == b` of the represented values (denominators positive). -/
def beq (a b : D) : Bool := decide (a.num * b.den = b.num * a.den)

/-- The C++ `std::max` (returns b when a < b). -/
def maxD (a b : D) : D := if lt a b then b else a

/-- The C++ `std::min` (returns b when b < a). -/
def minD (a b : D) : D := if lt b a then b else a

/-- Value represented by a D. -/
def toRat (a : D) : ℚ := (a.num : ℚ) / (a.den : ℚ)

/-- Positivity of the denominator: all values the embedding builds have it. -/
def Pos (a : D) : Prop := 0 < a.den

theorem Pos.add {a b : D} (ha : a.Pos) (hb : b.Pos) : (a + b).Pos :=
  mul_pos ha hb

theorem Pos.sub {a b : D} (ha : a.Pos) (hb : b.Pos) : (a - b).Pos :=
  mul_pos ha hb

theorem Pos.mul {a b : D} (ha : a.Pos) (hb : b.Pos) : (a * b).Pos :=
  mul_pos ha hb

theorem Pos.neg {a : D} (ha : a.Pos) : (-a).Pos := ha

theorem Pos.ofNat {n : Nat} : (OfNat.ofNat n : D).Pos := one_pos

theorem toRat_add {a b : D} (ha : a.Pos) (hb : b.Pos) :
    (a + b).toRat = a.toRat + b.toRat := by
  unfold toRat
  show ((a.num * b.den + b.num * a.den : Int) : ℚ) / ((a.den * b.den : Int) : ℚ) = _
  have ha' : ((a.den : Int) : ℚ) ≠ 0 := by exact_mod_cast ha.ne'
  have hb' : ((b.den : Int) : ℚ) ≠ 0 := by exact_mod_cast hb.ne'
  push_cast
  field_simp

theorem toRat_sub {a b : D} (ha : a.Pos) (hb : b.Pos) :
    (a - b).toRat = a.toRat - b.toRat := by
  unfold toRat
  show ((a.num * b.den - b.num * a.den : Int) : ℚ) / ((a.den * b.den : Int) : ℚ) = _
  have ha' : ((a.den : Int) : ℚ) ≠ 0 := by exact_mod_cast ha.ne'
  have hb' : ((b.den : Int) : ℚ) ≠ 0 := by exact_mod_cast hb.ne'
  push_cast
  field_simp
  ring

theorem toRat_mul {a b : D} (ha : a.Pos) (hb : b.Pos) :
    (a * b).toRat = a.toRat * b.toRat := by
  unfold toRat
  show ((a.num * b.num : Int) : ℚ) / ((a.den * b.den : Int) : ℚ) = _
  have ha' : ((a.den : Int) : ℚ) ≠ 0 := by exact_mod_cast ha.ne'
  have hb' : ((b.den : Int) : ℚ) ≠ 0 := by exact_mod_cast hb.ne'
  push_cast
  field_simp

theorem toRat_neg (a : D) : (-a).toRat = -a.toRat := by
  unfold toRat
  have h1 : (-a).num = -a.num := rfl
  have h2 : (-a).den = a.den := rfl
  rw [h1, h2]
  push_cast
  ring

theorem toRat_ofNat (n : Nat) : (OfNat.ofNat n : D).toRat = (n : ℚ) := by
  unfold toRat
  show ((n : Int) : ℚ) / ((1 : Int) : ℚ) = _
  norm_num

theorem lt_iff {a b : D} (ha : a.Pos) (hb : b.Pos) :
    lt a b = true ↔ a.toRat < b.toRat := by
  unfold lt toRat
  rw [decide_eq_true_eq]
  rw [div_lt_div_iff (by exact_mod_cast ha) (by exact_mod_cast hb)]
  constructor
  · intro h
    exact_mod_cast h
  · intro h
    exact_mod_cast h

theorem le_iff {a b : D} (ha : a.Pos) (hb : b.Pos) :
    le a b = true ↔ a.toRat ≤ b.toRat := by
  unfold le toRat
  rw [decide_eq_true_eq]
  rw [div_le_div_iff (by exact_mod_cast ha) (by exact_mod_cast hb)]
  constructor
  · intro h
    exact_mod_cast h
  · intro h
    exact_mod_cast h

theorem beq_iff {a b : D} (ha : a.Pos) (hb : b.Pos) :
    beq a b = true ↔ a.toRat = b.toRat := by
  unfold beq toRat
  rw [decide_eq_true_eq]
  rw [div_eq_div_iff (by exact_mod_cast ha.ne' : ((a.den : Int) : ℚ) ≠ 0)
      (by exact_mod_cast hb.ne' : ((b.den : Int) : ℚ) ≠ 0)]
  constructor
  · intro h
    exact_mod_cast h
  · intro h
    exact_mod_cast h

end D

end Foolysh

namespace Foolysh

/-! ## AABB (src/ext/src/aabb.cpp) -/

/-- Quadrant enum from aabb.hpp: TL = 0, TR = 1, BL = 2, BR = 3. -/
inductive Quadrant where
  | TL | TR | BL | BR
  deriving DecidableEq, Repr

/-- Index of a quadrant, as used by `first_child + (int) quadrant`. -/
def Quadrant.toInt : Quadrant → Int
  | .TL => 0
  | .TR => 1
  | .BL => 2
  | .BR => 3

/-- Axis-aligned bounding box: center `(x, y)` plus half extents `(hw, hh)`
(aabb.hpp). -/
structure AABB where
  x : D
  y : D
  hw : D
  hh : D
  deriving DecidableEq, Repr

namespace AABB

/-- Default constructor `AABB()`: center (0,0), half extents (1,1). -/
def default : AABB := ⟨0, 0, 1, 1⟩

/-- Member `inside(double _x, double _y)`: whether the point lies inside
(boundary inclusive). -/
def insidePoint (b : AABB) (px py : D) : Bool :=
  let l := b.x - b.hw; let r := b.x + b.hw
  let t := b.y - b.hh; let bo := b.y + b.hh
  D.le l px && D.le px r && D.le t py && D.le py bo

/-- Member `inside(const AABB&)`: whether the other box lies entirely inside. -/
def insideAABB (b : AABB) (o : AABB) : Bool :=
  let l := b.x - b.hw; let r := b.x + b.hw
  let t := b.y - b.hh; let bo := b.y + b.hh
  D.le l (o.x - o.hw) && D.le (o.x + o.hw) r &&
    D.le t (o.y - o.hh) && D.le (o.y + o.hh) bo

/-- Member `overlap(const AABB&)` (src/ext/src/aabb.cpp lines 77-93). -/
def overlap (b : AABB) (o : AABB) : Bool :=
  let l := b.x - b.hw; let r := b.x + b.hw
  let lo := o.x - o.hw; let ro := o.x + o.hw
  if (D.le l lo && D.le lo r) || (D.le l ro && D.le ro r)
      || (D.le lo l && D.le l ro) || (D.le lo r && D.le r ro) then
    let t := b.y - b.hh; let bo := b.y + b.hh
    let to_ := o.y - o.hh; let bo_o := o.y + o.hh
    if (D.le t to_ && D.le to_ bo) || (D.le t bo_o && D.le bo_o bo)
        || (D.le to_ t && D.le t bo_o) || (D.le to_ bo && D.le bo bo_o) then
      true
    else false
  else false

/-- Member `split(double _x, double _y, Quadrant _q)` (src/ext/src/aabb.cpp
lines 106-145).  Note: the source computes every vertical quantity `h` from
`hw`, not `hh` (e.g. `h = (_y - (y - hw)) / 2.0` in the TL case); the
embedding reproduces that.  When the split point is not inside the box, the
(commented-out throw) path returns a default-constructed AABB. -/
def split (b : AABB) (px py : D) (q : Quadrant) : AABB :=
  if b.insidePoint px py then
    match q with
    | .TL =>
        let w := (px - (b.x - b.hw)) / 2
        let h := (py - (b.y - b.hw)) / 2
        ⟨px - w, py - h, w, h⟩
    | .TR =>
        let w := ((b.x + b.hw) - px) / 2
        let h := (py - (b.y - b.hw)) / 2
        ⟨px + w, py - h, w, h⟩
    | .BL =>
        let w := (px - (b.x - b.hw)) / 2
        let h := ((b.y + b.hw) - py) / 2
        ⟨px - w, py + h, w, h⟩
    | .BR =>
        let w := ((b.x + b.hw) - px) / 2
        let h := ((b.y + b.hw) - py) / 2
        ⟨px + w, py + h, w, h⟩
  else default

/-- Member `split(Quadrant _q)`: split at the box's own center. -/
def splitCenter (b : AABB) (q : Quadrant) : AABB :=
  b.split b.x b.y q

/-- Member `find_quadrant(double _x, double _y)` (src/ext/src/aabb.cpp
lines 151-159). -/
def find_quadrant (b : AABB) (px py : D) : Quadrant :=
  if D.lt px b.x then (if D.lt py b.y then .TL else .BL)
  else (if D.lt py b.y then .TR else .BR)

end AABB

end Foolysh

namespace Foolysh

/-! ## Int-indexed list helpers

The C++ containers are indexed by int; a negative or too-large index is an
out-of-bounds access.  The helpers below model such an access by `none`
(reading) or by leaving the list unchanged (writing; only ever used on
indices that are in range). -/

/-- Read a list at a C++ int index; out of range gives none. -/
def listGet? (xs : List α) (n : Int) : Option α :=
  if n < 0 then none else xs[n.toNat]?

/-- Write a list at a C++ int index; out of range leaves the list unchanged. -/
def listSet (xs : List α) (n : Int) (a : α) : List α :=
  if n < 0 then xs else xs.set n.toNat a

theorem listGet?_eq_some_iff {xs : List α} {n : Int} {a : α} :
    listGet? xs n = some a ↔ 0 ≤ n ∧ ∃ h : n.toNat < xs.length, xs.get ⟨n.toNat, h⟩ = a := by
  unfold listGet?
  split
  · rename_i h
    constructor
    · intro hc
      simp at hc
    · rintro ⟨h0, -⟩
      exact absurd h (by omega)
  · rename_i h
    rw [List.getElem?_eq_some_iff]
    constructor
    · rintro ⟨hl, he⟩
      exact ⟨by omega, hl, by simpa using he⟩
    · rintro ⟨-, hl, he⟩
      exact ⟨hl, by simpa using he⟩

theorem length_listSet (xs : List α) (n : Int) (a : α) :
    (listSet xs n a).length = xs.length := by
  unfold listSet
  split <;> simp

theorem listGet?_listSet_ne (xs : List α) (n m : Int) (a : α) (h : n ≠ m) :
    listGet? (listSet xs n a) m = listGet? xs m := by
  unfold listGet? listSet
  split
  · rfl
  · split
    · rfl
    · rw [List.getElem?_set_ne]
      omega

theorem listGet?_listSet_self (xs : List α) (n : Int) (a : α)
    (h0 : 0 ≤ n) (hl : n.toNat < xs.length) :
    listGet? (listSet xs n a) n = some a := by
  unfold listGet? listSet
  rw [if_neg (by omega), if_neg (by omega)]
  simp [List.getElem?_set_self, hl]

/-! ## FreeList (src/ext/src/list_t.hpp lines 38-185)

The C++ FreeElement is a union of the payload and the next-free index; the
embedding keeps both fields side by side (a freed slot keeps a stale copy of
its last payload, which the source never reads back through valid indices). -/

/-- Cell of a FreeList: payload plus intrusive next-free link. -/
structure FreeCell (α : Type) where
  element : α
  next : Int
  deriving DecidableEq, Repr

/-- Indexed free list with O(1) erase (`FreeList<T>`). -/
structure FreeList (α : Type) where
  data : List (FreeCell α) := []
  first_free : Int := -1
  deriving DecidableEq, Repr

namespace FreeList

/-- Member `operator[]`: payload at index n, none when out of range (UB). -/
def get? (l : FreeList α) (n : Int) : Option α :=
  (listGet? l.data n).map (·.element)

/-- Member `insert`: reuse the head of the free chain or append. -/
def insert (l : FreeList α) (x : α) : Int × FreeList α :=
  if l.first_free ≠ -1 then
    let index := l.first_free
    match listGet? l.data index with
    | some c =>
        (index, { l with first_free := c.next,
                         data := listSet l.data index { c with element := x } })
    | none => (index, l)  -- corrupted free chain: out-of-range read in C++
  else
    ((l.data.length : Int), { l with data := l.data ++ [{ element := x, next := -1 }] })

/-- Member `erase`: thread the slot onto the free chain (payload retained). -/
def erase (l : FreeList α) (n : Int) : FreeList α :=
  match listGet? l.data n with
  | some c =>
      { l with data := listSet l.data n { c with next := l.first_free },
               first_free := n }
  | none => l  -- out-of-range write in C++

/-- Member `clear`. -/
def clear (_l : FreeList α) : FreeList α := {}

/-- Member `range`: number of slots ever allocated. -/
def range (l : FreeList α) : Int := (l.data.length : Int)

end FreeList

/-! ## ExtFreeList (src/ext/src/list_t.hpp lines 86-485) -/

/-- Slot of an ExtFreeList (`struct FreeElement` with explicit `free` flag). -/
structure ExtFreeCell (α : Type) where
  element : α
  next : Int
  free : Bool := false
  deriving DecidableEq, Repr

/-- Indexed free list with an explicit per-slot free flag and a free-slot
counter (`ExtFreeList<T>`). -/
structure ExtFreeList (α : Type) where
  data : List (ExtFreeCell α) := []
  first_free : Int := -1
  free_count : Int := 0
  deriving DecidableEq, Repr

namespace ExtFreeList

/-- Member `operator[]`: payload at index n, none when out of range (UB). -/
def get? (l : ExtFreeList α) (n : Int) : Option α :=
  (listGet? l.data n).map (·.element)

/-- Member `clear` (src/ext/src/list_t.hpp lines 440-446). -/
def clear (_l : ExtFreeList α) : ExtFreeList α := {}

/-- Member `insert` (src/ext/src/list_t.hpp lines 402-420). -/
def insert (l : ExtFreeList α) (x : α) : Int × ExtFreeList α :=
  if l.first_free ≠ -1 then
    let index := l.first_free
    match listGet? l.data index with
    | some c =>
        (index, { l with first_free := c.next,
                         data := listSet l.data index { c with element := x, free := false },
                         free_count := l.free_count - 1 })
    | none => (index, l)  -- corrupted free chain: out-of-range read in C++
  else
    ((l.data.length : Int),
     { l with data := l.data ++ [{ element := x, next := -1, free := false }] })

/-- Member `erase` (src/ext/src/list_t.hpp lines 425-435): thread the slot
onto the free chain, mark it free, and clear the whole store once every slot
is free. -/
def erase (l : ExtFreeList α) (n : Int) : ExtFreeList α :=
  match listGet? l.data n with
  | some c =>
      let l' : ExtFreeList α :=
        { l with data := listSet l.data n { c with next := l.first_free, free := true },
                 first_free := n,
                 free_count := l.free_count + 1 }
      if (l'.data.length : Int) = l'.free_count then clear l' else l'
  | none => l  -- out-of-range write in C++

/-- Member `active` (src/ext/src/list_t.hpp lines 460-467). -/
def active (l : ExtFreeList α) (n : Int) : Bool :=
  if decide (n < (l.data.length : Int)) && decide (n > -1) then
    match listGet? l.data n with
    | some c => !c.free
    | none => false  -- unreachable under the surrounding range test
  else false

/-- Member `range`. -/
def range (l : ExtFreeList α) : Int := (l.data.length : Int) - l.free_count

end ExtFreeList

/-! ## C10: ExtFreeList.active across erase, reuse and full-store clearing -/

theorem ExtFreeList.active_true_elim {α : Type} {l : ExtFreeList α} {n : Int}
    (h : l.active n = true) :
    ∃ c : ExtFreeCell α, listGet? l.data n = some c ∧ c.free = false ∧
      0 ≤ n ∧ n.toNat < l.data.length := by
  unfold ExtFreeList.active at h
  split at h
  · rename_i hg
    simp only [Bool.and_eq_true, decide_eq_true_eq] at hg
    obtain ⟨h1, h2⟩ := hg
    match he : listGet? l.data n with
    | some c =>
        rw [he] at h
        refine ⟨c, rfl, by simpa using h, by omega, ?_⟩
        omega
    | none =>
        rw [he] at h
        exact absurd h (by simp)
  · exact absurd h (by simp)

/-- C10: ExtFreeList validity checking.  active is false for every negative
or never-allocated index; erase(n) deactivates n; the very next insert hands
n out again (when the erase did not clear the store) and reactivates it; and
an erase that frees the last occupied slot clears the whole backing store, so
every index becomes inactive. -/
theorem C10_extfreelist_active_spec {α : Type} (l : ExtFreeList α) (n : Int) :
    ((n < 0 ∨ (l.data.length : Int) ≤ n) → l.active n = false) ∧
    (l.active n = true → (l.erase n).active n = false) ∧
    (l.active n = true → (l.erase n).data ≠ [] → ∀ x : α,
      ((l.erase n).insert x).1 = n ∧ ((l.erase n).insert x).2.active n = true) ∧
    (l.active n = true → l.free_count + 1 = (l.data.length : Int) →
      ∀ m : Int, (l.erase n).active m = false) := by
  refine ⟨?_, ?_, ?_, ?_⟩
  · intro h
    unfold ExtFreeList.active
    split
    · rename_i hg
      simp only [Bool.and_eq_true, decide_eq_true_eq] at hg
      omega
    · rfl
  · intro h
    obtain ⟨c, hc, hcf, h0, hl⟩ := ExtFreeList.active_true_elim h
    unfold ExtFreeList.erase
    rw [hc]
    simp only
    split
    · unfold ExtFreeList.active ExtFreeList.clear
      simp [listGet?]
    · unfold ExtFreeList.active
      rw [if_pos (by simp only [length_listSet]; simp only [Bool.and_eq_true, decide_eq_true_eq]; omega)]
      rw [listGet?_listSet_self _ _ _ h0 hl]
      rfl
  · intro h hne x
    obtain ⟨c, hc, hcf, h0, hl⟩ := ExtFreeList.active_true_elim h
    have herase : l.erase n =
        { l with data := listSet l.data n { c with next := l.first_free, free := true },
                 first_free := n,
                 free_count := l.free_count + 1 } := by
      unfold ExtFreeList.erase
      rw [hc]
      simp only
      split
      · rename_i hfull
        exact absurd hfull (by
          intro hco
          apply hne
          unfold ExtFreeList.erase
          rw [hc]
          simp only
          rw [if_pos hco]
          rfl)
      · rfl
    rw [herase]
    unfold ExtFreeList.insert
    simp only
    rw [if_pos (by omega)]
    rw [listGet?_listSet_self _ _ _ h0 hl]
    refine ⟨rfl, ?_⟩
    unfold ExtFreeList.active
    simp only [length_listSet]
    rw [if_pos (by simp only [Bool.and_eq_true, decide_eq_true_eq]; omega)]
    rw [listGet?_listSet_self _ _ _ h0 (by simpa [length_listSet] using hl)]
    rfl
  · intro h hfull m
    obtain ⟨c, hc, hcf, h0, hl⟩ := ExtFreeList.active_true_elim h
    unfold ExtFreeList.erase
    rw [hc]
    simp only
    rw [if_pos (by simp only [length_listSet]; omega)]
    unfold ExtFreeList.clear ExtFreeList.active
    simp [listGet?]

/-- Concrete two-slot store used by the C10 witness. -/
def extFreeListEx : ExtFreeList Int :=
  { data := [{ element := 10, next := -1, free := false },
             { element := 20, next := -1, free := false }],
    first_free := -1, free_count := 0 }

/-- Concrete one-slot store used by the C10 witness (erasing its only slot
triggers the full clear). -/
def extFreeListEx1 : ExtFreeList Int :=
  { data := [{ element := 7, next := -1, free := false }],
    first_free := -1, free_count := 0 }

/-- C10 witness: the theorem applied to concrete stores. -/
theorem C10_extfreelist_active_spec_witness :
    (extFreeListEx.active 2 = false) ∧
    ((extFreeListEx.erase 0).active 0 = false) ∧
    ((extFreeListEx.erase 0).insert (5 : Int)).1 = 0 ∧
    ((extFreeListEx.erase 0).insert (5 : Int)).2.active 0 = true ∧
    ((extFreeListEx1.erase 0).active 0 = false) := by
  have h0 : extFreeListEx.active 0 = true := by decide
  have h1 : extFreeListEx1.active 0 = true := by decide
  refine ⟨(C10_extfreelist_active_spec extFreeListEx 2).1 (by right; decide),
          (C10_extfreelist_active_spec extFreeListEx 0).2.1 h0,
          ((C10_extfreelist_active_spec extFreeListEx 0).2.2.1 h0 (by decide) 5).1,
          ((C10_extfreelist_active_spec extFreeListEx 0).2.2.1 h0 (by decide) 5).2,
          (C10_extfreelist_active_spec extFreeListEx1 0).2.2.2 h1 (by decide) 0⟩

/-! ## Quadtree (src/ext/src/quadtree.cpp, quadtree.hpp)

All while loops of the source are embedded as fuel recursion.  The fuel
bounds chosen (number of tree nodes, number of element-node cells, max_depth)
are sufficient for every well-formed tree; running out of fuel models a
divergent walk over corrupted links and is reported as QtFault.fuelOut.
Out-of-bounds accesses (UB in C++) are QtFault.oob; `throw` statements are
QtFault.logicError with the source's message. -/

/-- Abnormal outcome of a quadtree operation. -/
inductive QtFault where
  | logicError (msg : String)
  | oob
  | fuelOut
  deriving DecidableEq, Repr

/-- Modify the payload of a FreeList slot in place (C++ `l[n].field = v`). -/
def FreeList.modify (l : FreeList α) (n : Int) (g : α → α) : FreeList α :=
  match listGet? l.data n with
  | some c => { l with data := listSet l.data n { c with element := g c.element } }
  | none => l  -- out-of-range write in C++

/-- Node of the quadtree's flat node array: branch iff count = -1. -/
structure QuadNode where
  first_child : Int
  count : Int
  deriving DecidableEq, Repr

/-- Stored element: opaque id plus insertion-time AABB. -/
structure QuadElement where
  id : Int
  aabb : AABB
  deriving DecidableEq, Repr

/-- Linked-list cell bucketing an element into a leaf. -/
structure QuadElementNode where
  next : Int := -1
  element : Int := -1
  deriving DecidableEq, Repr

/-- The quadtree state (quadtree.hpp lines 55-80).  The C++ constructor
leaves `_free_node` uninitialized; it is only ever written before being read
again inside `cleanup`, and no claim-relevant path reads it, so the embedding
initializes it to -1. -/
structure Quadtree where
  aabb : AABB
  elements : FreeList QuadElement := {}
  element_nodes : FreeList QuadElementNode := {}
  nodes : List QuadNode
  free_node : Int := -1
  max_leaf_elements : Int
  max_depth : Int
  max_w : D := 0
  max_h : D := 0
  deriving DecidableEq, Repr

namespace Quadtree

/-- Constructor `Quadtree(AABB&, int, int)`: one root node, a branch sentinel
with no children yet. -/
def make (aabb : AABB) (max_leaf_elements max_depth : Int) : Quadtree :=
  { aabb := aabb, max_leaf_elements := max_leaf_elements, max_depth := max_depth,
    nodes := [{ first_child := -1, count := -1 }] }

/-- Write slot node_index of the node array. -/
def nodesSet (t : Quadtree) (n : Int) (qn : QuadNode) : Quadtree :=
  { t with nodes := listSet t.nodes n qn }

/-- Member `inside(double, double)`. -/
def inside (t : Quadtree) (x y : D) : Bool :=
  t.aabb.insidePoint x y

/-- Leaf chain scan inside `query`: walk the element-node list and keep every
element whose center lies inside the (expanded) search box. -/
def leafCollect (t : Quadtree) (search : AABB) : Nat → Int → List Int
  | 0, _ => []
  | fuel+1, en_id =>
      if en_id = -1 then []
      else
        match t.element_nodes.get? en_id with
        | none => []
        | some qen =>
            match t.elements.get? qen.element with
            | none => leafCollect t search fuel qen.next
            | some qe =>
                (if search.insidePoint qe.aabb.x qe.aabb.y then [qe.id] else [])
                  ++ leafCollect t search fuel qen.next

/-- Main loop of `query` (src/ext/src/quadtree.cpp lines 82-105): worklist of
(node index, quadrant box) pairs, descending only into quadrants that overlap
the expanded search box. -/
def queryLoop (t : Quadtree) (search : AABB) : Nat → List (Int × AABB) → List Int → List Int
  | _, [], acc => acc
  | 0, _, acc => acc
  | fuel+1, (node_index, quadrant) :: rest, acc =>
      match listGet? t.nodes node_index with
      | none => acc
      | some nd =>
          if nd.count = -1 then
            let cand := [Quadrant.TL, Quadrant.TR, Quadrant.BL, Quadrant.BR].filterMap
              (fun qd =>
                let sq := quadrant.splitCenter qd
                if search.overlap sq then some (nd.first_child + qd.toInt, sq) else none)
            queryLoop t search fuel (cand.reverse ++ rest) acc
          else
            queryLoop t search fuel rest
              (acc ++ leafCollect t search (t.element_nodes.data.length + 1) nd.first_child)

/-- Member `query(AABB&)` (src/ext/src/quadtree.cpp lines 69-107): expand the
box by the tracked maxima, then descend. -/
def query (t : Quadtree) (q : AABB) : List Int :=
  match listGet? t.nodes 0 with
  | none => []
  | some root =>
      if root.first_child = -1 then []
      else
        let search : AABB := ⟨q.x, q.y, q.hw + t.max_w, q.hh + t.max_h⟩
        queryLoop t search (t.nodes.length + 1) [((0 : Int), t.aabb)] []

/-- Walk to the last cell of an element-node chain (the inner while of the
leaf-append path of `_insert_element_node`). -/
def lastElemNode (t : Quadtree) : Nat → Int → Except QtFault Int
  | 0, _ => .error .fuelOut
  | fuel+1, en_id =>
      match t.element_nodes.get? en_id with
      | none => .error .oob
      | some qen => if qen.next = -1 then .ok en_id else lastElemNode t fuel qen.next

/-- Collect the element ids of a leaf chain, erasing each cell as it goes
(the do-while at the top of `_leaf_to_branch`). -/
def collectAndEraseChain (en : FreeList QuadElementNode) :
    Nat → Int → List Int × FreeList QuadElementNode × Option QtFault
  | 0, _ => ([], en, some .fuelOut)
  | fuel+1, en_id =>
      match en.get? en_id with
      | none => ([], en, some .oob)
      | some qen =>
          let en' := en.erase en_id
          if qen.next = -1 then ([qen.element], en', none)
          else
            let r := collectAndEraseChain en' fuel qen.next
            (qen.element :: r.1, r.2.1, r.2.2)

/-- Append one element to a child leaf during `_leaf_to_branch`
redistribution (src/ext/src/quadtree.cpp lines 203-221, loop body). -/
def appendElemToChild (t : Quadtree) (child_id element_id : Int) :
    Quadtree × Option QtFault :=
  let qen : QuadElementNode := { next := -1, element := element_id }
  match listGet? t.nodes child_id with
  | none => (t, some .oob)
  | some cn =>
      if cn.first_child = -1 then
        let r := t.element_nodes.insert qen
        let t' := { t with element_nodes := r.2 }
        (t'.nodesSet child_id { cn with first_child := r.1, count := cn.count + 1 }, none)
      else
        match lastElemNode t (t.element_nodes.data.length + 1) cn.first_child with
        | .error f => (t, some f)
        | .ok last =>
            let r := t.element_nodes.insert qen
            let t' := { t with
              element_nodes := r.2.modify last (fun q => { q with next := r.1 }) }
            (t'.nodesSet child_id { cn with count := cn.count + 1 }, none)

/-- Redistribution loop of `_leaf_to_branch`: the collected elements are
popped from the back of the SmallList, so the caller passes the reversed
collection list. -/
def redistribute (t : Quadtree) (first_child : Int) (aabb : AABB) :
    List Int → Quadtree × Option QtFault
  | [] => (t, none)
  | element_id :: rest =>
      match t.elements.get? element_id with
      | none => (t, some .oob)
      | some qe =>
          let child_id := first_child + (aabb.find_quadrant qe.aabb.x qe.aabb.y).toInt
          match appendElemToChild t child_id element_id with
          | (t', some f) => (t', some f)
          | (t', none) => redistribute t' first_child aabb rest

/-- Member `_leaf_to_branch` (src/ext/src/quadtree.cpp lines 183-222). -/
def leafToBranch (t : Quadtree) (node_id : Int) (aabb : AABB) :
    Quadtree × Option QtFault :=
  match listGet? t.nodes node_id with
  | none => (t, some .oob)
  | some nd0 =>
      let col :=
        if nd0.first_child ≠ -1 then
          collectAndEraseChain t.element_nodes (t.element_nodes.data.length + 1) nd0.first_child
        else ([], t.element_nodes, none)
      match col.2.2 with
      | some f => ({ t with element_nodes := col.2.1 }, some f)
      | none =>
          let t1 := { t with element_nodes := col.2.1 }
          let first_child : Int := (t1.nodes.length : Int)
          let t2 := t1.nodesSet node_id { nd0 with first_child := first_child }
          let t3 := { t2 with nodes := t2.nodes ++
            ([⟨-1, 0⟩, ⟨-1, 0⟩, ⟨-1, 0⟩, ⟨-1, 0⟩] : List QuadNode) }
          let t4 :=
            match listGet? t3.nodes node_id with
            | some nd1 => t3.nodesSet node_id { nd1 with count := -1 }
            | none => t3
          redistribute t4 first_child aabb col.1.reverse

/-- Descent step shared by the fall-through paths of `_insert_element_node`:
pick the quadrant of the point, push the corresponding child and shrink the
current quadrant box. -/
def insertDescend (t : Quadtree) (aabb : AABB)
    (go : Quadtree → Int → AABB → Int → Quadtree × Except QtFault Int)
    (node_index : Int) (current_quadrant : AABB) (depth : Int) :
    Quadtree × Except QtFault Int :=
  match listGet? t.nodes node_index with
  | none => (t, .error .oob)
  | some nd' =>
      let q := current_quadrant.find_quadrant aabb.x aabb.y
      go t (nd'.first_child + q.toInt) (current_quadrant.splitCenter q) (depth + 1)

/-- Main loop of `_insert_element_node` (src/ext/src/quadtree.cpp lines
138-178).  The worklist always holds exactly one pending node, so the loop is
a plain descent; the throw after the loop (unreachable in the source) is the
fuel-exhaustion outcome. -/
def insertElementNodeLoop (t : Quadtree) (aabb : AABB) :
    Nat → Int → AABB → Int → Quadtree × Except QtFault Int
  | 0, _, _, _ => (t, .error (.logicError "Could not find appropriate element node!"))
  | fuel+1, node_index, current_quadrant, depth =>
      match listGet? t.nodes node_index with
      | none => (t, .error .oob)
      | some nd =>
          if node_index = 0 ∧ nd.first_child = -1 then
            match leafToBranch t 0 current_quadrant with
            | (t', some f) => (t', .error f)
            | (t', none) =>
                insertDescend t' aabb (fun s a b c => insertElementNodeLoop s aabb fuel a b c)
                  node_index current_quadrant depth
          else if nd.count > -1 then
            if nd.count < t.max_leaf_elements ∨ depth = t.max_depth then
              if nd.first_child = -1 then
                let r := t.element_nodes.insert {}
                let t' := ({ t with element_nodes := r.2 }).nodesSet node_index
                  { nd with count := nd.count + 1, first_child := r.1 }
                (t', .ok r.1)
              else
                match lastElemNode t (t.element_nodes.data.length + 1) nd.first_child with
                | .error f => (t, .error f)
                | .ok last =>
                    (t.nodesSet node_index { nd with count := nd.count + 1 }, .ok last)
            else
              match leafToBranch t node_index current_quadrant with
              | (t', some f) => (t', .error f)
              | (t', none) =>
                  insertDescend t' aabb (fun s a b c => insertElementNodeLoop s aabb fuel a b c)
                    node_index current_quadrant depth
          else
            insertDescend t aabb (fun s a b c => insertElementNodeLoop s aabb fuel a b c)
              node_index current_quadrant depth

/-- Member `insert(int, AABB&)` (src/ext/src/quadtree.cpp lines 112-132). -/
def insert (t : Quadtree) (id : Int) (aabb : AABB) : Quadtree × Except QtFault Bool :=
  let r0 := t.elements.insert { id := id, aabb := aabb }
  let t0 := { t with elements := r0.2 }
  match insertElementNodeLoop t0 aabb (t0.max_depth.toNat + 2) 0 t0.aabb 0 with
  | (t', .error f) => (t', .error f)
  | (t', .ok prev_qen_id) =>
      match t'.element_nodes.get? prev_qen_id with
      | none => (t', .error .oob)
      | some qen =>
          let t'' :=
            if qen.element = -1 then
              { t' with element_nodes :=
                  t'.element_nodes.modify prev_qen_id (fun q => { q with element := r0.1 }) }
            else
              let r1 := t'.element_nodes.insert { next := -1, element := r0.1 }
              { t' with element_nodes :=
                  r1.2.modify prev_qen_id (fun q => { q with next := r1.1 }) }
          ({ t'' with max_w := D.maxD t''.max_w aabb.hw,
                      max_h := D.maxD t''.max_h aabb.hh }, .ok true)

/-- Search loop of `remove` over a multi-element leaf chain (src/ext/src/
quadtree.cpp lines 270-283).  When the id is absent the source runs off the
end of the chain and reads `_element_nodes[-1]`: that is the `.oob` outcome.
Returns (prev_qen, erase_qen, next_qen, erase_qe). -/
def removeSearchLoop (t : Quadtree) (id : Int) :
    Nat → Int → Int → Except QtFault (Int × Int × Int × Int)
  | 0, _, _ => .error .fuelOut
  | fuel+1, search_id, prev_qen =>
      match t.element_nodes.get? search_id with
      | none => .error .oob
      | some qen =>
          match t.elements.get? qen.element with
          | none => .error .oob
          | some el =>
              if el.id = id then .ok (prev_qen, search_id, qen.next, qen.element)
              else removeSearchLoop t id fuel qen.next search_id

/-- Main loop of `remove` (src/ext/src/quadtree.cpp lines 239-297). -/
def removeLoop (t : Quadtree) (id : Int) (aabb : AABB) :
    Nat → Int → AABB → Quadtree × Except QtFault Bool
  | 0, _, _ => (t, .error .fuelOut)
  | fuel+1, node_index, current_quadrant =>
      match listGet? t.nodes node_index with
      | none => (t, .error .oob)
      | some node =>
          if node.count = -1 then
            let q := current_quadrant.find_quadrant aabb.x aabb.y
            removeLoop t id aabb fuel (node.first_child + q.toInt)
              (current_quadrant.splitCenter q)
          else if node.count = 0 then
            (t, .error (.logicError "Unable to remove, leaf is empty"))
          else
            match t.element_nodes.get? node.first_child with
            | none => (t, .error .oob)
            | some en0 =>
                if en0.next = -1 then
                  match t.elements.get? en0.element with
                  | none => (t, .error .oob)
                  | some el =>
                      if el.id ≠ id then
                        (t, .error (.logicError "Unable to remove, element not found"))
                      else
                        let t1 := { t with elements := t.elements.erase en0.element,
                                           element_nodes := t.element_nodes.erase node.first_child }
                        (t1.nodesSet node_index
                          { node with first_child := -1, count := node.count - 1 }, .ok true)
                else
                  match removeSearchLoop t id (t.element_nodes.data.length + 1)
                      node.first_child (-1) with
                  | .error f => (t, .error f)
                  | .ok (prev_qen, erase_qen, next_qen, erase_qe) =>
                      let t1 :=
                        if prev_qen = -1 then
                          t.nodesSet node_index
                            { node with first_child := next_qen, count := node.count - 1 }
                        else
                          let en' := t.element_nodes.modify prev_qen (fun q => { q with next := next_qen })
                          ({ t with element_nodes := en' }).nodesSet node_index
                            { node with count := node.count - 1 }
                      ({ t1 with elements := t1.elements.erase erase_qe,
                                 element_nodes := t1.element_nodes.erase erase_qen }, .ok true)

/-- Member `remove(int, AABB&)`. -/
def remove (t : Quadtree) (id : Int) (aabb : AABB) : Quadtree × Except QtFault Bool :=
  removeLoop t id aabb (t.nodes.length + 1) 0 t.aabb

/-- Member `move(int, AABB&, AABB&)` (remove then insert). -/
def move (t : Quadtree) (id : Int) (aabb_from aabb_to : AABB) :
    Quadtree × Except QtFault Bool :=
  match t.remove id aabb_from with
  | (t', .ok true) => t'.insert id aabb_to
  | (t', .ok false) => (t', .ok false)
  | (t', .error f) => (t', .error f)

/-- Main loop of `cleanup` (src/ext/src/quadtree.cpp lines 302-335). -/
def cleanupLoop (t : Quadtree) : Nat → List Int → Quadtree
  | 0, _ => t
  | _, [] => t
  | fuel+1, node_index :: rest =>
      match listGet? t.nodes node_index with
      | none => t
      | some node =>
          let children := [(0 : Int), 1, 2, 3].map (fun j =>
            (node.first_child + j, listGet? t.nodes (node.first_child + j)))
          let num_empty := (children.filter (fun c =>
            match c.2 with
            | some ch => ch.count = 0
            | none => False)).length
          let pushes := children.filterMap (fun c =>
            match c.2 with
            | some ch => if ch.count = -1 then some c.1 else none
            | none => none)
          if num_empty = 4 then
            let t1 :=
              match listGet? t.nodes node.first_child with
              | some fcn => t.nodesSet node.first_child { fcn with first_child := t.free_node }
              | none => t
            let t2 := { t1 with free_node := node.first_child }
            cleanupLoop (t2.nodesSet node_index { node with first_child := -1, count := 0 })
              fuel (pushes.reverse ++ rest)
          else
            cleanupLoop t fuel (pushes.reverse ++ rest)

/-- Member `cleanup()`. -/
def cleanup (t : Quadtree) : Quadtree :=
  let start :=
    match listGet? t.nodes 0 with
    | some r => if r.count = -1 then [(0 : Int)] else []
    | none => []
  cleanupLoop t (t.nodes.length + 1) start

/-- Plain element-id collection of a leaf chain (used by `resize`). -/
def chainElements (t : Quadtree) : Nat → Int → List Int
  | 0, _ => []
  | fuel+1, en_id =>
      if en_id = -1 then []
      else
        match t.element_nodes.get? en_id with
        | none => []
        | some qen => qen.element :: chainElements t fuel qen.next

/-- Collection phase of `resize` (src/ext/src/quadtree.cpp lines 359-378). -/
def resizeCollect (t : Quadtree) : Nat → List Int → List Int → List Int
  | 0, _, acc => acc
  | _, [], acc => acc
  | fuel+1, node_index :: rest, acc =>
      match listGet? t.nodes node_index with
      | none => acc
      | some nd =>
          if nd.count = -1 then
            resizeCollect t fuel
              ((([(0 : Int), 1, 2, 3].map (fun i => nd.first_child + i)).reverse) ++ rest) acc
          else
            resizeCollect t fuel rest
              (acc ++ chainElements t (t.element_nodes.data.length + 1) nd.first_child)

/-- Reinsertion phase of `resize`: elements are popped from the back of the
collected SmallList, so the caller passes the reversed list. -/
def resizeReinsert : Quadtree → List Int → Quadtree × Option QtFault
  | t, [] => (t, none)
  | t, element_id :: rest =>
      match t.elements.get? element_id with
      | none => (t, some .oob)
      | some qe =>
          match t.insert qe.id qe.aabb with
          | (t', .error f) => (t', some f)
          | (t', .ok _) =>
              resizeReinsert { t' with elements := t'.elements.erase element_id } rest

/-- Member `resize(AABB&)` (src/ext/src/quadtree.cpp lines 357-393). -/
def resize (t : Quadtree) (aabb : AABB) : Quadtree × Option QtFault :=
  let start :=
    match listGet? t.nodes 0 with
    | some r => if r.count = -1 then [(0 : Int)] else []
    | none => []
  let collected := resizeCollect t (t.nodes.length + 1) start []
  let t1 : Quadtree :=
    { aabb := aabb, elements := t.elements, element_nodes := {},
      nodes := [{ first_child := -1, count := -1 }], free_node := t.free_node,
      max_leaf_elements := t.max_leaf_elements, max_depth := t.max_depth,
      max_w := 0, max_h := 0 }
  resizeReinsert t1 collected.reverse

end Quadtree

deriving instance DecidableEq for Except

/-! ## FreeList abstraction lemmas (for the C7 invariant proof)

FLOK describes a well-formed intrusive free chain: the list of free slot
indices threaded through the cells' next links, without duplicates and in
range.  A live chain of QuadElementNode cells is described by ChainIs at the
payload level (the links of a live chain are the payloads' next fields, which
in the embedding are separate from the cells' free links). -/

/-- The free chain starting at s consists exactly of the slots cs. -/
def FreeChainIs (l : FreeList α) : Int → List Int → Prop
  | s, [] => s = -1
  | s, c :: cs => s = c ∧ ∃ cell, listGet? l.data c = some cell ∧ FreeChainIs l cell.next cs

/-- Well-formed free list: its free chain is the Nodup, in-range list free. -/
def FLOK (l : FreeList α) (free : List Int) : Prop :=
  FreeChainIs l l.first_free free ∧ free.Nodup ∧
    ∀ c ∈ free, 0 ≤ c ∧ c.toNat < l.data.length

theorem freeChainIs_frame {l l' : FreeList α} {s : Int} {cs : List Int}
    (hread : ∀ c ∈ cs, (listGet? l'.data c).map (·.next) = (listGet? l.data c).map (·.next))
    (h : FreeChainIs l s cs) : FreeChainIs l' s cs := by
  induction cs generalizing s with
  | nil => exact h
  | cons c cs ih =>
      obtain ⟨hsc, cell, hc, hrest⟩ := h
      have hrd := hread c (by simp)
      rw [hc] at hrd
      match he : listGet? l'.data c with
      | none => rw [he] at hrd; simp at hrd
      | some cell' =>
          rw [he] at hrd
          have hnext : cell'.next = cell.next := by
            simpa using hrd
          exact ⟨hsc, cell', he, hnext ▸ ih (fun d hd => hread d (by simp [hd])) hrest⟩

theorem FLOK_insert {α : Type} {l : FreeList α} {free : List Int} (h : FLOK l free) (x : α) :
    ∃ id l', l.insert x = (id, l') ∧
      FLOK l' free.tail ∧
      (id ∈ free ∨ (id = (l.data.length : Int) ∧ free = [])) ∧
      0 ≤ id ∧ id.toNat < l'.data.length ∧
      l.data.length ≤ l'.data.length ∧
      l'.get? id = some x ∧
      (∀ m : Int, m ≠ id → l'.get? m = l.get? m) ∧
      id ∉ free.tail := by
  obtain ⟨hch, hnd, hb⟩ := h
  match free with
  | [] =>
      have hff : l.first_free = -1 := hch
      refine ⟨(l.data.length : Int), { l with data := l.data ++ [{ element := x, next := -1 }] },
        ?_, ⟨?_, by simp, by simp⟩, Or.inr ⟨rfl, rfl⟩, by positivity, ?_, by simp, ?_, ?_,
        by simp⟩
      · unfold FreeList.insert
        rw [if_neg (by simp [hff])]
      · show l.first_free = -1
        exact hff
      · show ((l.data.length : Int)).toNat < (l.data ++ [({ element := x, next := -1 } : FreeCell α)]).length
        rw [List.length_append]
        simp only [List.length_cons, List.length_nil]
        omega
      · show (listGet? (l.data ++ [({ element := x, next := -1 } : FreeCell α)])
          (l.data.length : Int)).map (·.element) = some x
        unfold listGet?
        rw [if_neg (by omega)]
        simp
      · intro m hm
        show (listGet? (l.data ++ [({ element := x, next := -1 } : FreeCell α)]) m).map (·.element)
          = (listGet? l.data m).map (·.element)
        unfold listGet?
        split
        · rfl
        · rename_i hm0
          by_cases hlt : m.toNat < l.data.length
          · rw [List.getElem?_append_left hlt]
          · have hne : m.toNat ≠ l.data.length := by
              intro he
              exact hm (by omega)
            rw [List.getElem?_eq_none (by
                rw [List.length_append]
                simp only [List.length_cons, List.length_nil]
                omega),
              List.getElem?_eq_none (by omega)]
  | c :: cs =>
      obtain ⟨hffc, cell, hcell, hrest⟩ := hch
      obtain ⟨hc0, hcl⟩ := hb c (by simp)
      refine ⟨c, { l with first_free := cell.next,
                          data := listSet l.data c { cell with element := x } },
        ?_, ⟨?_, hnd.of_cons, ?_⟩, Or.inl (by simp), hc0, ?_, by simp [length_listSet], ?_, ?_,
        (List.nodup_cons.mp hnd).1⟩
      · unfold FreeList.insert
        rw [if_pos (by omega)]
        simp only [hffc, hcell]
      · show FreeChainIs _ cell.next cs
        refine freeChainIs_frame ?_ hrest
        intro d hd
        rw [listGet?_listSet_ne]
        intro he
        exact (List.nodup_cons.mp hnd).1 (he ▸ hd)
      · intro d hd
        obtain ⟨hd0, hdl⟩ := hb d (List.mem_cons_of_mem c (by simpa using hd))
        exact ⟨hd0, by simpa [length_listSet] using hdl⟩
      · simp only [length_listSet]
        exact hcl
      · show FreeList.get? _ _ = _
        unfold FreeList.get?
        rw [listGet?_listSet_self _ _ _ hc0 hcl]
        rfl
      · intro m hm
        show FreeList.get? _ _ = _
        unfold FreeList.get?
        rw [listGet?_listSet_ne _ _ _ _ (fun he => hm he.symm)]

theorem FLOK_erase {l : FreeList α} {free : List Int} (h : FLOK l free) {n : Int}
    (h0 : 0 ≤ n) (hl : n.toNat < l.data.length) (hn : n ∉ free) :
    FLOK (l.erase n) (n :: free) ∧
    (l.erase n).data.length = l.data.length ∧
    (∀ m : Int, (l.erase n).get? m = l.get? m) := by
  obtain ⟨hch, hnd, hb⟩ := h
  have hc : listGet? l.data n = some (l.data.get ⟨n.toNat, hl⟩) :=
    listGet?_eq_some_iff.mpr ⟨h0, hl, rfl⟩
  set c := l.data.get ⟨n.toNat, hl⟩ with hcdef
  unfold FreeList.erase
  rw [hc]
  simp only
  refine ⟨⟨⟨rfl, { c with next := l.first_free }, listGet?_listSet_self _ _ _ h0 hl, ?_⟩,
      List.nodup_cons.mpr ⟨hn, hnd⟩, ?_⟩, by simp [length_listSet], ?_⟩
  · refine freeChainIs_frame ?_ hch
    intro d hd
    rw [listGet?_listSet_ne]
    intro he
    exact hn (he ▸ hd)
  · intro d hd
    rcases List.mem_cons.mp hd with rfl | hd'
    · exact ⟨h0, by simpa [length_listSet] using hl⟩
    · obtain ⟨hd0, hdl⟩ := hb d hd'
      exact ⟨hd0, by simpa [length_listSet] using hdl⟩
  · intro m
    unfold FreeList.get?
    by_cases hm : m = n
    · subst hm
      rw [listGet?_listSet_self _ _ _ h0 hl, hc]
      rfl
    · rw [listGet?_listSet_ne _ _ _ _ (fun he => hm he.symm)]

theorem FLOK_modify {α : Type} {l : FreeList α} {free : List Int} (h : FLOK l free)
    (n : Int) (g : α → α) :
    FLOK (l.modify n g) free ∧
    (l.modify n g).data.length = l.data.length ∧
    (∀ m : Int, m ≠ n → (l.modify n g).get? m = l.get? m) ∧
    (∀ a, l.get? n = some a → (l.modify n g).get? n = some (g a)) := by
  obtain ⟨hch, hnd, hb⟩ := h
  match hc : listGet? l.data n with
  | none =>
      have hmod : l.modify n g = l := by
        unfold FreeList.modify
        rw [hc]
      rw [hmod]
      refine ⟨⟨hch, hnd, hb⟩, rfl, fun _ _ => rfl, fun a ha => ?_⟩
      unfold FreeList.get? at ha
      rw [hc] at ha
      simp at ha
  | some cell =>
      have hn0 : 0 ≤ n := (listGet?_eq_some_iff.mp hc).1
      have hnl : n.toNat < l.data.length := (listGet?_eq_some_iff.mp hc).2.1
      have hmod : l.modify n g =
          { l with data := listSet l.data n { cell with element := g cell.element } } := by
        unfold FreeList.modify
        rw [hc]
      rw [hmod]
      refine ⟨⟨?_, hnd, ?_⟩, by simp [length_listSet], ?_, ?_⟩
      · show FreeChainIs _ l.first_free free
        refine freeChainIs_frame ?_ hch
        intro d hd
        by_cases hdn : d = n
        · subst hdn
          rw [listGet?_listSet_self _ _ _ hn0 hnl, hc]
          rfl
        · rw [listGet?_listSet_ne _ _ _ _ (fun he => hdn he.symm)]
      · intro d hd
        obtain ⟨hd0, hdl⟩ := hb d hd
        exact ⟨hd0, by simpa [length_listSet] using hdl⟩
      · intro m hm
        show FreeList.get? _ _ = _
        unfold FreeList.get?
        rw [listGet?_listSet_ne _ _ _ _ (fun he => hm he.symm)]
      · intro a ha
        unfold FreeList.get? at ha
        rw [hc] at ha
        simp at ha
        show FreeList.get? _ _ = _
        unfold FreeList.get?
        rw [listGet?_listSet_self _ _ _ hn0 hnl]
        show some (g cell.element) = _
        rw [ha]

/-! ### Live element-node chains -/

/-- The live chain starting at s (following the payloads' next fields)
consists exactly of the cells cs. -/
def ChainIs (l : FreeList QuadElementNode) : Int → List Int → Prop
  | s, [] => s = -1
  | s, c :: cs => s = c ∧ ∃ qen, l.get? c = some qen ∧ ChainIs l qen.next cs

theorem chainIs_frame {l l' : FreeList QuadElementNode} {s : Int} {cells : List Int}
    (hread : ∀ c ∈ cells, l'.get? c = l.get? c)
    (h : ChainIs l s cells) : ChainIs l' s cells := by
  induction cells generalizing s with
  | nil => exact h
  | cons c cs ih =>
      obtain ⟨hsc, qen, hc, hrest⟩ := h
      exact ⟨hsc, qen, by rw [hread c (by simp)]; exact hc,
        ih (fun d hd => hread d (by simp [hd])) hrest⟩

theorem chainIs_mem_nonneg {l : FreeList QuadElementNode} {s : Int} {cells : List Int}
    (h : ChainIs l s cells) : ∀ c ∈ cells, ∃ qen, l.get? c = some qen := by
  induction cells generalizing s with
  | nil => intro c hc; simp at hc
  | cons c cs ih =>
      obtain ⟨hsc, qen, hc, hrest⟩ := h
      intro d hd
      rcases List.mem_cons.mp hd with rfl | hd'
      · exact ⟨qen, hc⟩
      · exact ih hrest d hd'

theorem lastElemNode_spec {t : Quadtree} {s : Int} {cells : List Int}
    (h : ChainIs t.element_nodes s cells) (hne : cells ≠ [])
    (hb : ∀ c ∈ cells, 0 ≤ c) :
    ∀ fuel, cells.length ≤ fuel →
    Quadtree.lastElemNode t fuel s = .ok (cells.getLast hne) := by
  induction cells generalizing s with
  | nil => exact absurd rfl hne
  | cons c cs ih =>
      obtain ⟨hsc, qen, hc, hrest⟩ := h
      subst hsc
      intro fuel hfuel
      match fuel with
      | 0 => simp at hfuel
      | fuel + 1 =>
          unfold Quadtree.lastElemNode
          rw [hc]
          simp only
          match cs, hrest with
          | [], hrest =>
              have hn1 : qen.next = -1 := hrest
              rw [if_pos hn1]
              rfl
          | c2 :: cs', hrest =>
              have hc2 : qen.next = c2 := hrest.1
              rw [if_neg (by
                rw [hc2]
                have := hb c2 (by simp)
                omega)]
              rw [ih hrest (by simp) (fun d hd => hb d (by simp [hd])) fuel
                (by simpa using hfuel)]
              exact congrArg Except.ok (List.getLast_cons (by simp)).symm

theorem collectAndEraseChain_spec {l : FreeList QuadElementNode} {free : List Int}
    {s : Int} {cells : List Int}
    (h : ChainIs l s cells) (hnd : cells.Nodup)
    (hb : ∀ c ∈ cells, 0 ≤ c ∧ c.toNat < l.data.length ∧ c ∉ free)
    (hfl : FLOK l free) (hne : cells ≠ []) :
    ∀ fuel, cells.length ≤ fuel →
    ∃ els l', Quadtree.collectAndEraseChain l fuel s = (els, l', none) ∧
      els.length = cells.length ∧
      (∀ e ∈ els, ∃ c ∈ cells, ∃ qen, l.get? c = some qen ∧ e = qen.element) ∧
      FLOK l' (cells.reverse ++ free) ∧
      l'.data.length = l.data.length ∧
      (∀ m : Int, l'.get? m = l.get? m) := by
  induction cells generalizing s l free with
  | nil => exact absurd rfl hne
  | cons c cs ih =>
      obtain ⟨hsc, qen, hc, hrest⟩ := h
      intro fuel hfuel
      match fuel with
      | 0 => simp at hfuel
      | fuel + 1 =>
          rw [hsc]
          obtain ⟨hc0, hcl, hcf⟩ := hb c (by simp)
          obtain ⟨hfl1, hlen1, hread1⟩ := FLOK_erase ⟨hfl.1, hfl.2.1, hfl.2.2⟩ hc0 hcl hcf
          unfold Quadtree.collectAndEraseChain
          rw [hc]
          simp only
          match cs, hrest, hnd with
          | [], hrest, _ =>
              have hn1 : qen.next = -1 := hrest
              rw [if_pos hn1]
              refine ⟨[qen.element], l.erase c, rfl, rfl, ?_, ?_, hlen1, hread1⟩
              · intro e he
                simp only [List.mem_singleton] at he
                exact ⟨c, by simp, qen, hc, he⟩
              · simpa using hfl1
          | c2 :: cs', hrest, hnd =>
              have hc2 : qen.next = c2 := hrest.1
              rw [if_neg (by
                rw [hc2]
                have := (hb c2 (by simp)).1
                omega)]
              have hrest' : ChainIs (l.erase c) qen.next (c2 :: cs') :=
                chainIs_frame (fun d _ => hread1 d) hrest
              have hb' : ∀ d ∈ c2 :: cs', 0 ≤ d ∧ d.toNat < (l.erase c).data.length ∧
                  d ∉ c :: free := by
                intro d hd
                obtain ⟨hd0, hdl, hdf⟩ := hb d (by simp [hd])
                refine ⟨hd0, by omega, ?_⟩
                intro hmem
                rcases List.mem_cons.mp hmem with rfl | hmem'
                · exact (List.nodup_cons.mp hnd).1 hd
                · exact hdf hmem'
              obtain ⟨els', l', heq, hlen', hels', hfl', hlen2, hread2⟩ :=
                ih hrest' (List.nodup_cons.mp hnd).2 hb' hfl1 (by simp) fuel
                  (by simpa using hfuel)
              refine ⟨qen.element :: els', l', by rw [heq], by simp [hlen'], ?_, ?_, ?_, ?_⟩
              · intro e he
                rcases List.mem_cons.mp he with rfl | he'
                · exact ⟨c, by simp, qen, hc, rfl⟩
                · obtain ⟨d, hd, qd, hqd, hqde⟩ := hels' e he'
                  exact ⟨d, by simp [hd], qd, by rw [← hread1 d]; exact hqd, hqde⟩
              · have : (c :: c2 :: cs').reverse ++ free = (c2 :: cs').reverse ++ (c :: free) := by
                  simp
                rw [this]
                exact hfl'
              · omega
              · intro m
                rw [hread2 m, hread1 m]

/-! ## Shape trees: the structural invariant of a quadtree (for C7)

An STree is the abstract shape of the quadtree's flat node array: which
indices form branches, which form leaves, and which element-node cells make
up each leaf's chain.  Models t s states that the arrays of t realize the
shape s; the insert specification below shows that Quadtree.insert preserves
a well-formed shape and the leaf-capacity bound. -/

/-- A list of Nodup nonnegative ints all below n has length at most n. -/
theorem nodup_bounded_length {l : List Int} {n : Nat} (hnd : l.Nodup)
    (hb : ∀ c ∈ l, 0 ≤ c ∧ c.toNat < n) : l.length ≤ n := by
  classical
  have hinj : ∀ c ∈ l, ∀ d ∈ l, c.toNat = d.toNat → c = d := by
    intro c hc d hd he
    have h1 := (hb c hc).1
    have h2 := (hb d hd).1
    omega
  have hmapnd : (l.map Int.toNat).Nodup := hnd.map_on hinj
  have hsub : l.map Int.toNat ⊆ List.range n := by
    intro x hx
    obtain ⟨c, hc, rfl⟩ := List.mem_map.mp hx
    exact List.mem_range.mpr (hb c hc).2
  have hle : (l.map Int.toNat).length ≤ (List.range n).length :=
    (hmapnd.subperm hsub).length_le
  simpa using hle

/-- The last cell of a nonempty live chain has next = -1. -/
theorem chainIs_getLast {l : FreeList QuadElementNode} {s : Int} {cells : List Int}
    (h : ChainIs l s cells) (hne : cells ≠ []) :
    ∃ qen, l.get? (cells.getLast hne) = some qen ∧ qen.next = -1 := by
  induction cells generalizing s with
  | nil => exact absurd rfl hne
  | cons c cs ih =>
      obtain ⟨hsc, qen, hc, hrest⟩ := h
      match cs, hrest with
      | [], hrest => exact ⟨qen, hc, hrest⟩
      | c2 :: cs', hrest =>
          obtain ⟨qd, hqd, hqn⟩ := ih hrest (by simp)
          refine ⟨qd, ?_, hqn⟩
          rw [List.getLast_cons (by simp)]
          exact hqd

/-- Shape of a quadtree node array. -/
inductive STree where
  | nil (idx : Int)
  | leaf (idx : Int) (cells : List Int) (count : Int)
  | branch (idx : Int) (fc : Int) (tl tr bl br : STree)

namespace STree

/-- Index of the array node this shape describes. -/
def idx : STree → Int
  | .nil i => i
  | .leaf i _ _ => i
  | .branch i _ _ _ _ _ => i

/-- Child of a branch shape in a given quadrant (identity on non-branches;
only ever used on branches). -/
def child : STree → Quadrant → STree
  | .branch _ _ a _ _ _, .TL => a
  | .branch _ _ _ b _ _, .TR => b
  | .branch _ _ _ _ c _, .BL => c
  | .branch _ _ _ _ _ e, .BR => e
  | s, _ => s

/-- All node indices of the shape. -/
def nodeIdxs : STree → List Int
  | .nil i => [i]
  | .leaf i _ _ => [i]
  | .branch i _ a b c e => i :: (a.nodeIdxs ++ b.nodeIdxs ++ c.nodeIdxs ++ e.nodeIdxs)

/-- All live element-node cells of the shape. -/
def cellsOf : STree → List Int
  | .nil _ => []
  | .leaf _ cs _ => cs
  | .branch _ _ a b c e => a.cellsOf ++ b.cellsOf ++ c.cellsOf ++ e.cellsOf

/-- Shape kind tests. -/
def isNil : STree → Bool
  | .nil _ => true
  | _ => false

def isLeaf : STree → Bool
  | .leaf _ _ _ => true
  | _ => false

def isBranch : STree → Bool
  | .branch _ _ _ _ _ _ => true
  | _ => false

/-- The nil shape only ever describes the freshly constructed root. -/
def goodKinds : STree → Prop
  | .nil i => i = 0
  | .leaf i _ _ => i ≠ 0
  | .branch _ _ a b c e => goodKinds a ∧ goodKinds b ∧ goodKinds c ∧ goodKinds e

end STree

/-- The arrays of t realize the shape s: a nil is the fresh sentinel root, a
leaf holds a live chain of exactly its cells with at least that many counted
(the count may transiently over-count by one between the two halves of
insert), and a branch holds four consecutive children. -/
def Models (t : Quadtree) : STree → Prop
  | .nil i => listGet? t.nodes i = some ⟨-1, -1⟩
  | .leaf i cells count => ∃ nd, listGet? t.nodes i = some nd ∧
      nd.count = count ∧ ChainIs t.element_nodes nd.first_child cells ∧
      (cells.length : Int) ≤ count
  | .branch i fc a b c e => ∃ nd, listGet? t.nodes i = some nd ∧
      nd.count = -1 ∧ nd.first_child = fc ∧ 1 ≤ fc ∧
      a.idx = fc ∧ b.idx = fc + 1 ∧ c.idx = fc + 2 ∧ e.idx = fc + 3 ∧
      Models t a ∧ Models t b ∧ Models t c ∧ Models t e

/-- Leaf-capacity bound of the claim: every leaf shape lying at a depth
strictly below mld has count at most mle. -/
def CountsOK (mld mle : Int) : STree → Int → Prop
  | .nil _, _ => True
  | .leaf _ _ count, d => d < mld → count ≤ mle
  | .branch _ _ a b c e, d =>
      CountsOK mld mle a (d + 1) ∧ CountsOK mld mle b (d + 1) ∧
      CountsOK mld mle c (d + 1) ∧ CountsOK mld mle e (d + 1)

/-- Range and disjointness side conditions of a shape against a tree. -/
def SOK (t : Quadtree) (s : STree) (free : List Int) : Prop :=
  s.nodeIdxs.Nodup ∧ (∀ i ∈ s.nodeIdxs, 0 ≤ i ∧ i.toNat < t.nodes.length) ∧
  s.cellsOf.Nodup ∧
  (∀ c ∈ s.cellsOf, 0 ≤ c ∧ c.toNat < t.element_nodes.data.length ∧ c ∉ free)

/-- Payload validity: live cells point into the elements arena (the cell
currently being handed to the second half of insert is exempted by callers). -/
def CellPayloadsOK (t : Quadtree) (s : STree) : Prop :=
  ∀ c ∈ s.cellsOf, ∀ qen, t.element_nodes.get? c = some qen →
    0 ≤ qen.element ∧ qen.element.toNat < t.elements.data.length

theorem Models_frame {t t' : Quadtree} {s : STree}
    (hn : ∀ i ∈ s.nodeIdxs, listGet? t'.nodes i = listGet? t.nodes i)
    (he : ∀ c ∈ s.cellsOf, t'.element_nodes.get? c = t.element_nodes.get? c)
    (h : Models t s) : Models t' s := by
  induction s with
  | nil i =>
      show listGet? t'.nodes i = _
      rw [hn i (by simp [STree.nodeIdxs])]
      exact h
  | leaf i cells count =>
      obtain ⟨nd, hnd, hcnt, hch, hlen⟩ := h
      refine ⟨nd, ?_, hcnt, chainIs_frame ?_ hch, hlen⟩
      · rw [hn i (by simp [STree.nodeIdxs])]
        exact hnd
      · intro c hc
        exact he c (by simpa [STree.cellsOf] using hc)
  | branch i fc a b c e iha ihb ihc ihe =>
      obtain ⟨nd, hnd, hcnt, hfc, hfc1, ha, hb, hc, hee, hma, hmb, hmc, hme⟩ := h
      refine ⟨nd, ?_, hcnt, hfc, hfc1, ha, hb, hc, hee, ?_, ?_, ?_, ?_⟩
      · rw [hn i (by simp [STree.nodeIdxs])]
        exact hnd
      · exact iha (fun j hj => hn j (by simp [STree.nodeIdxs, hj]))
          (fun d hd => he d (by simp [STree.cellsOf, hd])) hma
      · exact ihb (fun j hj => hn j (by simp [STree.nodeIdxs, hj]))
          (fun d hd => he d (by simp [STree.cellsOf, hd])) hmb
      · exact ihc (fun j hj => hn j (by simp [STree.nodeIdxs, hj]))
          (fun d hd => he d (by simp [STree.cellsOf, hd])) hmc
      · exact ihe (fun j hj => hn j (by simp [STree.nodeIdxs, hj]))
          (fun d hd => he d (by simp [STree.cellsOf, hd])) hme

/-- The shape contains a leaf with the given index, cells and count. -/
def ContainsLeaf : STree → Int → List Int → Int → Prop
  | .leaf i cs cnt, j, cells, count => i = j ∧ cs = cells ∧ cnt = count
  | .branch _ _ a b c e, j, cells, count =>
      ContainsLeaf a j cells count ∨ ContainsLeaf b j cells count ∨
      ContainsLeaf c j cells count ∨ ContainsLeaf e j cells count
  | .nil _, _, _, _ => False

/-- Replace the cells and count of the leaf with index j. -/
def setLeaf : STree → Int → List Int → Int → STree
  | .leaf i cs cnt, j, cells, count => if i = j then .leaf i cells count else .leaf i cs cnt
  | .branch i fc a b c e, j, cells, count =>
      .branch i fc (setLeaf a j cells count) (setLeaf b j cells count)
        (setLeaf c j cells count) (setLeaf e j cells count)
  | .nil i, _, _, _ => .nil i

theorem setLeaf_idx (s : STree) (j : Int) (cells : List Int) (count : Int) :
    (setLeaf s j cells count).idx = s.idx := by
  cases s with
  | nil i => rfl
  | leaf i cs cnt =>
      unfold setLeaf
      split <;> rfl
  | branch i fc a b c e => rfl

theorem setLeaf_nodeIdxs (s : STree) (j : Int) (cells : List Int) (count : Int) :
    (setLeaf s j cells count).nodeIdxs = s.nodeIdxs := by
  induction s with
  | nil i => rfl
  | leaf i cs cnt =>
      unfold setLeaf
      split <;> rfl
  | branch i fc a b c e iha ihb ihc ihe =>
      show _ :: _ = _ :: _
      rw [iha, ihb, ihc, ihe]

theorem containsLeaf_mem {s : STree} {j : Int} {cs : List Int} {cnt : Int}
    (h : ContainsLeaf s j cs cnt) : j ∈ s.nodeIdxs := by
  induction s with
  | nil i => exact absurd h (by simp [ContainsLeaf])
  | leaf i cs' cnt' =>
      obtain ⟨rfl, -, -⟩ := h
      simp [STree.nodeIdxs]
  | branch i fc a b c e iha ihb ihc ihe =>
      show j ∈ _ :: (_ ++ _ ++ _ ++ _)
      rcases h with h | h | h | h
      · simp [iha h]
      · simp [ihb h]
      · simp [ihc h]
      · simp [ihe h]

theorem setLeaf_eq_of_not_mem {s : STree} {j : Int} (cells : List Int) (count : Int)
    (h : j ∉ s.nodeIdxs) : setLeaf s j cells count = s := by
  induction s with
  | nil i => rfl
  | leaf i cs cnt =>
      unfold setLeaf
      rw [if_neg]
      intro he
      exact h (by simp [STree.nodeIdxs, he])
  | branch i fc a b c e iha ihb ihc ihe =>
      have hmem : ∀ x : STree, (x = a ∨ x = b ∨ x = c ∨ x = e) → j ∉ x.nodeIdxs := by
        intro x hx hj
        apply h
        show j ∈ _ :: (_ ++ _ ++ _ ++ _)
        rcases hx with rfl | rfl | rfl | rfl <;> simp [hj]
      show STree.branch i fc _ _ _ _ = _
      rw [iha (hmem a (by simp)), ihb (hmem b (by simp)),
        ihc (hmem c (by simp)), ihe (hmem e (by simp))]

/-- Decomposition of a 4-way append Nodup into component Nodups and pairwise
disjointness. -/
theorem nodup_append4 {A B C E : List Int} (h : (A ++ B ++ C ++ E).Nodup) :
    A.Nodup ∧ B.Nodup ∧ C.Nodup ∧ E.Nodup ∧
    (∀ x ∈ A, x ∉ B ∧ x ∉ C ∧ x ∉ E) ∧
    (∀ x ∈ B, x ∉ A ∧ x ∉ C ∧ x ∉ E) ∧
    (∀ x ∈ C, x ∉ A ∧ x ∉ B ∧ x ∉ E) ∧
    (∀ x ∈ E, x ∉ A ∧ x ∉ B ∧ x ∉ C) := by
  rw [List.nodup_append, List.nodup_append, List.nodup_append] at h
  obtain ⟨⟨⟨hA, hB, hAB⟩, hC, hABC⟩, hE, hABCE⟩ := h
  refine ⟨hA, hB, hC, hE, ?_, ?_, ?_, ?_⟩
  · intro x hx
    exact ⟨hAB hx, hABC (by simp [hx]), hABCE (by simp [hx])⟩
  · intro x hx
    exact ⟨fun hx' => hAB hx' hx, hABC (by simp [hx]), hABCE (by simp [hx])⟩
  · intro x hx
    exact ⟨fun hx' => hABC (by simp [hx']) hx, fun hx' => hABC (by simp [hx']) hx,
      hABCE (by simp [hx])⟩
  · intro x hx
    exact ⟨fun hx' => hABCE (by simp [hx']) hx, fun hx' => hABCE (by simp [hx']) hx,
      fun hx' => hABCE (by simp [hx']) hx⟩

theorem containsLeaf_cells_sub {s : STree} {j : Int} {cs : List Int} {cnt : Int}
    (h : ContainsLeaf s j cs cnt) : ∀ c ∈ cs, c ∈ s.cellsOf := by
  induction s with
  | nil i => exact absurd h (by simp [ContainsLeaf])
  | leaf i cs' cnt' =>
      obtain ⟨-, rfl, -⟩ := h
      intro c hc
      exact hc
  | branch i fc a b c e iha ihb ihc ihe =>
      intro x hx
      show x ∈ _ ++ _ ++ _ ++ _
      rcases h with h | h | h | h
      · simp [iha h x hx]
      · simp [ihb h x hx]
      · simp [ihc h x hx]
      · simp [ihe h x hx]

/-- Splitting view of the cells after a setLeaf: with Nodup node indices, a
contained leaf's cells occur as one contiguous segment and setLeaf replaces
exactly that segment. -/
theorem cellsOf_setLeaf_split {s : STree} {j : Int} {cs : List Int} {cnt : Int}
    (h : ContainsLeaf s j cs cnt) (hnd : s.nodeIdxs.Nodup)
    (cells' : List Int) (count' : Int) :
    ∃ pre post, s.cellsOf = pre ++ (cs ++ post) ∧
      (setLeaf s j cells' count').cellsOf = pre ++ (cells' ++ post) := by
  induction s with
  | nil i => exact absurd h (by simp [ContainsLeaf])
  | leaf i cs' cnt' =>
      obtain ⟨rfl, rfl, rfl⟩ := h
      refine ⟨[], [], by simp [STree.cellsOf], ?_⟩
      unfold setLeaf
      rw [if_pos rfl]
      simp [STree.cellsOf]
  | branch i fc a b c e iha ihb ihc ihe =>
      have hnd2 : (a.nodeIdxs ++ b.nodeIdxs ++ c.nodeIdxs ++ e.nodeIdxs).Nodup :=
        (List.nodup_cons.mp hnd).2
      obtain ⟨hda, hdb, hdc, hde, hdA, hdB, hdC, hdE⟩ := nodup_append4 hnd2
      rcases h with h | h | h | h
      · obtain ⟨pre, post, h1, h2⟩ := iha h hda
        obtain ⟨hnb, hnc, hne⟩ := hdA j (containsLeaf_mem h)
        refine ⟨pre, post ++ (b.cellsOf ++ c.cellsOf ++ e.cellsOf), ?_, ?_⟩
        · show a.cellsOf ++ b.cellsOf ++ c.cellsOf ++ e.cellsOf = _
          rw [h1]
          simp
        · show (setLeaf a j cells' count').cellsOf ++ (setLeaf b j cells' count').cellsOf
            ++ (setLeaf c j cells' count').cellsOf ++ (setLeaf e j cells' count').cellsOf = _
          rw [h2, setLeaf_eq_of_not_mem _ _ hnb, setLeaf_eq_of_not_mem _ _ hnc,
            setLeaf_eq_of_not_mem _ _ hne]
          simp
      · obtain ⟨pre, post, h1, h2⟩ := ihb h hdb
        obtain ⟨hna, hnc, hne⟩ := hdB j (containsLeaf_mem h)
        refine ⟨a.cellsOf ++ pre, post ++ (c.cellsOf ++ e.cellsOf), ?_, ?_⟩
        · show a.cellsOf ++ b.cellsOf ++ c.cellsOf ++ e.cellsOf = _
          rw [h1]
          simp
        · show (setLeaf a j cells' count').cellsOf ++ (setLeaf b j cells' count').cellsOf
            ++ (setLeaf c j cells' count').cellsOf ++ (setLeaf e j cells' count').cellsOf = _
          rw [h2, setLeaf_eq_of_not_mem _ _ hna, setLeaf_eq_of_not_mem _ _ hnc,
            setLeaf_eq_of_not_mem _ _ hne]
          simp
      · obtain ⟨pre, post, h1, h2⟩ := ihc h hdc
        obtain ⟨hna, hnb, hne⟩ := hdC j (containsLeaf_mem h)
        refine ⟨a.cellsOf ++ b.cellsOf ++ pre, post ++ e.cellsOf, ?_, ?_⟩
        · show a.cellsOf ++ b.cellsOf ++ c.cellsOf ++ e.cellsOf = _
          rw [h1]
          simp
        · show (setLeaf a j cells' count').cellsOf ++ (setLeaf b j cells' count').cellsOf
            ++ (setLeaf c j cells' count').cellsOf ++ (setLeaf e j cells' count').cellsOf = _
          rw [h2, setLeaf_eq_of_not_mem _ _ hna, setLeaf_eq_of_not_mem _ _ hnb,
            setLeaf_eq_of_not_mem _ _ hne]
          simp
      · obtain ⟨pre, post, h1, h2⟩ := ihe h hde
        obtain ⟨hna, hnb, hnc⟩ := hdE j (containsLeaf_mem h)
        refine ⟨a.cellsOf ++ b.cellsOf ++ c.cellsOf ++ pre, post, ?_, ?_⟩
        · show a.cellsOf ++ b.cellsOf ++ c.cellsOf ++ e.cellsOf = _
          rw [h1]
          simp
        · show (setLeaf a j cells' count').cellsOf ++ (setLeaf b j cells' count').cellsOf
            ++ (setLeaf c j cells' count').cellsOf ++ (setLeaf e j cells' count').cellsOf = _
          rw [h2, setLeaf_eq_of_not_mem _ _ hna, setLeaf_eq_of_not_mem _ _ hnb,
            setLeaf_eq_of_not_mem _ _ hnc]
          simp

theorem Models_setLeaf {t t' : Quadtree} {s : STree} {j : Int} {cs : List Int}
    {cnt : Int} (cells' : List Int)
    (hm : Models t s) (hcl : ContainsLeaf s j cs cnt)
    (hnd : s.nodeIdxs.Nodup) (hcellnd : s.cellsOf.Nodup)
    (hn : ∀ i ∈ s.nodeIdxs, listGet? t'.nodes i = listGet? t.nodes i)
    (he : ∀ c ∈ s.cellsOf, c ∉ cs → t'.element_nodes.get? c = t.element_nodes.get? c)
    (hnew : ∀ nd : QuadNode, listGet? t.nodes j = some nd →
      ChainIs t'.element_nodes nd.first_child cells' ∧ (cells'.length : Int) ≤ cnt)
    : Models t' (setLeaf s j cells' cnt) := by
  induction s with
  | nil i =>
      show listGet? t'.nodes i = _
      rw [hn i (by simp [STree.nodeIdxs])]
      exact hm
  | leaf i cs' cnt' =>
      obtain ⟨rfl, rfl, rfl⟩ := hcl
      obtain ⟨nd, hndread, hcnt, hch, hlen⟩ := hm
      unfold setLeaf
      rw [if_pos rfl]
      obtain ⟨hch', hlen'⟩ := hnew nd hndread
      refine ⟨nd, ?_, hcnt, hch', hlen'⟩
      rw [hn i (by simp [STree.nodeIdxs])]
      exact hndread
  | branch i fc a b c e iha ihb ihc ihe =>
      obtain ⟨nd, hndread, hcnt, hfc, hfc1, ha, hb, hc, hee, hma, hmb, hmc, hme⟩ := hm
      have hnd2 : (a.nodeIdxs ++ b.nodeIdxs ++ c.nodeIdxs ++ e.nodeIdxs).Nodup :=
        (List.nodup_cons.mp hnd).2
      obtain ⟨hda, hdb, hdc, hde, hdA, hdB, hdC, hdE⟩ := nodup_append4 hnd2
      have hcell2 : (a.cellsOf ++ b.cellsOf ++ c.cellsOf ++ e.cellsOf).Nodup := hcellnd
      obtain ⟨hca, hcb, hcc, hce, hcA, hcB, hcC, hcE⟩ := nodup_append4 hcell2
      have hsubn : ∀ x : STree, (x = a ∨ x = b ∨ x = c ∨ x = e) →
          ∀ i' ∈ x.nodeIdxs, listGet? t'.nodes i' = listGet? t.nodes i' := by
        intro x hx i' hi'
        apply hn
        show i' ∈ _ :: (_ ++ _ ++ _ ++ _)
        rcases hx with rfl | rfl | rfl | rfl <;> simp [hi']
      have hsube : ∀ x : STree, (x = a ∨ x = b ∨ x = c ∨ x = e) →
          ∀ c' ∈ x.cellsOf, c' ∉ cs →
            t'.element_nodes.get? c' = t.element_nodes.get? c' := by
        intro x hx c' hc' hcs
        apply he _ _ hcs
        show c' ∈ _ ++ _ ++ _ ++ _
        rcases hx with rfl | rfl | rfl | rfl <;> simp [hc']
      refine ⟨nd, ?_, hcnt, hfc, hfc1, ?_, ?_, ?_, ?_, ?_, ?_, ?_, ?_⟩
      · rw [hn i (by simp [STree.nodeIdxs])]
        exact hndread
      · rw [setLeaf_idx]
        exact ha
      · rw [setLeaf_idx]
        exact hb
      · rw [setLeaf_idx]
        exact hc
      · rw [setLeaf_idx]
        exact hee
      · rcases hcl with h | h | h | h
        · exact iha hma h hda hca (hsubn a (by simp)) (hsube a (by simp))
        · rw [setLeaf_eq_of_not_mem _ _ (hdB j (containsLeaf_mem h)).1]
          refine Models_frame (hsubn a (by simp)) ?_ hma
          intro c' hc'
          refine hsube a (by simp) c' hc' ?_
          intro hcs
          exact (hcA c' hc').1 (containsLeaf_cells_sub h c' hcs)
        · rw [setLeaf_eq_of_not_mem _ _ (hdC j (containsLeaf_mem h)).1]
          refine Models_frame (hsubn a (by simp)) ?_ hma
          intro c' hc'
          refine hsube a (by simp) c' hc' ?_
          intro hcs
          exact (hcA c' hc').2.1 (containsLeaf_cells_sub h c' hcs)
        · rw [setLeaf_eq_of_not_mem _ _ (hdE j (containsLeaf_mem h)).1]
          refine Models_frame (hsubn a (by simp)) ?_ hma
          intro c' hc'
          refine hsube a (by simp) c' hc' ?_
          intro hcs
          exact (hcA c' hc').2.2 (containsLeaf_cells_sub h c' hcs)
      · rcases hcl with h | h | h | h
        · rw [setLeaf_eq_of_not_mem _ _ (hdA j (containsLeaf_mem h)).1]
          refine Models_frame (hsubn b (by simp)) ?_ hmb
          intro c' hc'
          refine hsube b (by simp) c' hc' ?_
          intro hcs
          exact (hcB c' hc').1 (containsLeaf_cells_sub h c' hcs)
        · exact ihb hmb h hdb hcb (hsubn b (by simp)) (hsube b (by simp))
        · rw [setLeaf_eq_of_not_mem _ _ (hdC j (containsLeaf_mem h)).2.1]
          refine Models_frame (hsubn b (by simp)) ?_ hmb
          intro c' hc'
          refine hsube b (by simp) c' hc' ?_
          intro hcs
          exact (hcB c' hc').2.1 (containsLeaf_cells_sub h c' hcs)
        · rw [setLeaf_eq_of_not_mem _ _ (hdE j (containsLeaf_mem h)).2.1]
          refine Models_frame (hsubn b (by simp)) ?_ hmb
          intro c' hc'
          refine hsube b (by simp) c' hc' ?_
          intro hcs
          exact (hcB c' hc').2.2 (containsLeaf_cells_sub h c' hcs)
      · rcases hcl with h | h | h | h
        · rw [setLeaf_eq_of_not_mem _ _ (hdA j (containsLeaf_mem h)).2.1]
          refine Models_frame (hsubn c (by simp)) ?_ hmc
          intro c' hc'
          refine hsube c (by simp) c' hc' ?_
          intro hcs
          exact (hcC c' hc').1 (containsLeaf_cells_sub h c' hcs)
        · rw [setLeaf_eq_of_not_mem _ _ (hdB j (containsLeaf_mem h)).2.1]
          refine Models_frame (hsubn c (by simp)) ?_ hmc
          intro c' hc'
          refine hsube c (by simp) c' hc' ?_
          intro hcs
          exact (hcC c' hc').2.1 (containsLeaf_cells_sub h c' hcs)
        · exact ihc hmc h hdc hcc (hsubn c (by simp)) (hsube c (by simp))
        · rw [setLeaf_eq_of_not_mem _ _ (hdE j (containsLeaf_mem h)).2.2]
          refine Models_frame (hsubn c (by simp)) ?_ hmc
          intro c' hc'
          refine hsube c (by simp) c' hc' ?_
          intro hcs
          exact (hcC c' hc').2.2 (containsLeaf_cells_sub h c' hcs)
      · rcases hcl with h | h | h | h
        · rw [setLeaf_eq_of_not_mem _ _ (hdA j (containsLeaf_mem h)).2.2]
          refine Models_frame (hsubn e (by simp)) ?_ hme
          intro c' hc'
          refine hsube e (by simp) c' hc' ?_
          intro hcs
          exact (hcE c' hc').1 (containsLeaf_cells_sub h c' hcs)
        · rw [setLeaf_eq_of_not_mem _ _ (hdB j (containsLeaf_mem h)).2.2]
          refine Models_frame (hsubn e (by simp)) ?_ hme
          intro c' hc'
          refine hsube e (by simp) c' hc' ?_
          intro hcs
          exact (hcE c' hc').2.1 (containsLeaf_cells_sub h c' hcs)
        · rw [setLeaf_eq_of_not_mem _ _ (hdC j (containsLeaf_mem h)).2.2]
          refine Models_frame (hsubn e (by simp)) ?_ hme
          intro c' hc'
          refine hsube e (by simp) c' hc' ?_
          intro hcs
          exact (hcE c' hc').2.2 (containsLeaf_cells_sub h c' hcs)
        · exact ihe hme h hde hce (hsubn e (by simp)) (hsube e (by simp))

/-- CountsOK is untouched by replacing a leaf's cells while keeping its
count. -/
theorem CountsOK_setLeaf {mld mle : Int} {s : STree} {j : Int} {cs : List Int}
    {cnt : Int} (cells' : List Int) {d : Int}
    (h : CountsOK mld mle s d) (hcl : ContainsLeaf s j cs cnt)
    (hnd : s.nodeIdxs.Nodup) :
    CountsOK mld mle (setLeaf s j cells' cnt) d := by
  induction s generalizing d with
  | nil i => trivial
  | leaf i cs' cnt' =>
      obtain ⟨rfl, rfl, rfl⟩ := hcl
      unfold setLeaf
      rw [if_pos rfl]
      exact h
  | branch i fc a b c e iha ihb ihc ihe =>
      obtain ⟨h1, h2, h3, h4⟩ := h
      have hnd2 : (a.nodeIdxs ++ b.nodeIdxs ++ c.nodeIdxs ++ e.nodeIdxs).Nodup :=
        (List.nodup_cons.mp hnd).2
      obtain ⟨hda, hdb, hdc, hde, hdA, hdB, hdC, hdE⟩ := nodup_append4 hnd2
      rcases hcl with hx | hx | hx | hx
      · exact ⟨iha h1 hx hda,
          by rw [setLeaf_eq_of_not_mem _ _ (hdA j (containsLeaf_mem hx)).1]; exact h2,
          by rw [setLeaf_eq_of_not_mem _ _ (hdA j (containsLeaf_mem hx)).2.1]; exact h3,
          by rw [setLeaf_eq_of_not_mem _ _ (hdA j (containsLeaf_mem hx)).2.2]; exact h4⟩
      · exact ⟨by rw [setLeaf_eq_of_not_mem _ _ (hdB j (containsLeaf_mem hx)).1]; exact h1,
          ihb h2 hx hdb,
          by rw [setLeaf_eq_of_not_mem _ _ (hdB j (containsLeaf_mem hx)).2.1]; exact h3,
          by rw [setLeaf_eq_of_not_mem _ _ (hdB j (containsLeaf_mem hx)).2.2]; exact h4⟩
      · exact ⟨by rw [setLeaf_eq_of_not_mem _ _ (hdC j (containsLeaf_mem hx)).1]; exact h1,
          by rw [setLeaf_eq_of_not_mem _ _ (hdC j (containsLeaf_mem hx)).2.1]; exact h2,
          ihc h3 hx hdc,
          by rw [setLeaf_eq_of_not_mem _ _ (hdC j (containsLeaf_mem hx)).2.2]; exact h4⟩
      · exact ⟨by rw [setLeaf_eq_of_not_mem _ _ (hdE j (containsLeaf_mem hx)).1]; exact h1,
          by rw [setLeaf_eq_of_not_mem _ _ (hdE j (containsLeaf_mem hx)).2.1]; exact h2,
          by rw [setLeaf_eq_of_not_mem _ _ (hdE j (containsLeaf_mem hx)).2.2]; exact h3,
          ihe h4 hx hde⟩

/-- goodKinds is untouched by setLeaf. -/
theorem goodKinds_setLeaf {s : STree} {j : Int} (cells : List Int) (count : Int)
    (h : s.goodKinds) : (setLeaf s j cells count).goodKinds := by
  induction s with
  | nil i => exact h
  | leaf i cs cnt =>
      unfold setLeaf
      split
      · exact h
      · exact h
  | branch i fc a b c e iha ihb ihc ihe =>
      obtain ⟨h1, h2, h3, h4⟩ := h
      exact ⟨iha h1, ihb h2, ihc h3, ihe h4⟩

/-! ### Redistribution during a leaf split -/

/-- Cells of the four fresh children during redistribution. -/
structure CL where
  tl : List Int
  tr : List Int
  bl : List Int
  br : List Int

def CL.get : CL → Quadrant → List Int
  | cl, .TL => cl.tl
  | cl, .TR => cl.tr
  | cl, .BL => cl.bl
  | cl, .BR => cl.br

def CL.set : CL → Quadrant → List Int → CL
  | cl, .TL, l => { cl with tl := l }
  | cl, .TR, l => { cl with tr := l }
  | cl, .BL, l => { cl with bl := l }
  | cl, .BR, l => { cl with br := l }

def CL.cells (cl : CL) : List Int := cl.tl ++ cl.tr ++ cl.bl ++ cl.br

theorem CL.get_mem_cells {cl : CL} {q : Quadrant} {c : Int} (h : c ∈ cl.get q) :
    c ∈ cl.cells := by
  cases q <;> simp [CL.get, CL.cells] at h ⊢ <;> simp [h]

/-- The four child leaves under first_child fc currently hold exactly the
chains of cl, with exact counts. -/
def ChildrenState (t : Quadtree) (fc : Int) (cl : CL) : Prop :=
  ∀ q : Quadrant, ∃ nd, listGet? t.nodes (fc + q.toInt) = some nd ∧
    nd.count = ((cl.get q).length : Int) ∧
    ChainIs t.element_nodes nd.first_child (cl.get q)

/-- Appending a fresh final cell to a live chain. -/
theorem chainIs_append_last {l l' : FreeList QuadElementNode} {s : Int}
    {cells : List Int} {nc : Int} {qnc : QuadElementNode}
    (h : ChainIs l s cells) (hne : cells ≠ []) (hnd : cells.Nodup)
    (hnotin : nc ∉ cells)
    (hpres : ∀ c ∈ cells, c ≠ cells.getLast hne → l'.get? c = l.get? c)
    (hlast : ∀ ql, l.get? (cells.getLast hne) = some ql →
      l'.get? (cells.getLast hne) = some { ql with next := nc })
    (hnc : l'.get? nc = some qnc) (hqnc : qnc.next = -1) :
    ChainIs l' s (cells ++ [nc]) := by
  induction cells generalizing s with
  | nil => exact absurd rfl hne
  | cons c cs ih =>
      obtain ⟨hsc, qen, hc, hrest⟩ := h
      match cs, hrest, hnd with
      | [], hrest, _ =>
          refine ⟨hsc, { qen with next := nc }, ?_, ?_⟩
          · exact hlast qen hc
          · exact ⟨rfl, qnc, hnc, hqnc⟩
      | c2 :: cs', hrest, hnd =>
          have hlast2 : (c :: c2 :: cs').getLast (by simp) = (c2 :: cs').getLast (by simp) :=
            List.getLast_cons (by simp)
          have hcne : c ≠ (c :: c2 :: cs').getLast (by simp) := by
            rw [hlast2]
            intro he
            have hmem : (c2 :: cs').getLast (by simp) ∈ c2 :: cs' := List.getLast_mem _
            rw [← he] at hmem
            exact (List.nodup_cons.mp hnd).1 hmem
          refine ⟨hsc, qen, ?_, ?_⟩
          · rw [hpres c (by simp) hcne]
            exact hc
          · refine ih hrest (by simp) (List.nodup_cons.mp hnd).2
              (fun hx => hnotin (by simp [hx])) ?_ ?_
            · intro d hd hdl
              refine hpres d (by simp [hd]) ?_
              rw [hlast2]
              exact hdl
            · intro ql hql
              have hres := hlast ql (by rw [hlast2]; exact hql)
              rw [hlast2] at hres
              exact hres

theorem Quadrant.toInt_inj {q q' : Quadrant} (h : q.toInt = q'.toInt) : q = q' := by
  cases q <;> cases q' <;> first
    | rfl
    | (exfalso; simp [Quadrant.toInt] at h)

theorem CL.get_nodup {cl : CL} (hnd : cl.cells.Nodup) (q : Quadrant) :
    (cl.get q).Nodup := by
  obtain ⟨h1, h2, h3, h4, -⟩ := nodup_append4 (by exact hnd)
  cases q
  · exact h1
  · exact h2
  · exact h3
  · exact h4

theorem CL.get_disjoint {cl : CL} (hnd : cl.cells.Nodup) {q q' : Quadrant} (hq : q ≠ q')
    {c : Int} (hc : c ∈ cl.get q) (hc' : c ∈ cl.get q') : False := by
  obtain ⟨-, -, -, -, hA, hB, hC, hE⟩ := nodup_append4 (by exact hnd)
  cases q <;> cases q' <;> first
    | exact hq rfl
    | exact (hA _ hc).1 hc'
    | exact (hA _ hc).2.1 hc'
    | exact (hA _ hc).2.2 hc'
    | exact (hB _ hc).1 hc'
    | exact (hB _ hc).2.1 hc'
    | exact (hB _ hc).2.2 hc'
    | exact (hC _ hc).1 hc'
    | exact (hC _ hc).2.1 hc'
    | exact (hC _ hc).2.2 hc'
    | exact (hE _ hc).1 hc'
    | exact (hE _ hc).2.1 hc'
    | exact (hE _ hc).2.2 hc'

/-- A live chain with nonnegative cells is empty iff its head is -1. -/
theorem chainIs_eq_nil_iff {l : FreeList QuadElementNode} {s : Int} {cells : List Int}
    (h : ChainIs l s cells) (hb : ∀ c ∈ cells, 0 ≤ c) : s = -1 ↔ cells = [] := by
  constructor
  · intro hs
    match cells, h with
    | [], _ => rfl
    | c :: cs, h =>
        exfalso
        have hc0 := hb c (by simp)
        have : s = c := h.1
        omega
  · intro hc
    subst hc
    exact h

theorem appendElemToChild_spec
    {t : Quadtree} {fc : Int} {cl : CL} {free : List Int} (q : Quadrant) (element_id : Int)
    (hcs : ChildrenState t fc cl)
    (hnd : cl.cells.Nodup)
    (hb : ∀ c ∈ cl.cells, 0 ≤ c ∧ c.toNat < t.element_nodes.data.length ∧ c ∉ free)
    (hfl : FLOK t.element_nodes free) :
    ∃ t' nc, Quadtree.appendElemToChild t (fc + q.toInt) element_id = (t', none) ∧
      ChildrenState t' fc (cl.set q (cl.get q ++ [nc])) ∧
      FLOK t'.element_nodes free.tail ∧
      (nc ∈ free ∨ nc = (t.element_nodes.data.length : Int)) ∧ nc ∉ free.tail ∧
      0 ≤ nc ∧ nc.toNat < t'.element_nodes.data.length ∧ nc ∉ cl.cells ∧
      t.element_nodes.data.length ≤ t'.element_nodes.data.length ∧
      t'.nodes.length = t.nodes.length ∧
      t'.elements = t.elements ∧
      t'.max_depth = t.max_depth ∧ t'.max_leaf_elements = t.max_leaf_elements ∧
      t'.aabb = t.aabb ∧ t'.max_w = t.max_w ∧ t'.max_h = t.max_h ∧
      (∀ j : Int, j ≠ fc + q.toInt → listGet? t'.nodes j = listGet? t.nodes j) ∧
      (∀ c : Int, c ∉ cl.cells → c ≠ nc → t'.element_nodes.get? c = t.element_nodes.get? c) ∧
      t'.element_nodes.get? nc = some { next := -1, element := element_id } ∧
      (∀ c ∈ cl.cells, ∀ qen', t'.element_nodes.get? c = some qen' →
        ∃ qen, t.element_nodes.get? c = some qen ∧ qen'.element = qen.element) := by
  obtain ⟨cn, hcn, hcnt, hch⟩ := hcs q
  have hchild0 : 0 ≤ fc + q.toInt := (listGet?_eq_some_iff.mp hcn).1
  have hchildl : (fc + q.toInt).toNat < t.nodes.length := (listGet?_eq_some_iff.mp hcn).2.1
  have hbq : ∀ c ∈ cl.get q, 0 ≤ c ∧ c.toNat < t.element_nodes.data.length ∧ c ∉ free :=
    fun c hc => hb c (CL.get_mem_cells hc)
  have hqen : ∀ q' : Quadrant, q' ≠ q → fc + q'.toInt ≠ fc + q.toInt := by
    intro q' hq' he
    exact hq' (Quadrant.toInt_inj (by omega))
  by_cases hemp : cn.first_child = -1
  · have hnil : cl.get q = [] := (chainIs_eq_nil_iff hch (fun c hc => (hbq c hc).1)).mp hemp
    obtain ⟨nc, l', hins, hfl', hmem, hnc0, hncl, hlen, hget, hpres, hnotail⟩ := FLOK_insert hfl
      ({ next := -1, element := element_id } : QuadElementNode)
    have happ : Quadtree.appendElemToChild t (fc + q.toInt) element_id =
        (({ t with element_nodes := l' } : Quadtree).nodesSet (fc + q.toInt)
          { cn with first_child := nc, count := cn.count + 1 }, none) := by
      unfold Quadtree.appendElemToChild
      rw [hcn]
      simp only
      rw [if_pos hemp, hins]
    refine ⟨_, nc, happ, ?_, hfl', hmem.imp id And.left, hnotail, hnc0, ?_, ?_, hlen, ?_,
      rfl, rfl, rfl, rfl, rfl, rfl, ?_, ?_, ?_, ?_⟩
    · intro q'
      by_cases hq' : q' = q
      · subst q'
        refine ⟨{ cn with first_child := nc, count := cn.count + 1 }, ?_, ?_, ?_⟩
        · show listGet? (listSet t.nodes _ _) _ = _
          rw [listGet?_listSet_self _ _ _ hchild0 hchildl]
        · show cn.count + 1 = _
          rw [hcnt]
          have hclq : (cl.set q (cl.get q ++ [nc])).get q = cl.get q ++ [nc] := by
            cases q <;> rfl
          rw [hclq, hnil]
          simp
        · show ChainIs l' nc _
          have hclq : (cl.set q (cl.get q ++ [nc])).get q = cl.get q ++ [nc] := by
            cases q <;> rfl
          rw [hclq, hnil]
          exact ⟨rfl, _, hget, rfl⟩
      · obtain ⟨cn', hcn', hcnt', hch'⟩ := hcs q'
        refine ⟨cn', ?_, ?_, ?_⟩
        · show listGet? (listSet t.nodes _ _) _ = _
          rw [listGet?_listSet_ne _ _ _ _ (fun he => hqen q' hq' he.symm)]
          exact hcn'
        · have hclq : (cl.set q (cl.get q ++ [nc])).get q' = cl.get q' := by
            cases q <;> cases q' <;> first | (exact absurd rfl hq') | rfl
          rw [hclq]
          exact hcnt'
        · have hclq : (cl.set q (cl.get q ++ [nc])).get q' = cl.get q' := by
            cases q <;> cases q' <;> first | (exact absurd rfl hq') | rfl
          rw [hclq]
          refine chainIs_frame ?_ hch'
          intro c hc
          refine hpres c ?_
          intro he
          rcases hmem with hin | ⟨hfresh, -⟩
          · exact (hb c (CL.get_mem_cells hc)).2.2 (he ▸ hin)
          · have := (hb c (CL.get_mem_cells hc)).2.1
            omega
    · show nc.toNat < l'.data.length
      exact hncl
    · intro hin
      rcases hmem with hfr | ⟨hfresh, -⟩
      · exact (hb nc hin).2.2 hfr
      · have := (hb nc hin).2.1
        omega
    · show (listSet t.nodes _ _).length = t.nodes.length
      exact length_listSet _ _ _
    · intro j hj
      show listGet? (listSet t.nodes _ _) j = _
      rw [listGet?_listSet_ne _ _ _ _ (fun he => hj he.symm)]
    · intro c hcin hcnc
      exact hpres c hcnc
    · exact hget
    · intro c hcin qen' hq'
      refine ⟨qen', ?_, rfl⟩
      rw [← hpres c ?_]
      · exact hq'
      · intro he
        rcases hmem with hfr | ⟨hfresh, -⟩
        · exact (hb c hcin).2.2 (he ▸ hfr)
        · have := (hb c hcin).2.1
          omega
  · have hne : cl.get q ≠ [] := by
      intro hn
      exact hemp ((chainIs_eq_nil_iff hch (fun c hc => (hbq c hc).1)).mpr hn)
    have hlast := lastElemNode_spec hch hne (fun c hc => (hbq c hc).1)
      (t.element_nodes.data.length + 1)
      (by
        have := nodup_bounded_length (CL.get_nodup hnd q)
          (fun c hc => ⟨(hbq c hc).1, (hbq c hc).2.1⟩)
        omega)
    obtain ⟨ql, hql, hqln⟩ := chainIs_getLast hch hne
    obtain ⟨nc, l', hins, hfl', hmem, hnc0, hncl, hlen, hget, hpres, hnotail⟩ := FLOK_insert hfl
      ({ next := -1, element := element_id } : QuadElementNode)
    have hlastmem : (cl.get q).getLast hne ∈ cl.get q := List.getLast_mem _
    have hlastne : (cl.get q).getLast hne ≠ nc := by
      intro he
      rcases hmem with hfr | ⟨hfresh, -⟩
      · exact (hbq _ hlastmem).2.2 (he ▸ hfr)
      · have := (hbq _ hlastmem).2.1
        omega
    obtain ⟨hflm, hlenm, hpresm, hgetm⟩ := FLOK_modify hfl'
      ((cl.get q).getLast hne) (fun qn => { qn with next := nc })
    have happ : Quadtree.appendElemToChild t (fc + q.toInt) element_id =
        (({ t with element_nodes :=
            l'.modify ((cl.get q).getLast hne) (fun qn => { qn with next := nc }) }
          : Quadtree).nodesSet (fc + q.toInt)
          { cn with count := cn.count + 1 }, none) := by
      unfold Quadtree.appendElemToChild
      rw [hcn]
      simp only
      rw [if_neg hemp, hlast]
      simp only
      rw [hins]
    have hncget : (l'.modify ((cl.get q).getLast hne)
        (fun qn => { qn with next := nc })).get? nc =
        some { next := -1, element := element_id } := by
      rw [hpresm nc (fun he => hlastne he.symm)]
      exact hget
    refine ⟨_, nc, happ, ?_, hflm, hmem.imp id And.left, hnotail, hnc0, ?_, ?_, ?_, ?_,
      rfl, rfl, rfl, rfl, rfl, rfl, ?_, ?_, hncget, ?_⟩
    · intro q'
      by_cases hq' : q' = q
      · subst q'
        refine ⟨{ cn with count := cn.count + 1 }, ?_, ?_, ?_⟩
        · show listGet? (listSet t.nodes _ _) _ = _
          rw [listGet?_listSet_self _ _ _ hchild0 hchildl]
        · show cn.count + 1 = _
          rw [hcnt]
          have hclq : (cl.set q (cl.get q ++ [nc])).get q = cl.get q ++ [nc] := by
            cases q <;> rfl
          rw [hclq]
          simp
        · show ChainIs (l'.modify ((cl.get q).getLast hne)
            (fun qn => { qn with next := nc })) cn.first_child _
          have hclq : (cl.set q (cl.get q ++ [nc])).get q = cl.get q ++ [nc] := by
            cases q <;> rfl
          rw [hclq]
          refine chainIs_append_last hch hne (CL.get_nodup hnd q) ?_ ?_ ?_ hncget rfl
          · intro hx
            rcases hmem with hfr | ⟨hfresh, -⟩
            · exact (hbq nc hx).2.2 hfr
            · have := (hbq nc hx).2.1
              omega
          · intro c hc hcl
            rw [hpresm c hcl]
            refine hpres c ?_
            intro he
            rcases hmem with hfr | ⟨hfresh, -⟩
            · exact (hbq c hc).2.2 (he ▸ hfr)
            · have := (hbq c hc).2.1
              omega
          · intro ql' hql'
            refine hgetm ql' ?_
            rw [hpres _ hlastne]
            exact hql'
      · obtain ⟨cn', hcn', hcnt', hch'⟩ := hcs q'
        refine ⟨cn', ?_, ?_, ?_⟩
        · show listGet? (listSet t.nodes _ _) _ = _
          rw [listGet?_listSet_ne _ _ _ _ (fun he => hqen q' hq' he.symm)]
          exact hcn'
        · have hclq : (cl.set q (cl.get q ++ [nc])).get q' = cl.get q' := by
            cases q <;> cases q' <;> first | (exact absurd rfl hq') | rfl
          rw [hclq]
          exact hcnt'
        · have hclq : (cl.set q (cl.get q ++ [nc])).get q' = cl.get q' := by
            cases q <;> cases q' <;> first | (exact absurd rfl hq') | rfl
          rw [hclq]
          refine chainIs_frame ?_ hch'
          intro c hc
          have hcmem : c ∈ cl.cells := CL.get_mem_cells hc
          have hclast : c ≠ (cl.get q).getLast hne := by
            intro he
            exact CL.get_disjoint hnd (fun he2 => hq' he2.symm)
              (List.getLast_mem hne) (he ▸ hc)
          show (l'.modify ((cl.get q).getLast hne)
              (fun qn => { qn with next := nc })).get? c = t.element_nodes.get? c
          rw [hpresm c hclast]
          refine hpres c ?_
          intro he
          rcases hmem with hfr | ⟨hfresh, -⟩
          · exact (hb c hcmem).2.2 (he ▸ hfr)
          · have := (hb c hcmem).2.1
            omega
    · show nc.toNat < (l'.modify ((cl.get q).getLast hne)
          (fun qn => { qn with next := nc })).data.length
      omega
    · intro hin
      rcases hmem with hfr | ⟨hfresh, -⟩
      · exact (hb nc hin).2.2 hfr
      · have := (hb nc hin).2.1
        omega
    · show t.element_nodes.data.length ≤ (l'.modify ((cl.get q).getLast hne)
          (fun qn => { qn with next := nc })).data.length
      omega
    · show (listSet t.nodes _ _).length = t.nodes.length
      exact length_listSet _ _ _
    · intro j hj
      show listGet? (listSet t.nodes _ _) j = _
      rw [listGet?_listSet_ne _ _ _ _ (fun he => hj he.symm)]
    · intro c hcin hcnc
      have hclast : c ≠ (cl.get q).getLast hne := by
        intro he
        exact hcin (he ▸ CL.get_mem_cells (List.getLast_mem hne))
      show (l'.modify ((cl.get q).getLast hne)
          (fun qn => { qn with next := nc })).get? c = t.element_nodes.get? c
      rw [hpresm c hclast, hpres c hcnc]
    · intro c hcin qen' hq'
      have hq2 : (l'.modify ((cl.get q).getLast hne)
          (fun qn => { qn with next := nc })).get? c = some qen' := hq'
      by_cases hclast : c = (cl.get q).getLast hne
      · have hq'' : l'.get? ((cl.get q).getLast hne) = some ql := by
          rw [hpres _ hlastne]
          exact hql
        have hgm := hgetm ql hq''
        rw [hclast, hgm] at hq2
        refine ⟨ql, ?_, ?_⟩
        · rw [hclast]
          exact hql
        · have hqe : qen' = { ql with next := nc } := by
            injection hq2 with h
            exact h.symm
          rw [hqe]
      · have hcnc : c ≠ nc := by
          intro he
          rcases hmem with hfr | ⟨hfresh, -⟩
          · exact (hb c hcin).2.2 (he ▸ hfr)
          · have := (hb c hcin).2.1
            omega
        rw [hpresm c hclast, hpres c hcnc] at hq2
        exact ⟨qen', hq2, rfl⟩

theorem append_singleton_perm (X Y : List Int) (n : Int) :
    (X ++ [n] ++ Y).Perm (X ++ Y ++ [n]) := by
  have h1 : X ++ [n] ++ Y = X ++ ([n] ++ Y) := by simp
  have h2 : X ++ Y ++ [n] = X ++ (Y ++ [n]) := by simp
  rw [h1, h2]
  exact List.Perm.append_left X List.perm_append_comm

/-- Appending one cell to a quadrant's list appends it to the flattened cell
list up to permutation. -/
theorem CL.cells_set_append_perm (cl : CL) (q : Quadrant) (nc : Int) :
    (cl.set q (cl.get q ++ [nc])).cells.Perm (cl.cells ++ [nc]) := by
  cases q
  · show ((cl.tl ++ [nc]) ++ cl.tr ++ cl.bl ++ cl.br).Perm _
    have := append_singleton_perm cl.tl (cl.tr ++ cl.bl ++ cl.br) nc
    show ((cl.tl ++ [nc]) ++ cl.tr ++ cl.bl ++ cl.br).Perm
      ((cl.tl ++ cl.tr ++ cl.bl ++ cl.br) ++ [nc])
    simpa [List.append_assoc] using this
  · show (cl.tl ++ (cl.tr ++ [nc]) ++ cl.bl ++ cl.br).Perm
      ((cl.tl ++ cl.tr ++ cl.bl ++ cl.br) ++ [nc])
    have := append_singleton_perm (cl.tl ++ cl.tr) (cl.bl ++ cl.br) nc
    simpa [List.append_assoc] using this
  · show (cl.tl ++ cl.tr ++ (cl.bl ++ [nc]) ++ cl.br).Perm
      ((cl.tl ++ cl.tr ++ cl.bl ++ cl.br) ++ [nc])
    have := append_singleton_perm (cl.tl ++ cl.tr ++ cl.bl) cl.br nc
    simpa [List.append_assoc] using this
  · show (cl.tl ++ cl.tr ++ cl.bl ++ (cl.br ++ [nc])).Perm
      ((cl.tl ++ cl.tr ++ cl.bl ++ cl.br) ++ [nc])
    simp [List.append_assoc]

theorem CL.cells_set_append_mem {cl : CL} {q : Quadrant} {nc c : Int} :
    c ∈ (cl.set q (cl.get q ++ [nc])).cells ↔ c ∈ cl.cells ∨ c = nc := by
  rw [(CL.cells_set_append_perm cl q nc).mem_iff]
  simp

theorem CL.cells_set_append_nodup {cl : CL} {q : Quadrant} {nc : Int}
    (hnd : cl.cells.Nodup) (hnc : nc ∉ cl.cells) :
    (cl.set q (cl.get q ++ [nc])).cells.Nodup := by
  rw [(CL.cells_set_append_perm cl q nc).nodup_iff]
  refine List.Nodup.append hnd (List.nodup_singleton nc) ?_
  intro a ha hb
  rw [List.mem_singleton] at hb
  exact hnc (hb ▸ ha)

theorem CL.cells_set_append_length {cl : CL} {q : Quadrant} {nc : Int} :
    (cl.set q (cl.get q ++ [nc])).cells.length = cl.cells.length + 1 := by
  rw [(CL.cells_set_append_perm cl q nc).length_eq]
  simp

theorem CL.get_length_le (cl : CL) (q : Quadrant) :
    (cl.get q).length ≤ cl.cells.length := by
  cases q <;> simp [CL.get, CL.cells] <;> omega

theorem redistribute_spec {aabb : AABB} :
    ∀ (els : List Int) (t : Quadtree) (fc : Int) (cl : CL) (free : List Int),
    ChildrenState t fc cl →
    cl.cells.Nodup →
    (∀ c ∈ cl.cells, 0 ≤ c ∧ c.toNat < t.element_nodes.data.length ∧ c ∉ free) →
    FLOK t.element_nodes free →
    (∀ e ∈ els, ∃ qe, t.elements.get? e = some qe) →
    ∃ t' cl' free', Quadtree.redistribute t fc aabb els = (t', none) ∧
      ChildrenState t' fc cl' ∧
      cl'.cells.Nodup ∧
      (∀ c ∈ cl'.cells, 0 ≤ c ∧ c.toNat < t'.element_nodes.data.length ∧ c ∉ free') ∧
      FLOK t'.element_nodes free' ∧
      free' ⊆ free ∧
      cl'.cells.length = cl.cells.length + els.length ∧
      (∀ c ∈ cl.cells, c ∈ cl'.cells) ∧
      (∀ c ∈ cl'.cells, c ∈ cl.cells ∨ c ∈ free ∨
        (t.element_nodes.data.length : Int) ≤ c) ∧
      t.element_nodes.data.length ≤ t'.element_nodes.data.length ∧
      t'.nodes.length = t.nodes.length ∧
      t'.elements = t.elements ∧
      t'.max_depth = t.max_depth ∧ t'.max_leaf_elements = t.max_leaf_elements ∧
      t'.aabb = t.aabb ∧ t'.max_w = t.max_w ∧ t'.max_h = t.max_h ∧
      (∀ j : Int, j ≠ fc → j ≠ fc + 1 → j ≠ fc + 2 → j ≠ fc + 3 →
        listGet? t'.nodes j = listGet? t.nodes j) ∧
      (∀ c : Int, c ∉ cl'.cells → t'.element_nodes.get? c = t.element_nodes.get? c) ∧
      (∀ c ∈ cl'.cells, ∀ qen, t'.element_nodes.get? c = some qen →
        qen.element ∈ els ∨
        (c ∈ cl.cells ∧
          ∃ qen0, t.element_nodes.get? c = some qen0 ∧ qen.element = qen0.element))
  | [], t, fc, cl, free, hcs, hnd, hb, hfl, _ =>
      ⟨t, cl, free, rfl, hcs, hnd, hb, hfl, fun _ h => h, by simp,
        fun c hc => hc, fun c hc => Or.inl hc, le_refl _, rfl, rfl, rfl, rfl, rfl, rfl, rfl,
        fun _ _ _ _ _ => rfl, fun _ _ => rfl,
        fun c hc qen hq => Or.inr ⟨hc, qen, hq, rfl⟩⟩
  | e :: rest, t, fc, cl, free, hcs, hnd, hb, hfl, hels => by
      obtain ⟨qe, hqe⟩ := hels e (by simp)
      obtain ⟨t1, nc, happ, hcs1, hfl1, hmem, hnotail, hnc0, hncl, hncells, hlen1,
        hnl1, hel1, hmd1, hmle1, hab1, hmw1, hmh1, hjfr1, hcfr1, hncget, hpay1⟩ :=
        appendElemToChild_spec (aabb.find_quadrant qe.aabb.x qe.aabb.y) e hcs hnd hb hfl
      have hstep : Quadtree.redistribute t fc aabb (e :: rest) =
          Quadtree.redistribute t1 fc aabb rest := by
        show (match t.elements.get? e with
          | none => (t, some QtFault.oob)
          | some qe =>
              match Quadtree.appendElemToChild t
                  (fc + (aabb.find_quadrant qe.aabb.x qe.aabb.y).toInt) e with
              | (t', some f) => (t', some f)
              | (t', none) => Quadtree.redistribute t' fc aabb rest) = _
        rw [hqe]
        simp only
        rw [happ]
      set cl1 := cl.set (aabb.find_quadrant qe.aabb.x qe.aabb.y)
        (cl.get (aabb.find_quadrant qe.aabb.x qe.aabb.y) ++ [nc]) with hcl1
      have hnd1 : cl1.cells.Nodup := CL.cells_set_append_nodup hnd hncells
      have hmem1 : ∀ c : Int, c ∈ cl1.cells ↔ c ∈ cl.cells ∨ c = nc :=
        fun c => CL.cells_set_append_mem
      have hb1 : ∀ c ∈ cl1.cells,
          0 ≤ c ∧ c.toNat < t1.element_nodes.data.length ∧ c ∉ free.tail := by
        intro c hc
        rcases (hmem1 c).mp hc with hco | rfl
        · obtain ⟨h1, h2, h3⟩ := hb c hco
          refine ⟨h1, by omega, fun hct => h3 (List.tail_subset free hct)⟩
        · exact ⟨hnc0, hncl, hnotail⟩
      have hels1 : ∀ e' ∈ rest, ∃ qe', t1.elements.get? e' = some qe' := by
        intro e' he'
        rw [hel1]
        exact hels e' (by simp [he'])
      obtain ⟨t', cl', free', hred, hcs', hnd', hb', hfl', hsub', hlen', hmon', hsrc',
        hgrow', hnl', hel', hmd', hmle', hab', hmw', hmh', hjfr', hcfr', hpay'⟩ :=
        redistribute_spec rest t1 fc cl1 free.tail hcs1 hnd1 hb1 hfl1 hels1
      refine ⟨t', cl', free', by rw [hstep]; exact hred, hcs', hnd', hb', hfl',
        fun x hx => List.tail_subset free (hsub' hx), ?_, ?_, ?_, by omega, ?_, ?_,
        ?_, ?_, ?_, ?_, ?_, ?_, ?_, ?_⟩
      · rw [hlen', hcl1, CL.cells_set_append_length]
        simp only [List.length_cons]
        omega
      · intro c hc
        exact hmon' c ((hmem1 c).mpr (Or.inl hc))
      · intro c hc
        rcases hsrc' c hc with hc1 | hfr | hge
        · rcases (hmem1 c).mp hc1 with hco | rfl
          · exact Or.inl hco
          · rcases hmem with hfr2 | hfreshe
            · exact Or.inr (Or.inl hfr2)
            · exact Or.inr (Or.inr (by omega))
        · exact Or.inr (Or.inl (List.tail_subset free hfr))
        · exact Or.inr (Or.inr (by omega))
      · rw [hnl', hnl1]
      · rw [hel', hel1]
      · rw [hmd', hmd1]
      · rw [hmle', hmle1]
      · rw [hab', hab1]
      · rw [hmw', hmw1]
      · rw [hmh', hmh1]
      · intro j h0 h1 h2 h3
        rw [hjfr' j h0 h1 h2 h3]
        refine hjfr1 j ?_
        cases aabb.find_quadrant qe.aabb.x qe.aabb.y <;>
          simp only [Quadrant.toInt] <;> omega
      · intro c hc
        rw [hcfr' c hc, hcfr1 c
          (fun hin => hc (hmon' c ((hmem1 c).mpr (Or.inl hin))))
          (fun he => hc (hmon' c ((hmem1 c).mpr (Or.inr he))))]
      · intro c hc qen hq
        rcases hpay' c hc qen hq with hin | ⟨hc1, qen1, hq1, hpe⟩
        · exact Or.inl (by simp [hin])
        · rcases (hmem1 c).mp hc1 with hco | rfl
          · obtain ⟨qen0, hq0, hpe0⟩ := hpay1 c hco qen1 hq1
            exact Or.inr ⟨hco, qen0, hq0, by rw [hpe, hpe0]⟩
          · rw [hncget] at hq1
            injection hq1 with hq1e
            rw [hpe, ← hq1e]
            exact Or.inl (by simp)

theorem listGet?_append_lt {α : Type} (xs ys : List α) (j : Int)
    (h : j < (xs.length : Int)) : listGet? (xs ++ ys) j = listGet? xs j := by
  by_cases hj : j < 0
  · simp [listGet?, hj]
  · simp only [listGet?, if_neg hj]
    exact List.getElem?_append_left (by omega)

theorem listGet?_append_right {α : Type} (xs ys : List α) (j : Int)
    (h : (xs.length : Int) ≤ j) :
    listGet? (xs ++ ys) j = listGet? ys (j - (xs.length : Int)) := by
  have hj : ¬ j < 0 := by omega
  have hj2 : ¬ j - (xs.length : Int) < 0 := by omega
  simp only [listGet?, if_neg hj, if_neg hj2]
  rw [List.getElem?_append_right (by omega)]
  congr 1
  omega

/-- Four empty child lists (initial state of a split's redistribution). -/
def CL.empty : CL := ⟨[], [], [], []⟩

theorem leafToBranch_spec {t : Quadtree} {node_id : Int} {nd0 : QuadNode}
    {cs : List Int} {free : List Int} (aabb : AABB)
    (hnd0 : listGet? t.nodes node_id = some nd0)
    (hch : ChainIs t.element_nodes nd0.first_child cs)
    (hcnd : cs.Nodup)
    (hb : ∀ c ∈ cs, 0 ≤ c ∧ c.toNat < t.element_nodes.data.length ∧ c ∉ free)
    (hfl : FLOK t.element_nodes free)
    (hpay : ∀ c ∈ cs, ∀ qen, t.element_nodes.get? c = some qen →
      ∃ qe, t.elements.get? qen.element = some qe) :
    ∃ t' cl' free', Quadtree.leafToBranch t node_id aabb = (t', none) ∧
      listGet? t'.nodes node_id =
        some { first_child := (t.nodes.length : Int), count := -1 } ∧
      ChildrenState t' (t.nodes.length : Int) cl' ∧
      cl'.cells.Nodup ∧
      (∀ c ∈ cl'.cells, 0 ≤ c ∧ c.toNat < t'.element_nodes.data.length ∧ c ∉ free') ∧
      FLOK t'.element_nodes free' ∧
      (∀ x ∈ free', x ∈ cs ∨ x ∈ free) ∧
      (∀ c ∈ cl'.cells, c ∈ cs ∨ c ∈ free ∨ (t.element_nodes.data.length : Int) ≤ c) ∧
      cl'.cells.length = cs.length ∧
      t.element_nodes.data.length ≤ t'.element_nodes.data.length ∧
      t'.nodes.length = t.nodes.length + 4 ∧
      t'.elements = t.elements ∧
      t'.max_depth = t.max_depth ∧ t'.max_leaf_elements = t.max_leaf_elements ∧
      t'.aabb = t.aabb ∧ t'.max_w = t.max_w ∧ t'.max_h = t.max_h ∧
      (∀ j : Int, j ≠ node_id → j < (t.nodes.length : Int) →
        listGet? t'.nodes j = listGet? t.nodes j) ∧
      (∀ c : Int, c ∉ cl'.cells → t'.element_nodes.get? c = t.element_nodes.get? c) ∧
      (∀ c ∈ cl'.cells, ∀ qen, t'.element_nodes.get? c = some qen →
        ∃ c0 ∈ cs, ∃ qen0, t.element_nodes.get? c0 = some qen0 ∧
          qen.element = qen0.element) := by
  have h00 : 0 ≤ node_id := (listGet?_eq_some_iff.mp hnd0).1
  have h0l : node_id.toNat < t.nodes.length := (listGet?_eq_some_iff.mp hnd0).2.1
  by_cases hcs0 : cs = []
  · subst hcs0
    have hfc : nd0.first_child = -1 := hch
    set N : List QuadNode := listSet t.nodes node_id
        { nd0 with first_child := (t.nodes.length : Int) } ++
        ([⟨-1, 0⟩, ⟨-1, 0⟩, ⟨-1, 0⟩, ⟨-1, 0⟩] : List QuadNode) with hN
    set t4 : Quadtree := { t with
        nodes := listSet N node_id
          { first_child := (t.nodes.length : Int), count := -1 } } with ht4
    have hnd1 : listGet? N node_id =
        some { nd0 with first_child := (t.nodes.length : Int) } := by
      rw [hN, listGet?_append_lt _ _ _ (by rw [length_listSet]; omega)]
      exact listGet?_listSet_self _ _ _ h00 h0l
    have hreadId : listGet? t4.nodes node_id =
        some { first_child := (t.nodes.length : Int), count := -1 } := by
      show listGet? (listSet N node_id _) _ = _
      refine listGet?_listSet_self _ _ _ h00 ?_
      rw [hN, List.length_append, length_listSet]
      simp only [List.length_cons, List.length_nil]
      omega
    have hreadN : ∀ q : Quadrant, listGet? t4.nodes ((t.nodes.length : Int) + q.toInt) =
        some ⟨-1, 0⟩ := by
      intro q
      show listGet? (listSet N node_id _) _ = _
      rw [listGet?_listSet_ne _ _ _ _ (by cases q <;> simp [Quadrant.toInt] <;> omega)]
      rw [hN, listGet?_append_right _ _ _
        (by rw [length_listSet]; cases q <;> simp [Quadrant.toInt] <;> omega)]
      have harith : (t.nodes.length : Int) + q.toInt -
          ((listSet t.nodes node_id
            { nd0 with first_child := (t.nodes.length : Int) }).length : Int) = q.toInt := by
        rw [length_listSet]
        omega
      rw [harith]
      cases q <;> rfl
    have hreadFr : ∀ j : Int, j ≠ node_id → j < (t.nodes.length : Int) →
        listGet? t4.nodes j = listGet? t.nodes j := by
      intro j hjne hjlt
      show listGet? (listSet N node_id _) j = _
      rw [listGet?_listSet_ne _ _ _ _ (fun h => hjne h.symm)]
      rw [hN, listGet?_append_lt _ _ _ (by rw [length_listSet]; omega)]
      rw [listGet?_listSet_ne _ _ _ _ (fun h => hjne h.symm)]
    have heq : Quadtree.leafToBranch t node_id aabb = (t4, none) := by
      unfold Quadtree.leafToBranch
      rw [hnd0]
      simp only
      rw [if_neg (fun h => h hfc)]
      simp only [Quadtree.nodesSet]
      rw [hnd1]
      rfl
    refine ⟨t4, CL.empty, free, heq, hreadId, ?_, by simp [CL.empty, CL.cells],
      ?_, hfl, fun x hx => Or.inr hx, ?_, by simp [CL.empty, CL.cells], le_refl _,
      ?_, rfl, rfl, rfl, rfl, rfl, rfl, hreadFr, fun _ _ => rfl, ?_⟩
    · intro q
      refine ⟨⟨-1, 0⟩, hreadN q, ?_, ?_⟩
      · cases q <;> rfl
      · cases q <;> rfl
    · intro c hc
      simp [CL.empty, CL.cells] at hc
    · intro c hc
      simp [CL.empty, CL.cells] at hc
    · show (listSet N node_id _).length = t.nodes.length + 4
      rw [length_listSet, hN, List.length_append, length_listSet]
      simp only [List.length_cons, List.length_nil]
    · intro c hc
      simp [CL.empty, CL.cells] at hc
  · have hfcne : nd0.first_child ≠ -1 := by
      obtain ⟨c, cs', rfl⟩ : ∃ c cs', cs = c :: cs' := by
        cases cs with
        | nil => exact absurd rfl hcs0
        | cons c cs' => exact ⟨c, cs', rfl⟩
      have h1 : nd0.first_child = c := hch.1
      have := (hb c (by simp)).1
      omega
    obtain ⟨els, l', hcol, hlen_els, hels_prov, hflcol, hlen_l', hread_l'⟩ :=
      collectAndEraseChain_spec hch hcnd hb hfl hcs0 (t.element_nodes.data.length + 1)
        (by
          have := nodup_bounded_length hcnd (fun c hc => ⟨(hb c hc).1, (hb c hc).2.1⟩)
          omega)
    set N : List QuadNode := listSet t.nodes node_id
        { nd0 with first_child := (t.nodes.length : Int) } ++
        ([⟨-1, 0⟩, ⟨-1, 0⟩, ⟨-1, 0⟩, ⟨-1, 0⟩] : List QuadNode) with hN
    set t4 : Quadtree := { t with
        element_nodes := l',
        nodes := listSet N node_id
          { first_child := (t.nodes.length : Int), count := -1 } } with ht4
    have hnd1 : listGet? N node_id =
        some { nd0 with first_child := (t.nodes.length : Int) } := by
      rw [hN, listGet?_append_lt _ _ _ (by rw [length_listSet]; omega)]
      exact listGet?_listSet_self _ _ _ h00 h0l
    have hreadId : listGet? t4.nodes node_id =
        some { first_child := (t.nodes.length : Int), count := -1 } := by
      show listGet? (listSet N node_id _) _ = _
      refine listGet?_listSet_self _ _ _ h00 ?_
      rw [hN, List.length_append, length_listSet]
      simp only [List.length_cons, List.length_nil]
      omega
    have hreadN : ∀ q : Quadrant, listGet? t4.nodes ((t.nodes.length : Int) + q.toInt) =
        some ⟨-1, 0⟩ := by
      intro q
      show listGet? (listSet N node_id _) _ = _
      rw [listGet?_listSet_ne _ _ _ _ (by cases q <;> simp [Quadrant.toInt] <;> omega)]
      rw [hN, listGet?_append_right _ _ _
        (by rw [length_listSet]; cases q <;> simp [Quadrant.toInt] <;> omega)]
      have harith : (t.nodes.length : Int) + q.toInt -
          ((listSet t.nodes node_id
            { nd0 with first_child := (t.nodes.length : Int) }).length : Int) = q.toInt := by
        rw [length_listSet]
        omega
      rw [harith]
      cases q <;> rfl
    have hreadFr : ∀ j : Int, j ≠ node_id → j < (t.nodes.length : Int) →
        listGet? t4.nodes j = listGet? t.nodes j := by
      intro j hjne hjlt
      show listGet? (listSet N node_id _) j = _
      rw [listGet?_listSet_ne _ _ _ _ (fun h => hjne h.symm)]
      rw [hN, listGet?_append_lt _ _ _ (by rw [length_listSet]; omega)]
      rw [listGet?_listSet_ne _ _ _ _ (fun h => hjne h.symm)]
    have heq : Quadtree.leafToBranch t node_id aabb =
        Quadtree.redistribute t4 ((t.nodes.length : Int)) aabb els.reverse := by
      unfold Quadtree.leafToBranch
      rw [hnd0]
      simp only
      rw [if_pos hfcne, hcol]
      simp only [Quadtree.nodesSet]
      rw [hnd1]
    have hcs4 : ChildrenState t4 ((t.nodes.length : Int)) CL.empty := by
      intro q
      refine ⟨⟨-1, 0⟩, hreadN q, ?_, ?_⟩
      · cases q <;> rfl
      · cases q <;> rfl
    have hb4 : ∀ c ∈ CL.empty.cells,
        0 ≤ c ∧ c.toNat < t4.element_nodes.data.length ∧ c ∉ (cs.reverse ++ free) := by
      intro c hc
      simp [CL.empty, CL.cells] at hc
    have hels4 : ∀ e ∈ els.reverse, ∃ qe, t4.elements.get? e = some qe := by
      intro e he
      obtain ⟨c0, hc0, qen0, hq0, he0⟩ := hels_prov e (List.mem_reverse.mp he)
      obtain ⟨qe, hqe⟩ := hpay c0 hc0 qen0 hq0
      exact ⟨qe, by rw [he0]; exact hqe⟩
    obtain ⟨t', cl', free', hred, hcs', hnd', hb', hfl', hsub', hlen', hmon', hsrc',
      hgrow', hnl', hel', hmd', hmle', hab', hmw', hmh', hjfr', hcfr', hpay'⟩ :=
      redistribute_spec els.reverse t4 ((t.nodes.length : Int)) CL.empty
        (cs.reverse ++ free) hcs4 (by simp [CL.empty, CL.cells]) hb4 hflcol hels4
    refine ⟨t', cl', free', heq.trans hred, ?_, hcs', hnd', hb', hfl', ?_, ?_, ?_, ?_,
      ?_, ?_, ?_, ?_, ?_, ?_, ?_, ?_, ?_, ?_⟩
    · rw [hjfr' node_id (by omega) (by omega) (by omega) (by omega)]
      exact hreadId
    · intro x hx
      rcases List.mem_append.mp (hsub' hx) with h | h
      · exact Or.inl (List.mem_reverse.mp h)
      · exact Or.inr h
    · intro c hc
      rcases hsrc' c hc with h | h | h
      · simp [CL.empty, CL.cells] at h
      · rcases List.mem_append.mp h with h2 | h2
        · exact Or.inl (List.mem_reverse.mp h2)
        · exact Or.inr (Or.inl h2)
      · refine Or.inr (Or.inr ?_)
        have : t4.element_nodes.data.length = t.element_nodes.data.length := hlen_l'
        omega
    · rw [hlen']
      simp [CL.empty, CL.cells, hlen_els]
    · have h1 : t4.element_nodes.data.length = t.element_nodes.data.length := hlen_l'
      omega
    · rw [hnl']
      show (listSet N node_id _).length = t.nodes.length + 4
      rw [length_listSet, hN, List.length_append, length_listSet]
      simp only [List.length_cons, List.length_nil]
    · rw [hel']
    · rw [hmd']
    · rw [hmle']
    · rw [hab']
    · rw [hmw']
    · rw [hmh']
    · intro j hjne hjlt
      rw [hjfr' j (by omega) (by omega) (by omega) (by omega)]
      exact hreadFr j hjne hjlt
    · intro c hc
      rw [hcfr' c hc]
      exact hread_l' c
    · intro c hc qen hq
      rcases hpay' c hc qen hq with hin | ⟨hce, -⟩
      · obtain ⟨c0, hc0, qen0, hq0, he0⟩ := hels_prov qen.element (List.mem_reverse.mp hin)
        exact ⟨c0, hc0, qen0, hq0, he0⟩
      · simp [CL.empty, CL.cells] at hce

/-- Depth discipline of a shape: every leaf lies at depth at most mld and
every branch strictly above mld (the insert loop only ever splits a leaf
strictly above the depth limit). -/
def DepthsOK (mld : Int) : STree → Int → Prop
  | .nil _, _ => True
  | .leaf _ _ _, d => d ≤ mld
  | .branch _ _ a b c e, d => d < mld ∧
      DepthsOK mld a (d + 1) ∧ DepthsOK mld b (d + 1) ∧
      DepthsOK mld c (d + 1) ∧ DepthsOK mld e (d + 1)

/-- Replace one child of a branch shape (identity on non-branches). -/
def STree.withChild : STree → Quadrant → STree → STree
  | .branch i fc a b c e, .TL, x => .branch i fc x b c e
  | .branch i fc a b c e, .TR, x => .branch i fc a x c e
  | .branch i fc a b c e, .BL, x => .branch i fc a b x e
  | .branch i fc a b c e, .BR, x => .branch i fc a b c x
  | s, _, _ => s

/-- DepthsOK ignores leaf contents. -/
theorem DepthsOK_setLeaf {mld : Int} {s : STree} {j : Int} (cells : List Int)
    (count : Int) {d : Int} (h : DepthsOK mld s d) :
    DepthsOK mld (setLeaf s j cells count) d := by
  induction s generalizing d with
  | nil i => trivial
  | leaf i cs cnt =>
      unfold setLeaf
      split
      · exact h
      · exact h
  | branch i fc a b c e iha ihb ihc ihe =>
      obtain ⟨h0, h1, h2, h3, h4⟩ := h
      exact ⟨h0, iha h1, ihb h2, ihc h3, ihe h4⟩

theorem setLeaf_isBranch (s : STree) (j : Int) (cells : List Int) (count : Int) :
    (setLeaf s j cells count).isBranch = s.isBranch := by
  cases s with
  | nil i => rfl
  | leaf i cs cnt =>
      unfold setLeaf
      split <;> rfl
  | branch i fc a b c e => rfl

/-- A contained leaf is realized by the arrays of a modeling tree. -/
theorem Models_containsLeaf {t : Quadtree} {s : STree} {j : Int} {cs : List Int}
    {cnt : Int} (hm : Models t s) (hcl : ContainsLeaf s j cs cnt) :
    ∃ nd, listGet? t.nodes j = some nd ∧ nd.count = cnt ∧
      ChainIs t.element_nodes nd.first_child cs ∧ (cs.length : Int) ≤ cnt := by
  induction s with
  | nil i => exact absurd hcl (by simp [ContainsLeaf])
  | leaf i cs' cnt' =>
      obtain ⟨rfl, rfl, rfl⟩ := hcl
      exact hm
  | branch i fc a b c e iha ihb ihc ihe =>
      obtain ⟨-, -, -, -, -, -, -, -, -, hma, hmb, hmc, hme⟩ := hm
      rcases hcl with h | h | h | h
      · exact iha hma h
      · exact ihb hmb h
      · exact ihc hmc h
      · exact ihe hme h

theorem FreeList.get?_of_bounds {α : Type} {l : FreeList α} {n : Int}
    (h0 : 0 ≤ n) (hl : n.toNat < l.data.length) : ∃ x, l.get? n = some x := by
  have : listGet? l.data n = some (l.data.get ⟨n.toNat, hl⟩) :=
    listGet?_eq_some_iff.mpr ⟨h0, hl, rfl⟩
  exact ⟨(l.data.get ⟨n.toNat, hl⟩).element, by
    show (listGet? l.data n).map _ = _
    rw [this]
    rfl⟩

theorem FreeList.get?_bounds {α : Type} {l : FreeList α} {n : Int} {x : α}
    (h : l.get? n = some x) : 0 ≤ n ∧ n.toNat < l.data.length := by
  have h2 : (listGet? l.data n).map (·.element) = some x := h
  match he : listGet? l.data n with
  | none => rw [he] at h2; exact absurd h2 (by simp)
  | some cell =>
      obtain ⟨h0, hl, -⟩ := listGet?_eq_some_iff.mp he
      exact ⟨h0, hl⟩

/-- Everything the insert loop guarantees, packaged: the final tree models a
reshaped tree with the same root index, all side invariants preserved, reads
outside the footprint untouched, and the returned cell is the last cell of a
live leaf chain ready for the element-patch half of insert. -/
inductive LoopPost (t : Quadtree) (s : STree) (free : List Int) (mld mle d : Int)
    (out : Quadtree × Except QtFault Int) : Prop where
  | mk
  (t' : Quadtree)
  (s' : STree)
  (free' : List Int)
  (ret : Int)
  (heq : out = (t', Except.ok ret))
  (hm : Models t' s')
  (hgk : s'.goodKinds)
  (hidx : s'.idx = s.idx)
  (hbr : s.isNil = true ∨ s.isBranch = true → s'.isBranch = true)
  (hsok : SOK t' s' free')
  (hfl : FLOK t'.element_nodes free')
  (hcnt : CountsOK mld mle s' d)
  (hdep : DepthsOK mld s' d)
  (hcpx : ∀ c ∈ s'.cellsOf, c ≠ ret → ∀ qen, t'.element_nodes.get? c = some qen →
    0 ≤ qen.element ∧ qen.element.toNat < t'.elements.data.length)
  (hel : t'.elements = t.elements)
  (hml : t'.max_leaf_elements = t.max_leaf_elements)
  (hmd : t'.max_depth = t.max_depth)
  (hab : t'.aabb = t.aabb)
  (hmw : t'.max_w = t.max_w)
  (hmh : t'.max_h = t.max_h)
  (hegrow : t.element_nodes.data.length ≤ t'.element_nodes.data.length)
  (hngrow : t.nodes.length ≤ t'.nodes.length)
  (hnfr : ∀ j : Int, j ∉ s'.nodeIdxs → j < (t.nodes.length : Int) →
    listGet? t'.nodes j = listGet? t.nodes j)
  (hcfr : ∀ c : Int, c ∉ s'.cellsOf → c ∉ s.cellsOf → c ∉ free →
    c < (t.element_nodes.data.length : Int) →
    t'.element_nodes.get? c = t.element_nodes.get? c)
  (hnsup : ∀ j ∈ s.nodeIdxs, j ∈ s'.nodeIdxs)
  (hnsrc : ∀ j ∈ s'.nodeIdxs, j ∈ s.nodeIdxs ∨ (t.nodes.length : Int) ≤ j)
  (hcsrc : ∀ c ∈ s'.cellsOf, c ∈ s.cellsOf ∨ c ∈ free ∨
    (t.element_nodes.data.length : Int) ≤ c)
  (hfsrc : ∀ x ∈ free', x ∈ free ∨ x ∈ s.cellsOf ∨
    (t.element_nodes.data.length : Int) ≤ x)
  (hleaf : ∃ jL csL cntL, csL ≠ [] ∧ ContainsLeaf s' jL csL cntL ∧
    (∀ hne : csL ≠ [], ret = csL.getLast hne) ∧
    ∃ qen, t'.element_nodes.get? ret = some qen ∧ qen.next = -1 ∧
      (qen.element = -1 ∨
        (0 ≤ qen.element ∧ qen.element.toNat < t'.elements.data.length ∧
          (csL.length : Int) + 1 ≤ cntL))) : LoopPost t s free mld mle d out

/-- A branch shape given by its children as a function of the quadrant. -/
def branchOf (i fc : Int) (ch : Quadrant → STree) : STree :=
  .branch i fc (ch .TL) (ch .TR) (ch .BL) (ch .BR)

theorem quadrant_exists_iff {P : Quadrant → Prop} :
    (∃ q, P q) ↔ P .TL ∨ P .TR ∨ P .BL ∨ P .BR := by
  constructor
  · rintro ⟨q, h⟩
    cases q
    · exact Or.inl h
    · exact Or.inr (Or.inl h)
    · exact Or.inr (Or.inr (Or.inl h))
    · exact Or.inr (Or.inr (Or.inr h))
  · rintro (h | h | h | h)
    · exact ⟨_, h⟩
    · exact ⟨_, h⟩
    · exact ⟨_, h⟩
    · exact ⟨_, h⟩

theorem mem_nodeIdxs_branchOf {i fc : Int} {ch : Quadrant → STree} {j : Int} :
    j ∈ (branchOf i fc ch).nodeIdxs ↔ j = i ∨ ∃ q, j ∈ (ch q).nodeIdxs := by
  show j ∈ _ :: (_ ++ _ ++ _ ++ _) ↔ _
  rw [quadrant_exists_iff]
  simp [or_assoc]

theorem mem_cellsOf_branchOf {i fc : Int} {ch : Quadrant → STree} {c : Int} :
    c ∈ (branchOf i fc ch).cellsOf ↔ ∃ q, c ∈ (ch q).cellsOf := by
  show c ∈ _ ++ _ ++ _ ++ _ ↔ _
  rw [quadrant_exists_iff]
  simp [or_assoc]

theorem Models_branchOf_iff {t : Quadtree} {i fc : Int} {ch : Quadrant → STree} :
    Models t (branchOf i fc ch) ↔ ∃ nd, listGet? t.nodes i = some nd ∧
      nd.count = -1 ∧ nd.first_child = fc ∧ 1 ≤ fc ∧
      (∀ q, (ch q).idx = fc + q.toInt) ∧ (∀ q, Models t (ch q)) := by
  constructor
  · rintro ⟨nd, h1, h2, h3, h4, ha, hb, hc, he, hma, hmb, hmc, hme⟩
    refine ⟨nd, h1, h2, h3, h4, ?_, ?_⟩
    · intro q
      cases q
      · simpa [Quadrant.toInt] using ha
      · simpa [Quadrant.toInt] using hb
      · simpa [Quadrant.toInt] using hc
      · simpa [Quadrant.toInt] using he
    · intro q
      cases q
      · exact hma
      · exact hmb
      · exact hmc
      · exact hme
  · rintro ⟨nd, h1, h2, h3, h4, hidx, hmod⟩
    exact ⟨nd, h1, h2, h3, h4, by simpa [Quadrant.toInt] using hidx .TL,
      by simpa [Quadrant.toInt] using hidx .TR,
      by simpa [Quadrant.toInt] using hidx .BL,
      by simpa [Quadrant.toInt] using hidx .BR,
      hmod .TL, hmod .TR, hmod .BL, hmod .BR⟩

theorem goodKinds_branchOf_iff {i fc : Int} {ch : Quadrant → STree} :
    (branchOf i fc ch).goodKinds ↔ ∀ q, (ch q).goodKinds := by
  show (_ ∧ _ ∧ _ ∧ _) ↔ _
  constructor
  · rintro ⟨h1, h2, h3, h4⟩ q
    cases q
    · exact h1
    · exact h2
    · exact h3
    · exact h4
  · intro h
    exact ⟨h .TL, h .TR, h .BL, h .BR⟩

theorem CountsOK_branchOf_iff {mld mle : Int} {i fc : Int} {ch : Quadrant → STree}
    {d : Int} :
    CountsOK mld mle (branchOf i fc ch) d ↔ ∀ q, CountsOK mld mle (ch q) (d + 1) := by
  show (_ ∧ _ ∧ _ ∧ _) ↔ _
  constructor
  · rintro ⟨h1, h2, h3, h4⟩ q
    cases q
    · exact h1
    · exact h2
    · exact h3
    · exact h4
  · intro h
    exact ⟨h .TL, h .TR, h .BL, h .BR⟩

theorem DepthsOK_branchOf_iff {mld : Int} {i fc : Int} {ch : Quadrant → STree}
    {d : Int} :
    DepthsOK mld (branchOf i fc ch) d ↔ d < mld ∧ ∀ q, DepthsOK mld (ch q) (d + 1) := by
  show (_ ∧ _ ∧ _ ∧ _ ∧ _) ↔ _
  constructor
  · rintro ⟨h0, h1, h2, h3, h4⟩
    refine ⟨h0, ?_⟩
    intro q
    cases q
    · exact h1
    · exact h2
    · exact h3
    · exact h4
  · rintro ⟨h0, h⟩
    exact ⟨h0, h .TL, h .TR, h .BL, h .BR⟩

theorem containsLeaf_branchOf {i fc : Int} {ch : Quadrant → STree} (q : Quadrant)
    {j : Int} {cs : List Int} {cnt : Int} (h : ContainsLeaf (ch q) j cs cnt) :
    ContainsLeaf (branchOf i fc ch) j cs cnt := by
  show _ ∨ _ ∨ _ ∨ _
  cases q
  · exact Or.inl h
  · exact Or.inr (Or.inl h)
  · exact Or.inr (Or.inr (Or.inl h))
  · exact Or.inr (Or.inr (Or.inr h))

/-- 4-way append Nodup constructor. -/
theorem nodup_append4_mk {A B C E : List Int}
    (hA : A.Nodup) (hB : B.Nodup) (hC : C.Nodup) (hE : E.Nodup)
    (hAB : ∀ x ∈ A, x ∉ B) (hAC : ∀ x ∈ A, x ∉ C) (hAE : ∀ x ∈ A, x ∉ E)
    (hBC : ∀ x ∈ B, x ∉ C) (hBE : ∀ x ∈ B, x ∉ E) (hCE : ∀ x ∈ C, x ∉ E) :
    (A ++ B ++ C ++ E).Nodup := by
  rw [List.nodup_append, List.nodup_append, List.nodup_append]
  refine ⟨⟨⟨hA, hB, hAB⟩, hC, ?_⟩, hE, ?_⟩
  · intro x hx
    rcases List.mem_append.mp hx with h | h
    · exact hAC x h
    · exact hBC x h
  · intro x hx
    rcases List.mem_append.mp hx with h | h
    · rcases List.mem_append.mp h with h2 | h2
      · exact hAE x h2
      · exact hBE x h2
    · exact hCE x h

/-- Decomposition of the side conditions of a branch shape. -/
theorem SOK_branchOf_elim {t : Quadtree} {i fc : Int} {ch : Quadrant → STree}
    {free : List Int} (h : SOK t (branchOf i fc ch) free) :
    (0 ≤ i ∧ i.toNat < t.nodes.length) ∧
    (∀ q, SOK t (ch q) free) ∧
    (∀ q, i ∉ (ch q).nodeIdxs) ∧
    (∀ q q', q ≠ q' → ∀ j ∈ (ch q).nodeIdxs, j ∉ (ch q').nodeIdxs) ∧
    (∀ q q', q ≠ q' → ∀ c ∈ (ch q).cellsOf, c ∉ (ch q').cellsOf) := by
  obtain ⟨hnd, hbnd, hcnd, hcbnd⟩ := h
  have hnd2 := List.nodup_cons.mp hnd
  obtain ⟨hnA, hnB, hnC, hnE, hnAB, hnBA, hnCA, hnEA⟩ := nodup_append4 hnd2.2
  obtain ⟨hcA, hcB, hcC, hcE, hcAB, hcBA, hcCA, hcEA⟩ := nodup_append4 (by exact hcnd)
  have hmemn : ∀ q, ∀ j ∈ (ch q).nodeIdxs, j ∈ (branchOf i fc ch).nodeIdxs :=
    fun q j hj => mem_nodeIdxs_branchOf.mpr (Or.inr ⟨q, hj⟩)
  have hmemc : ∀ q, ∀ c ∈ (ch q).cellsOf, c ∈ (branchOf i fc ch).cellsOf :=
    fun q c hc => mem_cellsOf_branchOf.mpr ⟨q, hc⟩
  refine ⟨?_, ?_, ?_, ?_, ?_⟩
  · exact hbnd i (by simp [branchOf, STree.nodeIdxs])
  · intro q
    refine ⟨?_, fun j hj => hbnd j (hmemn q j hj), ?_, fun c hc => hcbnd c (hmemc q c hc)⟩
    · cases q
      · exact hnA
      · exact hnB
      · exact hnC
      · exact hnE
    · cases q
      · exact hcA
      · exact hcB
      · exact hcC
      · exact hcE
  · intro q hj
    refine hnd2.1 ?_
    show i ∈ _ ++ _ ++ _ ++ _
    cases q <;> simp only [List.mem_append] <;> [skip; skip; skip; skip]
    · exact Or.inl (Or.inl (Or.inl hj))
    · exact Or.inl (Or.inl (Or.inr hj))
    · exact Or.inl (Or.inr hj)
    · exact Or.inr hj
  · intro q q' hne j hj
    cases q <;> cases q' <;> first
      | exact absurd rfl hne
      | exact (hnAB j hj).1
      | exact (hnAB j hj).2.1
      | exact (hnAB j hj).2.2
      | exact (hnBA j hj).1
      | exact (hnBA j hj).2.1
      | exact (hnBA j hj).2.2
      | exact (hnCA j hj).1
      | exact (hnCA j hj).2.1
      | exact (hnCA j hj).2.2
      | exact (hnEA j hj).1
      | exact (hnEA j hj).2.1
      | exact (hnEA j hj).2.2
  · intro q q' hne c hc
    cases q <;> cases q' <;> first
      | exact absurd rfl hne
      | exact (hcAB c hc).1
      | exact (hcAB c hc).2.1
      | exact (hcAB c hc).2.2
      | exact (hcBA c hc).1
      | exact (hcBA c hc).2.1
      | exact (hcBA c hc).2.2
      | exact (hcCA c hc).1
      | exact (hcCA c hc).2.1
      | exact (hcCA c hc).2.2
      | exact (hcEA c hc).1
      | exact (hcEA c hc).2.1
      | exact (hcEA c hc).2.2

/-- Constructor for the side conditions of a branch shape. -/
theorem SOK_branchOf_mk {t : Quadtree} {i fc : Int} {ch : Quadrant → STree}
    {free : List Int}
    (hib : 0 ≤ i ∧ i.toNat < t.nodes.length)
    (hq : ∀ q, SOK t (ch q) free)
    (hinot : ∀ q, i ∉ (ch q).nodeIdxs)
    (hdisn : ∀ q q', q ≠ q' → ∀ j ∈ (ch q).nodeIdxs, j ∉ (ch q').nodeIdxs)
    (hdisc : ∀ q q', q ≠ q' → ∀ c ∈ (ch q).cellsOf, c ∉ (ch q').cellsOf) :
    SOK t (branchOf i fc ch) free := by
  refine ⟨?_, ?_, ?_, ?_⟩
  · refine List.nodup_cons.mpr ⟨?_, ?_⟩
    · intro hmem
      rcases List.mem_append.mp hmem with h | h
      · rcases List.mem_append.mp h with h2 | h2
        · rcases List.mem_append.mp h2 with h3 | h3
          · exact hinot .TL h3
          · exact hinot .TR h3
        · exact hinot .BL h2
      · exact hinot .BR h
    · exact nodup_append4_mk (hq .TL).1 (hq .TR).1 (hq .BL).1 (hq .BR).1
        (hdisn .TL .TR (by simp)) (hdisn .TL .BL (by simp)) (hdisn .TL .BR (by simp))
        (hdisn .TR .BL (by simp)) (hdisn .TR .BR (by simp)) (hdisn .BL .BR (by simp))
  · intro j hj
    rcases mem_nodeIdxs_branchOf.mp hj with rfl | ⟨q, hq2⟩
    · exact hib
    · exact (hq q).2.1 j hq2
  · exact nodup_append4_mk (hq .TL).2.2.1 (hq .TR).2.2.1 (hq .BL).2.2.1 (hq .BR).2.2.1
      (hdisc .TL .TR (by simp)) (hdisc .TL .BL (by simp)) (hdisc .TL .BR (by simp))
      (hdisc .TR .BL (by simp)) (hdisc .TR .BR (by simp)) (hdisc .BL .BR (by simp))
  · intro c hc
    obtain ⟨q, hq2⟩ := mem_cellsOf_branchOf.mp hc
    exact (hq q).2.2.2 c hq2

/-- Lifting the loop postcondition from a branch child back to the branch:
the rest of the branch is untouched by the recursive call. -/
theorem branch_assemble {t1 : Quadtree} {i fc : Int} {ch : Quadrant → STree}
    {free1 : List Int} {mld mle d : Int} (q : Quadrant)
    {out : Quadtree × Except QtFault Int}
    (hm : Models t1 (branchOf i fc ch))
    (hgk : (branchOf i fc ch).goodKinds)
    (hsok : SOK t1 (branchOf i fc ch) free1)
    (hcp : CellPayloadsOK t1 (branchOf i fc ch))
    (hcnt : CountsOK mld mle (branchOf i fc ch) d)
    (hdep : DepthsOK mld (branchOf i fc ch) d)
    (hpost : LoopPost t1 (ch q) free1 mld mle (d + 1) out) :
    LoopPost t1 (branchOf i fc ch) free1 mld mle d out := by
  obtain ⟨t', sX, free', ret, heq, hm', hgk', hidx', hbr', hsok', hfl', hcnt', hdep',
    hcpx', hel', hml', hmd', hab', hmw', hmh', hegrow', hngrow', hnfr', hcfr',
    hnsup', hnsrc', hcsrc', hfsrc', hleaf'⟩ := hpost
  obtain ⟨hib, hsokq, hinot, hdisn, hdisc⟩ := SOK_branchOf_elim hsok
  obtain ⟨nd, hndr, hndc, hndfc, hfc1, hchidx, hchm⟩ := Models_branchOf_iff.mp hm
  have hsibn : ∀ q', q' ≠ q → ∀ j ∈ (ch q').nodeIdxs, j ∉ sX.nodeIdxs := by
    intro q' hq' j hj hjX
    rcases hnsrc' j hjX with hin | hge
    · exact hdisn q' q hq' j hj hin
    · have := (hsokq q').2.1 j hj
      omega
  have hiX : i ∉ sX.nodeIdxs := by
    intro hjX
    rcases hnsrc' i hjX with hin | hge
    · exact hinot q hin
    · have := hib.2
      omega
  have hsibc : ∀ q', q' ≠ q → ∀ c ∈ (ch q').cellsOf,
      c ∉ sX.cellsOf ∧ c ∉ (ch q).cellsOf ∧ c ∉ free1 ∧
      c < (t1.element_nodes.data.length : Int) := by
    intro q' hq' c hc
    obtain ⟨h0, hl, hf⟩ := (hsokq q').2.2.2 c hc
    refine ⟨?_, hdisc q' q hq' c hc, hf, by omega⟩
    intro hcX
    rcases hcsrc' c hcX with hin | hin | hge
    · exact hdisc q' q hq' c hc hin
    · exact hf hin
    · omega
  set ch' : Quadrant → STree := fun q' => if q' = q then sX else ch q' with hch'
  have hch'q : ch' q = sX := by simp [hch']
  have hch'ne : ∀ q', q' ≠ q → ch' q' = ch q' := by
    intro q' h
    simp [hch', h]
  refine ⟨t', branchOf i fc ch', free', ret, heq, ?_, ?_, rfl, fun _ => rfl, ?_, hfl',
    ?_, ?_, ?_, hel', hml', hmd', hab', hmw', hmh', hegrow', hngrow',
    ?_, ?_, ?_, ?_, ?_, ?_, ?_⟩
  · refine Models_branchOf_iff.mpr ⟨nd, ?_, hndc, hndfc, hfc1, ?_, ?_⟩
    · rw [hnfr' i hiX (by have := hib.2; omega)]
      exact hndr
    · intro q'
      by_cases hq' : q' = q
      · rw [hq', hch'q, hidx']
        exact hchidx q
      · rw [hch'ne q' hq']
        exact hchidx q'
    · intro q'
      by_cases hq' : q' = q
      · rw [hq', hch'q]
        exact hm'
      · rw [hch'ne q' hq']
        refine Models_frame ?_ ?_ (hchm q')
        · intro j hj
          refine hnfr' j (hsibn q' hq' j hj) ?_
          have := (hsokq q').2.1 j hj
          omega
        · intro c hc
          obtain ⟨hn1, hn2, hn3, hn4⟩ := hsibc q' hq' c hc
          exact hcfr' c hn1 hn2 hn3 hn4
  · refine goodKinds_branchOf_iff.mpr ?_
    intro q'
    by_cases hq' : q' = q
    · rw [hq', hch'q]
      exact hgk'
    · rw [hch'ne q' hq']
      exact goodKinds_branchOf_iff.mp hgk q'
  · refine SOK_branchOf_mk ⟨hib.1, by have := hib.2; omega⟩ ?_ ?_ ?_ ?_
    · intro q'
      by_cases hq' : q' = q
      · rw [hq', hch'q]
        exact hsok'
      · rw [hch'ne q' hq']
        obtain ⟨ha1, ha2, ha3, ha4⟩ := hsokq q'
        refine ⟨ha1, ?_, ha3, ?_⟩
        · intro j hj
          have := ha2 j hj
          omega
        · intro c hc
          obtain ⟨hc1, hc2, hc3⟩ := ha4 c hc
          refine ⟨hc1, by omega, ?_⟩
          intro hcf
          rcases hfsrc' c hcf with hin | hin | hge
          · exact hc3 hin
          · exact hdisc q q' (fun he => hq' he.symm) c hin hc
          · omega
    · intro q'
      by_cases hq' : q' = q
      · rw [hq', hch'q]
        exact hiX
      · rw [hch'ne q' hq']
        exact hinot q'
    · intro qa qb hne j hj hj'
      by_cases hqa : qa = q
      · have hqb : qb ≠ q := fun h => hne (hqa.trans h.symm)
        rw [hqa, hch'q] at hj
        rw [hch'ne qb hqb] at hj'
        exact hsibn qb hqb j hj' hj
      · by_cases hqb : qb = q
        · rw [hch'ne qa hqa] at hj
          rw [hqb, hch'q] at hj'
          exact hsibn qa hqa j hj hj'
        · rw [hch'ne qa hqa] at hj
          rw [hch'ne qb hqb] at hj'
          exact hdisn qa qb hne j hj hj'
    · intro qa qb hne c hc hc'
      by_cases hqa : qa = q
      · have hqb : qb ≠ q := fun h => hne (hqa.trans h.symm)
        rw [hqa, hch'q] at hc
        rw [hch'ne qb hqb] at hc'
        exact (hsibc qb hqb c hc').1 hc
      · by_cases hqb : qb = q
        · rw [hch'ne qa hqa] at hc
          rw [hqb, hch'q] at hc'
          exact (hsibc qa hqa c hc).1 hc'
        · rw [hch'ne qa hqa] at hc
          rw [hch'ne qb hqb] at hc'
          exact hdisc qa qb hne c hc hc'
  · refine CountsOK_branchOf_iff.mpr ?_
    intro q'
    by_cases hq' : q' = q
    · rw [hq', hch'q]
      exact hcnt'
    · rw [hch'ne q' hq']
      exact CountsOK_branchOf_iff.mp hcnt q'
  · refine DepthsOK_branchOf_iff.mpr ⟨(DepthsOK_branchOf_iff.mp hdep).1, ?_⟩
    intro q'
    by_cases hq' : q' = q
    · rw [hq', hch'q]
      exact hdep'
    · rw [hch'ne q' hq']
      exact (DepthsOK_branchOf_iff.mp hdep).2 q'
  · intro c hc hcr qen hq2
    obtain ⟨q', hq'c⟩ := mem_cellsOf_branchOf.mp hc
    by_cases hq' : q' = q
    · rw [hq', hch'q] at hq'c
      exact hcpx' c hq'c hcr qen hq2
    · rw [hch'ne q' hq'] at hq'c
      obtain ⟨hn1, hn2, hn3, hn4⟩ := hsibc q' hq' c hq'c
      rw [hcfr' c hn1 hn2 hn3 hn4] at hq2
      have hb2 := hcp c (mem_cellsOf_branchOf.mpr ⟨q', hq'c⟩) qen hq2
      rw [hel']
      exact hb2
  · intro j hj hjl
    refine hnfr' j ?_ hjl
    intro hjX
    refine hj (mem_nodeIdxs_branchOf.mpr (Or.inr ⟨q, ?_⟩))
    rw [hch'q]
    exact hjX
  · intro c hc1 hc2 hc3 hc4
    refine hcfr' c ?_ ?_ hc3 hc4
    · intro hcX
      refine hc1 (mem_cellsOf_branchOf.mpr ⟨q, ?_⟩)
      rw [hch'q]
      exact hcX
    · intro hcq
      exact hc2 (mem_cellsOf_branchOf.mpr ⟨q, hcq⟩)
  · intro j hj
    rcases mem_nodeIdxs_branchOf.mp hj with rfl | ⟨q', hq'⟩
    · exact mem_nodeIdxs_branchOf.mpr (Or.inl rfl)
    · by_cases hqq : q' = q
      · rw [hqq] at hq'
        refine mem_nodeIdxs_branchOf.mpr (Or.inr ⟨q, ?_⟩)
        rw [hch'q]
        exact hnsup' j hq'
      · refine mem_nodeIdxs_branchOf.mpr (Or.inr ⟨q', ?_⟩)
        rw [hch'ne q' hqq]
        exact hq'
  · intro j hj
    rcases mem_nodeIdxs_branchOf.mp hj with rfl | ⟨q', hq'⟩
    · exact Or.inl (mem_nodeIdxs_branchOf.mpr (Or.inl rfl))
    · by_cases hqq : q' = q
      · rw [hqq, hch'q] at hq'
        rcases hnsrc' j hq' with hin | hge
        · exact Or.inl (mem_nodeIdxs_branchOf.mpr (Or.inr ⟨q, hin⟩))
        · exact Or.inr hge
      · rw [hch'ne q' hqq] at hq'
        exact Or.inl (mem_nodeIdxs_branchOf.mpr (Or.inr ⟨q', hq'⟩))
  · intro c hc
    obtain ⟨q', hq'⟩ := mem_cellsOf_branchOf.mp hc
    by_cases hqq : q' = q
    · rw [hqq, hch'q] at hq'
      rcases hcsrc' c hq' with hin | hin | hge
      · exact Or.inl (mem_cellsOf_branchOf.mpr ⟨q, hin⟩)
      · exact Or.inr (Or.inl hin)
      · exact Or.inr (Or.inr hge)
    · rw [hch'ne q' hqq] at hq'
      exact Or.inl (mem_cellsOf_branchOf.mpr ⟨q', hq'⟩)
  · intro x hx
    rcases hfsrc' x hx with hin | hin | hge
    · exact Or.inl hin
    · exact Or.inr (Or.inl (mem_cellsOf_branchOf.mpr ⟨q, hin⟩))
    · exact Or.inr (Or.inr hge)
  · obtain ⟨jL, csL, cntL, hne, hcl, hrl, qen, hqr, hqn, hqe⟩ := hleaf'
    refine ⟨jL, csL, cntL, hne, containsLeaf_branchOf q ?_, hrl, qen, hqr, hqn, hqe⟩
    rw [hch'q]
    exact hcl

/-- Composing a split pre-step (leaf or fresh root into a branch) with the
loop postcondition of the resulting branch. -/
theorem LoopPost_precomp {t t1 : Quadtree} {s s1 : STree} {free free1 : List Int}
    {mld mle d : Int} {out : Quadtree × Except QtFault Int}
    (hidx1 : s1.idx = s.idx)
    (hbr1 : s1.isBranch = true)
    (hel1 : t1.elements = t.elements)
    (hml1 : t1.max_leaf_elements = t.max_leaf_elements)
    (hmd1 : t1.max_depth = t.max_depth)
    (hab1 : t1.aabb = t.aabb) (hmw1 : t1.max_w = t.max_w) (hmh1 : t1.max_h = t.max_h)
    (hegrow1 : t.element_nodes.data.length ≤ t1.element_nodes.data.length)
    (hngrow1 : t.nodes.length ≤ t1.nodes.length)
    (hnfr1 : ∀ j : Int, j ∉ s1.nodeIdxs → j < (t.nodes.length : Int) →
      listGet? t1.nodes j = listGet? t.nodes j)
    (hcfr1 : ∀ c : Int, c ∉ s1.cellsOf → c ∉ s.cellsOf → c ∉ free →
      c < (t.element_nodes.data.length : Int) →
      t1.element_nodes.get? c = t.element_nodes.get? c)
    (hnsup1 : ∀ j ∈ s.nodeIdxs, j ∈ s1.nodeIdxs)
    (hnsrc1 : ∀ j ∈ s1.nodeIdxs, j ∈ s.nodeIdxs ∨ (t.nodes.length : Int) ≤ j)
    (hcsrc1 : ∀ c ∈ s1.cellsOf, c ∈ s.cellsOf ∨ c ∈ free ∨
      (t.element_nodes.data.length : Int) ≤ c)
    (hfsrc1 : ∀ x ∈ free1, x ∈ free ∨ x ∈ s.cellsOf ∨
      (t.element_nodes.data.length : Int) ≤ x)
    (hpost : LoopPost t1 s1 free1 mld mle d out) :
    LoopPost t s free mld mle d out := by
  obtain ⟨t', s', free', ret, heq, hm', hgk', hidx', hbr', hsok', hfl', hcnt', hdep',
    hcpx', hel', hml', hmd', hab', hmw', hmh', hegrow', hngrow', hnfr', hcfr',
    hnsup', hnsrc', hcsrc', hfsrc', hleaf'⟩ := hpost
  have hnotin1 : ∀ c : Int, c ∉ s.cellsOf → c ∉ free →
      c < (t.element_nodes.data.length : Int) → c ∉ s1.cellsOf := by
    intro c h1 h2 h3 hin
    rcases hcsrc1 c hin with h | h | h
    · exact h1 h
    · exact h2 h
    · omega
  have hnotfree1 : ∀ c : Int, c ∉ s.cellsOf → c ∉ free →
      c < (t.element_nodes.data.length : Int) → c ∉ free1 := by
    intro c h1 h2 h3 hin
    rcases hfsrc1 c hin with h | h | h
    · exact h2 h
    · exact h1 h
    · omega
  refine ⟨t', s', free', ret, heq, hm', hgk', hidx'.trans hidx1,
    fun _ => hbr' (Or.inr hbr1), hsok', hfl', hcnt', hdep', hcpx',
    hel'.trans hel1, hml'.trans hml1, hmd'.trans hmd1, hab'.trans hab1,
    hmw'.trans hmw1, hmh'.trans hmh1, le_trans hegrow1 hegrow',
    le_trans hngrow1 hngrow', ?_, ?_, ?_, ?_, ?_, ?_, hleaf'⟩
  · intro j hj hjl
    have hj1 : j ∉ s1.nodeIdxs := fun hin => hj (hnsup' j hin)
    rw [hnfr' j hj (by omega), hnfr1 j hj1 hjl]
  · intro c hc1 hc2 hc3 hc4
    have hcs1 : c ∉ s1.cellsOf := hnotin1 c hc2 hc3 hc4
    have hcf1 : c ∉ free1 := hnotfree1 c hc2 hc3 hc4
    rw [hcfr' c hc1 hcs1 hcf1 (by omega), hcfr1 c hcs1 hc2 hc3 hc4]
  · intro j hj
    exact hnsup' j (hnsup1 j hj)
  · intro j hj
    rcases hnsrc' j hj with hin | hge
    · rcases hnsrc1 j hin with h | h
      · exact Or.inl h
      · exact Or.inr h
    · exact Or.inr (by omega)
  · intro c hc
    rcases hcsrc' c hc with hin | hin | hge
    · exact hcsrc1 c hin
    · rcases hfsrc1 c hin with h | h | h
      · exact Or.inr (Or.inl h)
      · exact Or.inl h
      · exact Or.inr (Or.inr h)
    · exact Or.inr (Or.inr (by omega))
  · intro x hx
    rcases hfsrc' x hx with hin | hin | hge
    · exact hfsrc1 x hin
    · rcases hcsrc1 x hin with h | h | h
      · exact Or.inr (Or.inl h)
      · exact Or.inl h
      · exact Or.inr (Or.inr h)
    · exact Or.inr (Or.inr (by omega))

/-- The four fresh child leaves created by a split, as shapes. -/
def splitChildren (len : Int) (cl : CL) : Quadrant → STree :=
  fun q => .leaf (len + q.toInt) (cl.get q) ((cl.get q).length : Int)

/-- Shape-level facts about the branch a split produces, from the
leaf_to_branch postconditions. -/
theorem split_branch_shape {t t1 : Quadtree} {j : Int} {cs : List Int}
    {free1 : List Int} {cl1 : CL} (mld mle d : Int)
    (h00 : 0 ≤ j) (h0l : j.toNat < t.nodes.length)
    (hnode : listGet? t1.nodes j =
      some { first_child := (t.nodes.length : Int), count := -1 })
    (hcs1 : ChildrenState t1 (t.nodes.length : Int) cl1)
    (hnd1 : cl1.cells.Nodup)
    (hb1 : ∀ c ∈ cl1.cells, 0 ≤ c ∧ c.toNat < t1.element_nodes.data.length ∧ c ∉ free1)
    (hlen1 : cl1.cells.length = cs.length)
    (hnl1 : t1.nodes.length = t.nodes.length + 4)
    (hpay1 : ∀ c ∈ cl1.cells, ∀ qen, t1.element_nodes.get? c = some qen →
      ∃ c0 ∈ cs, ∃ qen0, t.element_nodes.get? c0 = some qen0 ∧
        qen.element = qen0.element)
    (hel1 : t1.elements = t.elements)
    (hcspay : ∀ c ∈ cs, ∀ qen, t.element_nodes.get? c = some qen →
      0 ≤ qen.element ∧ qen.element.toNat < t.elements.data.length)
    (hcsle : (cs.length : Int) ≤ mle)
    (hdlt : d < mld) :
    Models t1 (branchOf j (t.nodes.length : Int) (splitChildren (t.nodes.length : Int) cl1)) ∧
    (branchOf j (t.nodes.length : Int) (splitChildren (t.nodes.length : Int) cl1)).goodKinds ∧
    SOK t1 (branchOf j (t.nodes.length : Int) (splitChildren (t.nodes.length : Int) cl1)) free1 ∧
    CellPayloadsOK t1 (branchOf j (t.nodes.length : Int) (splitChildren (t.nodes.length : Int) cl1)) ∧
    CountsOK mld mle (branchOf j (t.nodes.length : Int) (splitChildren (t.nodes.length : Int) cl1)) d ∧
    DepthsOK mld (branchOf j (t.nodes.length : Int) (splitChildren (t.nodes.length : Int) cl1)) d := by
  have hlen1p : 1 ≤ t.nodes.length := by omega
  have hcells : (branchOf j (t.nodes.length : Int)
      (splitChildren (t.nodes.length : Int) cl1)).cellsOf = cl1.cells := rfl
  refine ⟨?_, ?_, ?_, ?_, ?_, ?_⟩
  · refine Models_branchOf_iff.mpr ⟨_, hnode, rfl, rfl, by
      show (1 : Int) ≤ (t.nodes.length : Int)
      omega, fun q => rfl, ?_⟩
    intro q
    obtain ⟨nd, hr, hc, hch⟩ := hcs1 q
    exact ⟨nd, hr, hc, hch, le_refl _⟩
  · refine goodKinds_branchOf_iff.mpr ?_
    intro q
    show (t.nodes.length : Int) + q.toInt ≠ 0
    cases q <;> simp only [Quadrant.toInt] <;> omega
  · refine SOK_branchOf_mk ⟨h00, by omega⟩ ?_ ?_ ?_ ?_
    · intro q
      refine ⟨List.nodup_singleton _, ?_, CL.get_nodup hnd1 q, ?_⟩
      · intro j' hj'
        simp only [splitChildren, STree.nodeIdxs, List.mem_singleton] at hj'
        subst hj'
        constructor
        · cases q <;> simp only [Quadrant.toInt] <;> omega
        · cases q <;> simp only [Quadrant.toInt] <;> omega
      · intro c hc
        exact hb1 c (CL.get_mem_cells hc)
    · intro q hmem
      simp only [splitChildren, STree.nodeIdxs, List.mem_singleton] at hmem
      cases q <;> simp only [Quadrant.toInt] at hmem <;> omega
    · intro qa qb hne j' hj hj'
      simp only [splitChildren, STree.nodeIdxs, List.mem_singleton] at hj hj'
      have h2 : qa.toInt = qb.toInt := by omega
      exact hne (Quadrant.toInt_inj h2)
    · intro qa qb hne c hc hc'
      exact CL.get_disjoint hnd1 hne hc hc'
  · intro c hc qen hq
    rw [hcells] at hc
    obtain ⟨c0, hc0, qen0, hq0, he0⟩ := hpay1 c hc qen hq
    obtain ⟨hb0, hbl⟩ := hcspay c0 hc0 qen0 hq0
    rw [hel1, he0]
    exact ⟨hb0, hbl⟩
  · refine CountsOK_branchOf_iff.mpr ?_
    intro q
    show d + 1 < mld → ((cl1.get q).length : Int) ≤ mle
    intro hd
    have h1 := CL.get_length_le cl1 q
    omega
  · refine DepthsOK_branchOf_iff.mpr ⟨hdlt, ?_⟩
    intro q
    show (d : Int) + 1 ≤ mld
    omega

theorem Quadrant.toInt_nonneg (q : Quadrant) : 0 ≤ q.toInt := by
  cases q <;> simp [Quadrant.toInt]

theorem isNil_idx_zero {s : STree} (h : s.isNil = true) (hg : s.goodKinds) :
    s.idx = 0 := by
  cases s with
  | nil i => exact hg
  | leaf i cs cnt => simp [STree.isNil] at h
  | branch i fc a b c e => simp [STree.isNil] at h

/-- The main loop of _insert_element_node: one full specification by fuel
induction.  The loop is entered at the subtree rooted at s.idx. -/
theorem insertLoop_spec (aabb : AABB) :
    ∀ (fuel : Nat) (t : Quadtree) (s : STree) (free : List Int) (mld mle d : Int)
      (cq : AABB),
      t.max_leaf_elements = mle → t.max_depth = mld → 1 ≤ mld → 1 ≤ mle →
      Models t s → s.goodKinds → SOK t s free → FLOK t.element_nodes free →
      CellPayloadsOK t s → CountsOK mld mle s d → DepthsOK mld s d →
      0 ≤ d → (s.isNil = true → d = 0) →
      (mld - d).toNat + 1 ≤ fuel →
      LoopPost t s free mld mle d
        (Quadtree.insertElementNodeLoop t aabb fuel s.idx cq d) := by
  intro fuel
  induction fuel with
  | zero =>
      intro t s free mld mle d cq _ _ _ _ _ _ _ _ _ _ _ _ _ hfuel
      omega
  | succ fuel ih =>
      intro t s free mld mle d cq hml hmd hmld1 hmle1 hm hgk hsok hfl hcp hcnt hdep
        hd0 hnil hfuel
      cases s with
      | nil i =>
          have hi0 : i = 0 := hgk
          subst hi0
          have hd00 : d = 0 := hnil rfl
          subst hd00
          have hmr : listGet? t.nodes 0 = some ⟨-1, -1⟩ := hm
          have h0l : (0 : Int).toNat < t.nodes.length :=
            (hsok.2.1 0 (by simp [STree.nodeIdxs])).2
          obtain ⟨t1, cl1, free1, hLTB, hnode1, hcs1, hnd1, hb1, hfl1, hfsub1, hsrc1,
            hlen1, hegrow1, hnl1, hel1, hmd1p, hmle1p, hab1, hmw1p, hmh1p, hjfr1,
            hcfr1, hpay1⟩ :=
            leafToBranch_spec cq hmr
              (show ChainIs t.element_nodes
                ({ first_child := -1, count := -1 } : QuadNode).first_child [] from rfl)
              List.nodup_nil
              (fun c hc => absurd hc (List.not_mem_nil c)) hfl
              (fun c hc => absurd hc (List.not_mem_nil c))
          obtain ⟨hbm, hbgk, hbsok, hbcp, hbcnt, hbdep⟩ :=
            split_branch_shape mld mle 0 (le_refl 0) h0l hnode1 hcs1 hnd1 hb1
              hlen1 hnl1 hpay1 hel1
              (fun c hc => absurd hc (List.not_mem_nil c))
              (by simp; omega) (by omega)
          set qd : Quadrant := cq.find_quadrant aabb.x aabb.y with hqd
          set ch1 : Quadrant → STree :=
            splitChildren (t.nodes.length : Int) cl1 with hch1
          have hIH := ih t1 (ch1 qd) free1 mld mle (0 + 1) (cq.splitCenter qd)
            (hmle1p.trans hml) (hmd1p.trans hmd) hmld1 hmle1
            ((Models_branchOf_iff.mp hbm).choose_spec.2.2.2.2.2 qd)
            (goodKinds_branchOf_iff.mp hbgk qd)
            ((SOK_branchOf_elim hbsok).2.1 qd)
            hfl1
            (fun c hc => hbcp c (mem_cellsOf_branchOf.mpr ⟨qd, hc⟩))
            (CountsOK_branchOf_iff.mp hbcnt qd)
            ((DepthsOK_branchOf_iff.mp hbdep).2 qd)
            (by omega)
            (fun h => absurd h (by simp [hch1, splitChildren, STree.isNil]))
            (by omega)
          have hIH2 : LoopPost t1 (ch1 qd) free1 mld mle (0 + 1)
              (Quadtree.insertElementNodeLoop t1 aabb fuel
                ((t.nodes.length : Int) + qd.toInt) (cq.splitCenter qd) (0 + 1)) := hIH
          have hasm := branch_assemble qd hbm hbgk hbsok hbcp hbcnt hbdep hIH2
          have heqloop : Quadtree.insertElementNodeLoop t aabb (fuel + 1)
              (STree.nil 0).idx cq 0 =
              Quadtree.insertElementNodeLoop t1 aabb fuel
                ((t.nodes.length : Int) + qd.toInt) (cq.splitCenter qd) (0 + 1) := by
            show Quadtree.insertElementNodeLoop t aabb (fuel + 1) 0 cq 0 = _
            conv_lhs => unfold Quadtree.insertElementNodeLoop
            rw [hmr]
            simp only
            rw [if_pos (by exact ⟨by trivial, by trivial⟩), hLTB]
            simp only
            unfold Quadtree.insertDescend
            rw [hnode1]
          rw [heqloop]
          refine LoopPost_precomp
            (show (branchOf 0 (t.nodes.length : Int) ch1).idx = (STree.nil 0).idx
              from rfl)
            (show (branchOf 0 (t.nodes.length : Int) ch1).isBranch = true from rfl)
            hel1 (hmle1p) (hmd1p) hab1 hmw1p hmh1p
            hegrow1 (by omega) ?_ ?_ ?_ ?_ ?_ ?_ hasm
          · intro j hj hjl
            refine hjfr1 j ?_ hjl
            intro he
            exact hj (he ▸ mem_nodeIdxs_branchOf.mpr (Or.inl rfl))
          · intro c hc1 hc2 hc3 hc4
            exact hcfr1 c hc1
          · intro j hj
            show j ∈ _
            have : j = 0 := by simpa [STree.nodeIdxs] using hj
            rw [this]
            exact mem_nodeIdxs_branchOf.mpr (Or.inl rfl)
          · intro j hj
            rcases mem_nodeIdxs_branchOf.mp hj with rfl | ⟨q', hq'⟩
            · exact Or.inl (by simp [STree.nodeIdxs])
            · refine Or.inr ?_
              simp only [hch1, splitChildren, STree.nodeIdxs, List.mem_singleton] at hq'
              cases q' <;> simp only [Quadrant.toInt] at hq' <;> omega
          · intro c hc
            rcases hsrc1 c hc with h | h | h
            · exact absurd h (List.not_mem_nil c)
            · exact Or.inr (Or.inl h)
            · exact Or.inr (Or.inr h)
          · intro x hx
            rcases hfsub1 x hx with h | h
            · exact absurd h (List.not_mem_nil x)
            · exact Or.inl h
      | leaf i cells cnt =>
          obtain ⟨nd, hndr, hndc, hchn, hcle⟩ := hm
          have hine0 : i ≠ 0 := hgk
          have hib : 0 ≤ i ∧ i.toNat < t.nodes.length :=
            hsok.2.1 i (by simp [STree.nodeIdxs])
          have hcellnd : cells.Nodup := hsok.2.2.1
          have hcellb : ∀ c ∈ cells,
              0 ≤ c ∧ c.toNat < t.element_nodes.data.length ∧ c ∉ free := hsok.2.2.2
          have hcnt0 : (0 : Int) ≤ cnt := le_trans (by positivity) hcle
          by_cases haccept : cnt < mle ∨ d = mld
          · -- the leaf takes the element
            by_cases hemp : nd.first_child = -1
            · -- fresh chain
              have hnilc : cells = [] :=
                (chainIs_eq_nil_iff hchn (fun c hc => (hcellb c hc).1)).mp hemp
              subst hnilc
              obtain ⟨nc, l', hins, hfl', hmem, hnc0, hncl, hlenl, hget, hpres,
                hnotail⟩ := FLOK_insert hfl ({} : QuadElementNode)
              have heqloop : Quadtree.insertElementNodeLoop t aabb (fuel + 1)
                  (STree.leaf i [] cnt).idx cq d =
                  (({ t with element_nodes := l' } : Quadtree).nodesSet i
                    { nd with count := nd.count + 1, first_child := nc },
                    Except.ok nc) := by
                show Quadtree.insertElementNodeLoop t aabb (fuel + 1) i cq d = _
                unfold Quadtree.insertElementNodeLoop
                rw [hndr]
                simp only
                rw [if_neg (by rintro ⟨h0, -⟩; exact hine0 h0),
                  if_pos (show nd.count > -1 by omega),
                  if_pos (show nd.count < t.max_leaf_elements ∨ d = t.max_depth by
                    rw [hndc, hml, hmd]; exact haccept),
                  if_pos hemp, hins]
              refine ⟨_, .leaf i [nc] (cnt + 1), free.tail, nc, heqloop, ?_, hine0, rfl,
                ?_, ?_, hfl', ?_, ?_, ?_, rfl, rfl, rfl, rfl, rfl, rfl, hlenl, ?_,
                ?_, ?_, ?_, ?_, ?_, ?_, ?_⟩
              · -- Models
                refine ⟨{ nd with count := nd.count + 1, first_child := nc }, ?_, ?_,
                  ?_, ?_⟩
                · show listGet? (listSet t.nodes i _) i = _
                  rw [listGet?_listSet_self _ _ _ hib.1 hib.2]
                · show nd.count + 1 = cnt + 1
                  omega
                · exact ⟨rfl, {}, hget, rfl⟩
                · show ((1 : Nat) : Int) ≤ cnt + 1
                  omega
              · intro h
                rcases h with h | h <;> simp [STree.isNil, STree.isBranch] at h
              · -- SOK
                refine ⟨List.nodup_singleton _, ?_, List.nodup_singleton _, ?_⟩
                · intro j hj
                  rw [show (STree.leaf i [nc] (cnt + 1)).nodeIdxs = [i] from rfl,
                    List.mem_singleton] at hj
                  subst hj
                  refine ⟨hib.1, ?_⟩
                  show j.toNat < (listSet t.nodes j _).length
                  rw [length_listSet]
                  exact hib.2
                · intro c hc
                  rw [show (STree.leaf i [nc] (cnt + 1)).cellsOf = [nc] from rfl,
                    List.mem_singleton] at hc
                  subst hc
                  exact ⟨hnc0, hncl, hnotail⟩
              · -- CountsOK
                show d < mld → cnt + 1 ≤ mle
                intro hdlt
                rcases haccept with h | h
                · omega
                · omega
              · -- DepthsOK
                exact hdep
              · -- payloads except ret
                intro c hc hcne qen hq
                rw [show (STree.leaf i [nc] (cnt + 1)).cellsOf = [nc] from rfl,
                  List.mem_singleton] at hc
                exact absurd hc hcne
              · -- nodes length
                show t.nodes.length ≤ (listSet t.nodes i _).length
                rw [length_listSet]
              · -- node frame
                intro j hj hjl
                rw [show (STree.leaf i [nc] (cnt + 1)).nodeIdxs = [i] from rfl,
                  List.mem_singleton] at hj
                show listGet? (listSet t.nodes i _) j = _
                rw [listGet?_listSet_ne _ _ _ _ (fun he => hj he.symm)]
              · -- cell frame
                intro c hc1 hc2 hc3 hc4
                refine hpres c ?_
                intro he
                rcases hmem with hfr | ⟨hfr, -⟩
                · exact hc3 (he ▸ hfr)
                · omega
              · -- node sup
                intro j hj
                exact hj
              · -- node src
                intro j hj
                exact Or.inl hj
              · -- cell src
                intro c hc
                rw [show (STree.leaf i [nc] (cnt + 1)).cellsOf = [nc] from rfl,
                  List.mem_singleton] at hc
                subst hc
                rcases hmem with hfr | ⟨hfr, -⟩
                · exact Or.inr (Or.inl hfr)
                · exact Or.inr (Or.inr (by omega))
              · -- free src
                intro x hx
                exact Or.inl (List.tail_subset free hx)
              · -- leaf info
                refine ⟨i, [nc], cnt + 1, by simp, ⟨rfl, rfl, rfl⟩, fun hne => rfl,
                  {}, hget, rfl, Or.inl rfl⟩
            · -- append to existing chain
              have hne : cells ≠ [] := by
                intro h
                exact hemp ((chainIs_eq_nil_iff hchn
                  (fun c hc => (hcellb c hc).1)).mpr h)
              have hlast := lastElemNode_spec hchn hne
                (fun c hc => (hcellb c hc).1) (t.element_nodes.data.length + 1)
                (by
                  have := nodup_bounded_length hcellnd
                    (fun c hc => ⟨(hcellb c hc).1, (hcellb c hc).2.1⟩)
                  omega)
              obtain ⟨ql, hql, hqln⟩ := chainIs_getLast hchn hne
              have heqloop : Quadtree.insertElementNodeLoop t aabb (fuel + 1)
                  (STree.leaf i cells cnt).idx cq d =
                  (t.nodesSet i { nd with count := nd.count + 1 },
                    Except.ok (cells.getLast hne)) := by
                show Quadtree.insertElementNodeLoop t aabb (fuel + 1) i cq d = _
                unfold Quadtree.insertElementNodeLoop
                rw [hndr]
                simp only
                rw [if_neg (by rintro ⟨h0, -⟩; exact hine0 h0),
                  if_pos (show nd.count > -1 by omega),
                  if_pos (show nd.count < t.max_leaf_elements ∨ d = t.max_depth by
                    rw [hndc, hml, hmd]; exact haccept),
                  if_neg hemp, hlast]
              refine ⟨_, .leaf i cells (cnt + 1), free, cells.getLast hne, heqloop,
                ?_, hine0, rfl, ?_, ?_, hfl, ?_, ?_, ?_, rfl, rfl, rfl, rfl, rfl,
                rfl, le_refl _, ?_, ?_, ?_, ?_, ?_, ?_, ?_, ?_⟩
              · refine ⟨{ nd with count := nd.count + 1 }, ?_, ?_, hchn, ?_⟩
                · show listGet? (listSet t.nodes i _) i = _
                  rw [listGet?_listSet_self _ _ _ hib.1 hib.2]
                · show nd.count + 1 = cnt + 1
                  omega
                · show (cells.length : Int) ≤ cnt + 1
                  omega
              · intro h
                rcases h with h | h <;> simp [STree.isNil, STree.isBranch] at h
              · refine ⟨List.nodup_singleton _, ?_, hcellnd, hcellb⟩
                intro j hj
                rw [show (STree.leaf i cells (cnt + 1)).nodeIdxs = [i] from rfl,
                  List.mem_singleton] at hj
                refine ⟨hj ▸ hib.1, ?_⟩
                show j.toNat < (listSet t.nodes i _).length
                rw [length_listSet, hj]
                exact hib.2
              · show d < mld → cnt + 1 ≤ mle
                intro hdlt
                rcases haccept with h | h
                · omega
                · omega
              · exact hdep
              · intro c hc hcne qen hq
                exact hcp c hc qen hq
              · show t.nodes.length ≤ (listSet t.nodes i _).length
                rw [length_listSet]
              · intro j hj hjl
                rw [show (STree.leaf i cells (cnt + 1)).nodeIdxs = [i] from rfl,
                  List.mem_singleton] at hj
                show listGet? (listSet t.nodes i _) j = _
                rw [listGet?_listSet_ne _ _ _ _ (fun he => hj he.symm)]
              · intro c hc1 hc2 hc3 hc4
                rfl
              · intro j hj
                exact hj
              · intro j hj
                exact Or.inl hj
              · intro c hc
                exact Or.inl hc
              · intro x hx
                exact Or.inl hx
              · refine ⟨i, cells, cnt + 1, hne, ⟨rfl, rfl, rfl⟩, fun hne2 => rfl,
                  ql, hql, hqln, Or.inr ⟨?_, ?_, by omega⟩⟩
                · exact (hcp (cells.getLast hne) (List.getLast_mem hne) ql hql).1
                · exact (hcp (cells.getLast hne) (List.getLast_mem hne) ql hql).2
          · -- full leaf strictly above the depth limit: split, then descend
            have hdlt : d < mld := by
              have hdle : d ≤ mld := hdep
              rcases not_or.mp haccept with ⟨h1, h2⟩
              omega
            have hcsle : (cells.length : Int) ≤ mle := by
              have : d < mld → cnt ≤ mle := hcnt
              have h2 := this hdlt
              omega
            obtain ⟨t1, cl1, free1, hLTB, hnode1, hcs1, hnd1, hb1, hfl1, hfsub1,
              hsrc1, hlen1, hegrow1, hnl1, hel1, hmd1p, hmle1p, hab1, hmw1p, hmh1p,
              hjfr1, hcfr1, hpay1⟩ :=
              leafToBranch_spec cq hndr hchn hcellnd hcellb hfl
                (fun c hc qen hq => by
                  obtain ⟨h0, hl⟩ := hcp c hc qen hq
                  exact FreeList.get?_of_bounds h0 hl)
            obtain ⟨hbm, hbgk, hbsok, hbcp, hbcnt, hbdep⟩ :=
              split_branch_shape mld mle d hib.1 hib.2 hnode1 hcs1 hnd1 hb1
                hlen1 hnl1 hpay1 hel1 (fun c hc qen hq => hcp c hc qen hq)
                hcsle hdlt
            set qd : Quadrant := cq.find_quadrant aabb.x aabb.y with hqd
            set ch1 : Quadrant → STree :=
              splitChildren (t.nodes.length : Int) cl1 with hch1
            have hIH := ih t1 (ch1 qd) free1 mld mle (d + 1) (cq.splitCenter qd)
              (hmle1p.trans hml) (hmd1p.trans hmd) hmld1 hmle1
              ((Models_branchOf_iff.mp hbm).choose_spec.2.2.2.2.2 qd)
              (goodKinds_branchOf_iff.mp hbgk qd)
              ((SOK_branchOf_elim hbsok).2.1 qd)
              hfl1
              (fun c hc => hbcp c (mem_cellsOf_branchOf.mpr ⟨qd, hc⟩))
              (CountsOK_branchOf_iff.mp hbcnt qd)
              ((DepthsOK_branchOf_iff.mp hbdep).2 qd)
              (by omega)
              (fun h => absurd h (by simp [hch1, splitChildren, STree.isNil]))
              (by omega)
            have hIH2 : LoopPost t1 (ch1 qd) free1 mld mle (d + 1)
                (Quadtree.insertElementNodeLoop t1 aabb fuel
                  ((t.nodes.length : Int) + qd.toInt) (cq.splitCenter qd)
                  (d + 1)) := hIH
            have hasm := branch_assemble qd hbm hbgk hbsok hbcp hbcnt hbdep hIH2
            have heqloop : Quadtree.insertElementNodeLoop t aabb (fuel + 1)
                (STree.leaf i cells cnt).idx cq d =
                Quadtree.insertElementNodeLoop t1 aabb fuel
                  ((t.nodes.length : Int) + qd.toInt) (cq.splitCenter qd) (d + 1) := by
              show Quadtree.insertElementNodeLoop t aabb (fuel + 1) i cq d = _
              conv_lhs => unfold Quadtree.insertElementNodeLoop
              rw [hndr]
              simp only
              rw [if_neg (by rintro ⟨h0, -⟩; exact hine0 h0),
                if_pos (show nd.count > -1 by omega),
                if_neg (show ¬(nd.count < t.max_leaf_elements ∨ d = t.max_depth) by
                  rw [hndc, hml, hmd]; exact haccept),
                hLTB]
              simp only
              unfold Quadtree.insertDescend
              rw [hnode1]
            rw [heqloop]
            refine LoopPost_precomp
              (show (branchOf i (t.nodes.length : Int) ch1).idx =
                (STree.leaf i cells cnt).idx from rfl)
              (show (branchOf i (t.nodes.length : Int) ch1).isBranch = true from rfl)
              hel1 (hmle1p) (hmd1p) hab1 hmw1p hmh1p
              hegrow1 (by omega) ?_ ?_ ?_ ?_ ?_ ?_ hasm
            · intro j hj hjl
              refine hjfr1 j ?_ hjl
              intro he
              exact hj (he ▸ mem_nodeIdxs_branchOf.mpr (Or.inl rfl))
            · intro c hc1 hc2 hc3 hc4
              exact hcfr1 c hc1
            · intro j hj
              have hji : j = i := by simpa [STree.nodeIdxs] using hj
              rw [hji]
              exact mem_nodeIdxs_branchOf.mpr (Or.inl rfl)
            · intro j hj
              rcases mem_nodeIdxs_branchOf.mp hj with rfl | ⟨q', hq'⟩
              · exact Or.inl (by simp [STree.nodeIdxs])
              · refine Or.inr ?_
                simp only [hch1, splitChildren, STree.nodeIdxs,
                  List.mem_singleton] at hq'
                cases q' <;> simp only [Quadrant.toInt] at hq' <;> omega
            · intro c hc
              exact hsrc1 c hc
            · intro x hx
              rcases hfsub1 x hx with h | h
              · exact Or.inr (Or.inl h)
              · exact Or.inl h
      | branch i fc a b c e =>
          set ch : Quadrant → STree := (STree.branch i fc a b c e).child with hch
          have hmof : Models t (branchOf i fc ch) := hm
          obtain ⟨nd, hndr, hndc, hndfc, hfc1, hai, hbi, hci, hei, hma2, hmb2, hmc2,
            hme2⟩ := hm
          have hgkof : (branchOf i fc ch).goodKinds := hgk
          have hsokof : SOK t (branchOf i fc ch) free := hsok
          have hcpof : CellPayloadsOK t (branchOf i fc ch) := hcp
          have hcntof : CountsOK mld mle (branchOf i fc ch) d := hcnt
          have hdepof : DepthsOK mld (branchOf i fc ch) d := hdep
          have hdlt : d < mld := (DepthsOK_branchOf_iff.mp hdepof).1
          set qd : Quadrant := cq.find_quadrant aabb.x aabb.y with hqd
          have hchidx : (ch qd).idx = fc + qd.toInt :=
            (Models_branchOf_iff.mp hmof).choose_spec.2.2.2.2.1 qd
          have hIH := ih t (ch qd) free mld mle (d + 1) (cq.splitCenter qd)
            hml hmd hmld1 hmle1
            ((Models_branchOf_iff.mp hmof).choose_spec.2.2.2.2.2 qd)
            (goodKinds_branchOf_iff.mp hgkof qd)
            ((SOK_branchOf_elim hsokof).2.1 qd)
            hfl
            (fun c hc => hcpof c (mem_cellsOf_branchOf.mpr ⟨qd, hc⟩))
            (CountsOK_branchOf_iff.mp hcntof qd)
            ((DepthsOK_branchOf_iff.mp hdepof).2 qd)
            (by omega)
            (fun h => by
              have hz := isNil_idx_zero h (goodKinds_branchOf_iff.mp hgkof qd)
              rw [hchidx] at hz
              have hnn := Quadrant.toInt_nonneg qd
              exfalso
              omega)
            (by omega)
          rw [hchidx] at hIH
          have hasm := branch_assemble qd hmof hgkof hsokof hcpof hcntof hdepof hIH
          have heqloop : Quadtree.insertElementNodeLoop t aabb (fuel + 1)
              (STree.branch i fc a b c e).idx cq d =
              Quadtree.insertElementNodeLoop t aabb fuel (fc + qd.toInt)
                (cq.splitCenter qd) (d + 1) := by
            show Quadtree.insertElementNodeLoop t aabb (fuel + 1) i cq d = _
            conv_lhs => unfold Quadtree.insertElementNodeLoop
            rw [hndr]
            simp only
            rw [if_neg (by rintro ⟨-, hfcn⟩; omega),
              if_neg (show ¬nd.count > -1 by omega)]
            unfold Quadtree.insertDescend
            rw [hndr]
            simp only
            rw [hndfc]
          rw [heqloop]
          exact hasm

/-- Chains only read next fields: a next-preserving update keeps them. -/
theorem chainIs_frame_next {l l' : FreeList QuadElementNode} {s : Int}
    {cells : List Int}
    (hread : ∀ c ∈ cells, (l'.get? c).map (·.next) = (l.get? c).map (·.next))
    (h : ChainIs l s cells) : ChainIs l' s cells := by
  induction cells generalizing s with
  | nil => exact h
  | cons c cs ih =>
      obtain ⟨hsc, qen, hc, hrest⟩ := h
      have hrd := hread c (by simp)
      rw [hc] at hrd
      match he : l'.get? c with
      | none => rw [he] at hrd; simp at hrd
      | some qen' =>
          rw [he] at hrd
          have hnext : qen'.next = qen.next := by simpa using hrd
          exact ⟨hsc, qen', he, hnext ▸ ih (fun d hd => hread d (by simp [hd])) hrest⟩

/-- Models is stable under next-preserving element-node updates. -/
theorem Models_frame_next {t t' : Quadtree} {s : STree}
    (hn : ∀ i ∈ s.nodeIdxs, listGet? t'.nodes i = listGet? t.nodes i)
    (he : ∀ c ∈ s.cellsOf,
      (t'.element_nodes.get? c).map (·.next) = (t.element_nodes.get? c).map (·.next))
    (h : Models t s) : Models t' s := by
  induction s with
  | nil i =>
      show listGet? t'.nodes i = _
      rw [hn i (by simp [STree.nodeIdxs])]
      exact h
  | leaf i cells count =>
      obtain ⟨nd, hnd, hcnt, hch, hlen⟩ := h
      refine ⟨nd, ?_, hcnt, chainIs_frame_next ?_ hch, hlen⟩
      · rw [hn i (by simp [STree.nodeIdxs])]
        exact hnd
      · intro c hc
        exact he c (by simpa [STree.cellsOf] using hc)
  | branch i fc a b c e iha ihb ihc ihe =>
      obtain ⟨nd, hnd, hcnt, hfc, hfc1, ha, hb, hc, hee, hma, hmb, hmc, hme⟩ := h
      refine ⟨nd, ?_, hcnt, hfc, hfc1, ha, hb, hc, hee, ?_, ?_, ?_, ?_⟩
      · rw [hn i (by simp [STree.nodeIdxs])]
        exact hnd
      · exact iha (fun j hj => hn j (by simp [STree.nodeIdxs, hj]))
          (fun d hd => he d (by simp [STree.cellsOf, hd])) hma
      · exact ihb (fun j hj => hn j (by simp [STree.nodeIdxs, hj]))
          (fun d hd => he d (by simp [STree.cellsOf, hd])) hmb
      · exact ihc (fun j hj => hn j (by simp [STree.nodeIdxs, hj]))
          (fun d hd => he d (by simp [STree.cellsOf, hd])) hmc
      · exact ihe (fun j hj => hn j (by simp [STree.nodeIdxs, hj]))
          (fun d hd => he d (by simp [STree.cellsOf, hd])) hme

/-- Splicing a fresh element into the middle segment keeps Nodup. -/
theorem nodup_insert_middle {pre mid post : List Int} {nc : Int}
    (h : (pre ++ (mid ++ post)).Nodup) (hnc : nc ∉ pre ++ (mid ++ post)) :
    (pre ++ ((mid ++ [nc]) ++ post)).Nodup := by
  have h1 : (mid ++ [nc]).Perm (nc :: mid) :=
    (List.perm_append_comm : (mid ++ [nc]).Perm ([nc] ++ mid))
  have hp1 : ((mid ++ [nc]) ++ post).Perm (nc :: (mid ++ post)) :=
    (List.Perm.append_right post h1 :
      ((mid ++ [nc]) ++ post).Perm ((nc :: mid) ++ post))
  have hp2 : (pre ++ ((mid ++ [nc]) ++ post)).Perm (pre ++ (nc :: (mid ++ post))) :=
    List.Perm.append_left pre hp1
  have hp3 : (pre ++ (nc :: (mid ++ post))).Perm (nc :: (pre ++ (mid ++ post))) :=
    List.perm_middle
  refine ((hp2.trans hp3).nodup_iff).mpr ?_
  exact List.nodup_cons.mpr ⟨hnc, h⟩

/-- The element-patch half of insert, when the returned cell already holds an
element: a fresh cell is allocated, linked after the returned cell, and the
leaf's shape gains exactly that cell. -/
theorem append_cell_surgery {t' : Quadtree} {s' : STree} {free' : List Int}
    {jL : Int} {csL : List Int} {cntL : Int} (eid : Int)
    (hm : Models t' s') (hsok : SOK t' s' free')
    (hfl : FLOK t'.element_nodes free')
    (hcl : ContainsLeaf s' jL csL cntL)
    (hne : csL ≠ [])
    (hcnt : (csL.length : Int) + 1 ≤ cntL) :
    ∃ nc l1 tF, t'.element_nodes.insert { next := -1, element := eid } = (nc, l1) ∧
      tF = l1.modify (csL.getLast hne) (fun q => { q with next := nc }) ∧
      Models { t' with element_nodes := tF } (setLeaf s' jL (csL ++ [nc]) cntL) ∧
      SOK { t' with element_nodes := tF } (setLeaf s' jL (csL ++ [nc]) cntL)
        free'.tail ∧
      FLOK tF free'.tail ∧
      t'.element_nodes.data.length ≤ tF.data.length ∧
      (∀ c ∈ (setLeaf s' jL (csL ++ [nc]) cntL).cellsOf, ∀ qen',
        tF.get? c = some qen' →
        (qen'.element = eid ∧ c = nc) ∨
        (c ∈ s'.cellsOf ∧ ∃ qen0, t'.element_nodes.get? c = some qen0 ∧
          qen'.element = qen0.element)) := by
  obtain ⟨hndI, hbndI, hndC, hbndC⟩ := hsok
  obtain ⟨nd, hndr, hndcnt, hch, hlen⟩ := Models_containsLeaf hm hcl
  have hsubL : csL.Sublist s'.cellsOf := by
    obtain ⟨pre, post, hsplit, -⟩ := cellsOf_setLeaf_split hcl hndI [] 0
    rw [hsplit]
    exact (List.sublist_append_left csL post).trans (List.sublist_append_right pre _)
  have hLnd : csL.Nodup := hndC.sublist hsubL
  have hLb : ∀ c ∈ csL, 0 ≤ c ∧ c.toNat < t'.element_nodes.data.length ∧ c ∉ free' :=
    fun c hc => hbndC c (hsubL.subset hc)
  obtain ⟨nc, l1, hins, hfl1, hmem1, hnc0, hncl, hlen1, hget1, hpres1, hnotail1⟩ :=
    FLOK_insert hfl ({ next := -1, element := eid } : QuadElementNode)
  have hret : csL.getLast hne ∈ csL := List.getLast_mem hne
  have hretne : csL.getLast hne ≠ nc := by
    intro he
    rcases hmem1 with hfr | ⟨hfr, -⟩
    · exact (hLb _ hret).2.2 (he ▸ hfr)
    · have := (hLb _ hret).2.1
      omega
  obtain ⟨hflm, hlenm, hpresm, hgetm⟩ := FLOK_modify hfl1 (csL.getLast hne)
    (fun q => { q with next := nc })
  have hncnotin : nc ∉ s'.cellsOf := by
    intro hin
    rcases hmem1 with hfr | ⟨hfr, -⟩
    · exact (hbndC nc hin).2.2 hfr
    · have := (hbndC nc hin).2.1
      omega
  obtain ⟨ql, hql, hqln⟩ := chainIs_getLast hch hne
  have hpresF : ∀ c : Int, c ≠ nc → c ≠ csL.getLast hne →
      (l1.modify (csL.getLast hne) (fun q => { q with next := nc })).get? c =
      t'.element_nodes.get? c := by
    intro c h1 h2
    rw [hpresm c h2, hpres1 c h1]
  have hgetF : (l1.modify (csL.getLast hne) (fun q => { q with next := nc })).get? nc =
      some { next := -1, element := eid } := by
    rw [hpresm nc (fun he => hretne he.symm)]
    exact hget1
  have hlastF : (l1.modify (csL.getLast hne)
      (fun q => { q with next := nc })).get? (csL.getLast hne) =
      some { ql with next := nc } := by
    refine hgetm ql ?_
    rw [hpres1 _ hretne]
    exact hql
  obtain ⟨pre, post, hsplit, hsplit'⟩ :=
    cellsOf_setLeaf_split hcl hndI (csL ++ [nc]) cntL
  refine ⟨nc, l1, _, hins, rfl, ?_, ?_, hflm, ?_, ?_⟩
  · refine Models_setLeaf (csL ++ [nc]) hm hcl hndI hndC (fun j hj => rfl) ?_ ?_
    · intro c hc hcs
      refine hpresF c ?_ (fun he => hcs (he ▸ hret))
      intro he
      exact hncnotin (he ▸ hc)
    · intro nd' hnd'
      rw [hndr] at hnd'
      injection hnd' with hnd'
      subst hnd'
      constructor
      · refine chainIs_append_last hch hne hLnd
          (fun h => hncnotin (hsubL.subset h)) ?_ ?_ hgetF rfl
        · intro c hc hcl2
          refine hpresF c ?_ hcl2
          intro he
          exact hncnotin (he ▸ hsubL.subset hc)
        · intro ql' hql'
          refine hgetm ql' ?_
          rw [hpres1 _ hretne]
          exact hql'
      · rw [List.length_append]
        simp only [List.length_cons, List.length_nil]
        push_cast
        omega
  · refine ⟨?_, ?_, ?_, ?_⟩
    · rw [setLeaf_nodeIdxs]
      exact hndI
    · intro j hj
      rw [setLeaf_nodeIdxs] at hj
      exact hbndI j hj
    · rw [hsplit']
      refine nodup_insert_middle ?_ ?_
      · rw [← hsplit]
        exact hndC
      · rw [← hsplit]
        exact hncnotin
    · intro c hc
      rw [hsplit'] at hc
      have hold : ∀ c' ∈ s'.cellsOf,
          0 ≤ c' ∧ c'.toNat < (l1.modify (csL.getLast hne)
            (fun q => { q with next := nc })).data.length ∧ c' ∉ free'.tail := by
        intro c' hc'
        obtain ⟨h1, h2, h3⟩ := hbndC c' hc'
        exact ⟨h1, by omega, fun hct => h3 (List.tail_subset free' hct)⟩
      rcases List.mem_append.mp hc with h | h
      · exact hold c (by rw [hsplit]; exact List.mem_append.mpr (Or.inl h))
      · rcases List.mem_append.mp h with h2 | h2
        · rcases List.mem_append.mp h2 with h3 | h3
          · exact hold c (by
              rw [hsplit]
              exact List.mem_append.mpr (Or.inr (List.mem_append.mpr (Or.inl h3))))
          · rw [List.mem_singleton] at h3
            refine ⟨h3.symm ▸ hnc0, ?_, h3.symm ▸ hnotail1⟩
            rw [h3, hlenm]
            exact hncl
        · exact hold c (by
            rw [hsplit]
            exact List.mem_append.mpr (Or.inr (List.mem_append.mpr (Or.inr h2))))
  · show t'.element_nodes.data.length ≤ (l1.modify (csL.getLast hne)
      (fun q => { q with next := nc })).data.length
    rw [hlenm]
    exact hlen1
  · intro c hc qen' hq
    have hmemold : c ≠ nc → c ∈ s'.cellsOf := by
      intro hcnc
      rw [hsplit'] at hc
      rw [hsplit]
      rcases List.mem_append.mp hc with h | h
      · exact List.mem_append.mpr (Or.inl h)
      · rcases List.mem_append.mp h with h2 | h2
        · rcases List.mem_append.mp h2 with h3 | h3
          · exact List.mem_append.mpr (Or.inr (List.mem_append.mpr (Or.inl h3)))
          · rw [List.mem_singleton] at h3
            exact absurd h3 hcnc
        · exact List.mem_append.mpr (Or.inr (List.mem_append.mpr (Or.inr h2)))
    by_cases hcnc : c = nc
    · subst hcnc
      rw [hgetF] at hq
      injection hq with hq
      exact Or.inl ⟨by rw [← hq], rfl⟩
    · by_cases hclast : c = csL.getLast hne
      · rw [hclast, hlastF] at hq
        injection hq with hq
        refine Or.inr ⟨hmemold hcnc, ql, by rw [hclast]; exact hql, by rw [← hq]⟩
      · rw [hpresF c hcnc hclast] at hq
        exact Or.inr ⟨hmemold hcnc, qen', hq, rfl⟩

/-- The rolling invariant of an insert-only quadtree: the arrays model a
well-kinded shape rooted at node 0, with validity of both free lists, cell
payloads, the leaf-capacity bound and the depth discipline. -/
def QtInv (t : Quadtree) (s : STree) (free : List Int) (mld mle : Int) : Prop :=
  t.max_leaf_elements = mle ∧ t.max_depth = mld ∧
  Models t s ∧ s.goodKinds ∧ s.idx = 0 ∧ SOK t s free ∧
  FLOK t.element_nodes free ∧ t.elements.first_free = -1 ∧
  CellPayloadsOK t s ∧ CountsOK mld mle s 0 ∧ DepthsOK mld s 0

/-- Full specification of Quadtree.insert on an invariant-satisfying tree:
it succeeds and preserves the invariant, and the root is a branch after it. -/
theorem insert_spec {t : Quadtree} {s : STree} {free : List Int} {mld mle : Int}
    (hmld1 : 1 ≤ mld) (hmle1 : 1 ≤ mle)
    (hinv : QtInv t s free mld mle) (id : Int) (aabb : AABB) :
    ∃ t' s' free', t.insert id aabb = (t', Except.ok true) ∧
      QtInv t' s' free' mld mle ∧ s'.isBranch = true := by
  obtain ⟨hml, hmd, hm, hgk, hidx, hsok, hfl, hff, hcp, hcnt, hdep⟩ := hinv
  have hroot : s.isNil = true ∨ s.isBranch = true := by
    cases s with
    | nil _ => exact Or.inl rfl
    | leaf i _ _ => exact absurd hidx hgk
    | branch _ _ _ _ _ _ => exact Or.inr rfl
  have heflok : FLOK t.elements [] := ⟨hff, List.nodup_nil, by simp⟩
  obtain ⟨e0, el0, hins0, hefl0, hemem0, he00, he0l, hel0len, heget0, hepres0, -⟩ :=
    FLOK_insert heflok ({ id := id, aabb := aabb } : QuadElement)
  have hm0 : Models { t with elements := el0 } s := by
    refine Models_frame ?_ ?_ hm <;> intros <;> rfl
  have hsok0 : SOK { t with elements := el0 } s free := hsok
  have hfl0 : FLOK ({ t with elements := el0 } : Quadtree).element_nodes free := hfl
  have hcp0 : CellPayloadsOK { t with elements := el0 } s := by
    intro c hc qen hq
    obtain ⟨h1, h2⟩ := hcp c hc qen hq
    refine ⟨h1, ?_⟩
    show qen.element.toNat < el0.data.length
    omega
  have hpost := insertLoop_spec aabb (t.max_depth.toNat + 2) { t with elements := el0 }
    s free mld mle 0 t.aabb hml hmd hmld1 hmle1 hm0 hgk hsok0 hfl0 hcp0 hcnt hdep
    (le_refl 0) (fun _ => rfl) (by omega)
  rw [hidx] at hpost
  obtain ⟨t', s', free', ret, heq, hm', hgk', hidx', hbr', hsok', hfl', hcnt', hdep',
    hcpx', hel', hml', hmd', hab', hmw', hmh', hegrow', hngrow', hnfr', hcfr',
    hnsup', hnsrc', hcsrc', hfsrc', hleaf'⟩ := hpost
  obtain ⟨jL, csL, cntL, hneL, hclL, hrlL, qen, hqr, hqn, hqe⟩ := hleaf'
  have hbranch' : s'.isBranch = true := hbr' hroot
  have hmlF : t'.max_leaf_elements = mle := by rw [hml']; exact hml
  have hmdF : t'.max_depth = mld := by rw [hmd']; exact hmd
  have helF : t'.elements = el0 := hel'
  have hffF : t'.elements.first_free = -1 := by
    rw [helF]
    exact hefl0.1
  rcases hqe with hA | ⟨hB0, hBl, hBc⟩
  · -- the returned cell was freshly created by the loop: patch its element
    obtain ⟨hflm, hlenm, hpresm, hgetm⟩ := FLOK_modify hfl' ret
      (fun q => { q with element := e0 })
    have hgetr := hgetm qen hqr
    refine ⟨{ t' with element_nodes := t'.element_nodes.modify ret (fun q => { q with element := e0 }), max_w := D.maxD t'.max_w aabb.hw, max_h := D.maxD t'.max_h aabb.hh },
      s', free', ?_, ⟨hmlF, hmdF, ?_, hgk', hidx'.trans hidx, ?_, hflm, hffF, ?_,
      hcnt', hdep'⟩, hbranch'⟩
    · show Quadtree.insert t id aabb = _
      unfold Quadtree.insert
      rw [hins0]
      simp only
      rw [heq]
      simp only
      rw [hqr]
      simp only
      rw [if_pos hA]
    · refine Models_frame_next ?_ ?_ hm'
      · intro i hi
        rfl
      · intro c hc
        by_cases hcr : c = ret
        · show ((t'.element_nodes.modify ret
              (fun q => { q with element := e0 })).get? c).map (·.next) = _
          rw [hcr, hgetr, hqr]
          rfl
        · show ((t'.element_nodes.modify ret
              (fun q => { q with element := e0 })).get? c).map (·.next) = _
          rw [hpresm c hcr]
    · obtain ⟨ha1, ha2, ha3, ha4⟩ := hsok'
      refine ⟨ha1, fun j hj => ha2 j hj, ha3, ?_⟩
      intro c hc
      obtain ⟨h1, h2, h3⟩ := ha4 c hc
      refine ⟨h1, ?_, h3⟩
      show c.toNat < (t'.element_nodes.modify ret
        (fun q => { q with element := e0 })).data.length
      omega
    · intro c hc qen' hq
      by_cases hcr : c = ret
      · have hq2 : (t'.element_nodes.modify ret
            (fun q => { q with element := e0 })).get? c = some qen' := hq
        rw [hcr, hgetr] at hq2
        injection hq2 with hq2
        constructor
        · rw [← hq2]
          exact he00
        · rw [← hq2]
          show e0.toNat < t'.elements.data.length
          rw [helF]
          exact he0l
      · have hq2 : (t'.element_nodes.modify ret
            (fun q => { q with element := e0 })).get? c = some qen' := hq
        rw [hpresm c hcr] at hq2
        exact hcpx' c hc hcr qen' hq2
  · -- the returned cell is a live last cell: allocate and link a fresh cell
    have hretlast : ret = csL.getLast hneL := hrlL hneL
    obtain ⟨nc, l1, tF, hins1, htF, hmF, hsokF, hflF, hgrowF, hpayF⟩ :=
      append_cell_surgery e0 hm' hsok' hfl' hclL hneL hBc
    refine ⟨{ t' with element_nodes := tF, max_w := D.maxD t'.max_w aabb.hw, max_h := D.maxD t'.max_h aabb.hh },
      setLeaf s' jL (csL ++ [nc]) cntL, free'.tail, ?_, ⟨hmlF, hmdF, ?_, ?_, ?_,
      hsokF, hflF, hffF, ?_, ?_, ?_⟩, ?_⟩
    · show Quadtree.insert t id aabb = _
      unfold Quadtree.insert
      rw [hins0]
      simp only
      rw [heq]
      simp only
      rw [hqr]
      simp only
      rw [if_neg (show ¬qen.element = -1 by omega), hins1]
      simp only
      rw [htF, hretlast]
    · refine Models_frame ?_ ?_ hmF <;> intros <;> rfl
    · exact goodKinds_setLeaf _ _ hgk'
    · rw [setLeaf_idx]
      exact hidx'.trans hidx
    · intro c hc qen' hq
      have hq2 : tF.get? c = some qen' := hq
      rcases hpayF c hc qen' hq2 with ⟨he1, rfl⟩ | ⟨hcin, qen0, hq0, he2⟩
      · constructor
        · rw [he1]
          exact he00
        · rw [he1]
          show e0.toNat < t'.elements.data.length
          rw [helF]
          exact he0l
      · by_cases hcr : c = ret
        · rw [hcr, hqr] at hq0
          injection hq0 with hq0
          subst hq0
          constructor
          · rw [he2]
            exact hB0
          · rw [he2]
            exact hBl
        · have hb2 := hcpx' c hcin hcr qen0 hq0
          constructor
          · rw [he2]
            exact hb2.1
          · rw [he2]
            exact hb2.2
    · exact CountsOK_setLeaf (csL ++ [nc]) hcnt' hclL hsok'.1
    · exact DepthsOK_setLeaf (csL ++ [nc]) cntL hdep'
    · rw [setLeaf_isBranch]
      exact hbranch'

/-- The freshly constructed quadtree satisfies the invariant: the root is the
nil sentinel and both free lists are empty. -/
theorem QtInv_make (aabb : AABB) (mle mld : Int) :
    QtInv (Quadtree.make aabb mle mld) (.nil 0) [] mld mle := by
  refine ⟨rfl, rfl, ?_, rfl, rfl, ?_, ⟨rfl, List.nodup_nil, by simp⟩, rfl, ?_,
    trivial, trivial⟩
  · rfl
  · refine ⟨?_, ?_, List.nodup_nil, ?_⟩
    · simp [STree.nodeIdxs]
    · intro i hi
      simp only [STree.nodeIdxs, List.mem_singleton] at hi
      subst hi
      refine ⟨le_refl 0, ?_⟩
      show (0 : Int).toNat < 1
      decide
    · intro c hc
      simp [STree.cellsOf] at hc
  · intro c hc
    simp [STree.cellsOf] at hc

/-- Driver for the claim's scenario: fold Quadtree.insert over a list of
(id, aabb) pairs, stopping at the first error. -/
def insertAll (t : Quadtree) : List (Int × AABB) → Quadtree × Except QtFault Bool
  | [] => (t, Except.ok true)
  | p :: rest =>
      match t.insert p.1 p.2 with
      | (t', Except.ok _) => insertAll t' rest
      | (t', Except.error f) => (t', Except.error f)

/-- Any sequence of inserts on an invariant-satisfying tree succeeds and
preserves the invariant; as soon as one insert has happened (or the root
already was a branch) the root is a branch. -/
theorem insertAll_spec {mld mle : Int} (hmld1 : 1 ≤ mld) (hmle1 : 1 ≤ mle)
    (ins : List (Int × AABB)) :
    ∀ {t : Quadtree} {s : STree} {free : List Int}, QtInv t s free mld mle →
    ∃ t' s' free', insertAll t ins = (t', Except.ok true) ∧
      QtInv t' s' free' mld mle ∧
      (s.isBranch = true ∨ ins ≠ [] → s'.isBranch = true) := by
  induction ins with
  | nil =>
      intro t s free hinv
      refine ⟨t, s, free, rfl, hinv, ?_⟩
      intro h
      rcases h with h | h
      · exact h
      · exact absurd rfl h
  | cons p rest ih =>
      intro t s free hinv
      obtain ⟨t1, s1, free1, heq1, hinv1, hbr1⟩ := insert_spec hmld1 hmle1 hinv p.1 p.2
      obtain ⟨t2, s2, free2, heq2, hinv2, hbr2⟩ := ih hinv1
      refine ⟨t2, s2, free2, ?_, hinv2, fun _ => hbr2 (Or.inl hbr1)⟩
      show insertAll t (p :: rest) = _
      unfold insertAll
      rw [heq1]
      exact heq2

/-- The shape s contains, dd levels below its own root, the leaf with node
index j, cell chain cs and stored count cnt. -/
inductive LeafIn : STree → Int → Int → List Int → Int → Prop
  | here {i cnt : Int} {cs : List Int} : LeafIn (.leaf i cs cnt) 0 i cs cnt
  | step {i fc dd j cnt : Int} {cs : List Int} {a b c e : STree} (q : Quadrant)
      (h : LeafIn ((STree.branch i fc a b c e).child q) dd j cs cnt) :
      LeafIn (.branch i fc a b c e) (dd + 1) j cs cnt

/-- A modelled leaf is realized in the arrays: its node stores its count and
the head of a live chain of exactly its cells. -/
theorem LeafIn_Models {t : Quadtree} {s : STree} {dd j cnt : Int} {cs : List Int}
    (hin : LeafIn s dd j cs cnt) : Models t s →
    ∃ nd, listGet? t.nodes j = some nd ∧ nd.count = cnt ∧
      ChainIs t.element_nodes nd.first_child cs ∧ (cs.length : Int) ≤ cnt := by
  induction hin with
  | here =>
      intro hm
      exact hm
  | step q h ih =>
      intro hm
      obtain ⟨nd, h1, h2, h3, h4, h5, h6, h7, h8, hma, hmb, hmc, hme⟩ := hm
      apply ih
      cases q with
      | TL => exact hma
      | TR => exact hmb
      | BL => exact hmc
      | BR => exact hme

/-- The capacity invariant bounds the stored count of every leaf lying
strictly above the maximal depth. -/
theorem LeafIn_CountsOK {mld mle : Int} {s : STree} {dd j cnt : Int} {cs : List Int}
    (hin : LeafIn s dd j cs cnt) : ∀ (d : Int), CountsOK mld mle s d →
    d + dd < mld → cnt ≤ mle := by
  induction hin with
  | here =>
      intro d hc hlt
      exact hc (by omega)
  | step q h ih =>
      intro d hc hlt
      obtain ⟨hca, hcb, hcc, hce⟩ := hc
      refine ih (d + 1) ?_ (by omega)
      cases q with
      | TL => exact hca
      | TR => exact hcb
      | BL => exact hcc
      | BR => exact hce

/-- C7: on a quadtree configured with max_leaf_elements = 8 and any positive
max_depth, every nonempty sequence of inserts succeeds, the root node has
become a branch (count -1, valid first_child), and every leaf of the modelled
shape lying at depth strictly below max_depth holds at most 8 elements: its
stored count and its actual chain length are both at most 8. -/
theorem C7_root_branch_and_leaf_capacity (aabb0 : AABB) (mld : Int)
    (hmld : 1 ≤ mld) (ins : List (Int × AABB)) (hne : ins ≠ []) :
    ∃ t' s, insertAll (Quadtree.make aabb0 8 mld) ins = (t', Except.ok true) ∧
      Models t' s ∧ s.idx = 0 ∧ s.isBranch = true ∧
      (∃ nd, listGet? t'.nodes 0 = some nd ∧ nd.count = -1 ∧ 1 ≤ nd.first_child) ∧
      (∀ dd j cs cnt, LeafIn s dd j cs cnt → dd < mld →
        ∃ nd, listGet? t'.nodes j = some nd ∧ nd.count = cnt ∧
          ChainIs t'.element_nodes nd.first_child cs ∧
          (cs.length : Int) ≤ cnt ∧ cnt ≤ 8) := by
  obtain ⟨t', s', free', heq, hinv, hbr⟩ :=
    insertAll_spec hmld (by omega) ins (QtInv_make aabb0 8 mld)
  obtain ⟨hml, hmd, hm, hgk, hidx, hsok, hfl, hff, hcp, hcnt, hdep⟩ := hinv
  have hbr' := hbr (Or.inr hne)
  refine ⟨t', s', heq, hm, hidx, hbr', ?_, ?_⟩
  · cases s' with
    | nil i => exact absurd hbr' (by simp [STree.isBranch])
    | leaf i cs cnt => exact absurd hbr' (by simp [STree.isBranch])
    | branch i fc a b c e =>
        obtain ⟨nd, hnd, hcm, hfc, hfc1, -⟩ := hm
        have hi0 : i = 0 := hidx
        subst hi0
        rw [← hfc] at hfc1
        exact ⟨nd, hnd, hcm, hfc1⟩
  · intro dd j cs cnt hin hdd
    obtain ⟨nd, hnd, hc1, hc2, hc3⟩ := LeafIn_Models hin hm
    refine ⟨nd, hnd, hc1, hc2, hc3, ?_⟩
    exact LeafIn_CountsOK hin 0 hcnt (by omega)

/-- Twenty elements with pairwise distinct point AABBs inside the unit box. -/
def c7ins : List (Int × AABB) :=
  (List.range 20).map (fun k =>
    ((k : Int) + 1, ⟨⟨(k : Int) * 2 - 19, 32⟩, ⟨(k : Int) * 2 - 19, 32⟩, ⟨0, 1⟩, ⟨0, 1⟩⟩))

/-- Witness for C7 at the claim's concrete scenario: twenty inserts with
distinct point AABBs into a tree with max_leaf_elements = 8, max_depth = 8. -/
theorem C7_root_branch_and_leaf_capacity_witness :
    (1 : Int) ≤ 8 ∧ c7ins ≠ [] ∧
    (∃ t' s, insertAll (Quadtree.make AABB.default 8 8) c7ins = (t', Except.ok true) ∧
      Models t' s ∧ s.idx = 0 ∧ s.isBranch = true ∧
      (∃ nd, listGet? t'.nodes 0 = some nd ∧ nd.count = -1 ∧ 1 ≤ nd.first_child) ∧
      (∀ dd j cs cnt, LeafIn s dd j cs cnt → dd < 8 →
        ∃ nd, listGet? t'.nodes j = some nd ∧ nd.count = cnt ∧
          ChainIs t'.element_nodes nd.first_child cs ∧
          (cs.length : Int) ≤ cnt ∧ cnt ≤ 8)) :=
  ⟨by decide, by decide,
    C7_root_branch_and_leaf_capacity AABB.default 8 (by decide) c7ins (by decide)⟩

/-! ## C4: quadtree query versus the documented center-in-expanded-box set

The claim states query(Q) returns exactly the stored ids whose insertion-time
center lies inside Q expanded by the tracked maxima, with no element missed
by the quadrant descent.  The quadrant boxes used by the descent come from
AABB.split, whose vertical extents are computed from hw instead of hh; for a
tree whose bounds box is taller than wide the four quadrant boxes do not
cover the tree, and an element near the top or bottom is missed. -/

/-- Fresh quadtree over the box centered (0,0) with half extents (1,2),
max_leaf_elements 8, max_depth 8. -/
def c4tree0 : Quadtree := Quadtree.make ⟨0, 0, 1, 2⟩ 8 8

/-- Insertion of id 1 with the point AABB centered (-1/2, -3/2) (inside the
tree bounds). -/
def c4ins := c4tree0.insert 1 ⟨-(1/2), -(3/2), 0, 0⟩

/-- Query box centered on the element's center. -/
def c4box : AABB := ⟨-(1/2), -(3/2), 1/10, 1/10⟩

/-- C4: claim falsified on the code.  Inserting id 1 at center (-1/2, -3/2)
into a fresh tall tree succeeds and the tracked maxima stay 0, the query
box expanded by those maxima contains the element's center, yet query returns
the empty list: the descent prunes every quadrant because the split boxes
computed with hw in place of hh do not cover the element. -/
theorem C4_query_misses_center_inside_expanded_box :
    c4ins.2 = .ok true ∧
    c4ins.1.elements.get? 0 = some { id := 1, aabb := ⟨-(1/2), -(3/2), 0, 0⟩ } ∧
    c4ins.1.max_w = ⟨0, 1⟩ ∧ c4ins.1.max_h = ⟨0, 1⟩ ∧
    (AABB.mk c4box.x c4box.y (c4box.hw + c4ins.1.max_w)
      (c4box.hh + c4ins.1.max_h)).insidePoint (-(1/2)) (-(3/2)) = true ∧
    c4ins.1.query c4box = [] := by
  refine ⟨by decide, by decide, by decide, by decide, by decide, by decide⟩

/-! ## C8: remove on an empty leaf or with an id absent from the leaf

The descent-to-empty-leaf case and the single-element-leaf wrong-id case do
raise logic errors with the tree untouched, but when the reached leaf holds
two or more elements and none matches, the search loop of remove has no
termination check and follows next = -1 into element_nodes[-1]: an
out-of-bounds read (undefined behaviour), not a raised error. -/

/-- Tree over the unit-ish box after inserting id 1 at center (-1/2, -1/2). -/
def c8t1 : Quadtree := ((Quadtree.make ⟨0, 0, 1, 1⟩ 8 8).insert 1 ⟨-(1/2), -(1/2), 0, 0⟩).1

/-- The same tree after also inserting id 2 at center (-1/4, -1/4): both
elements sit in the same TL leaf. -/
def c8t2 : Quadtree := (c8t1.insert 2 ⟨-(1/4), -(1/4), 0, 0⟩).1

/-- C8: the two documented error paths do raise and leave the tree unchanged,
but removing an absent id from a leaf holding two elements runs off the end
of the chain into an out-of-bounds element_nodes[-1] read instead of raising;
a matching id in the same leaf is removed fine. -/
theorem C8_remove_error_paths :
    (c8t2.remove 3 ⟨1/2, 1/2, 0, 0⟩).2 =
      .error (.logicError "Unable to remove, leaf is empty") ∧
    (c8t2.remove 3 ⟨1/2, 1/2, 0, 0⟩).1 = c8t2 ∧
    (c8t1.remove 3 ⟨-(1/2), -(1/2), 0, 0⟩).2 =
      .error (.logicError "Unable to remove, element not found") ∧
    (c8t1.remove 3 ⟨-(1/2), -(1/2), 0, 0⟩).1 = c8t1 ∧
    (c8t2.remove 3 ⟨-(1/2), -(1/2), 0, 0⟩).2 = .error .oob ∧
    (c8t2.remove 2 ⟨-(1/2), -(1/2), 0, 0⟩).2 = .ok true := by
  refine ⟨by decide, by decide, by decide, by decide, by decide, by decide⟩

/-! ## C6: the four quadrants of AABB.split as an exact partition

The claim asserts that for a box with non-negative half extents and a split
point inside it, the four boxes returned by split for TL/TR/BL/BR cover the
original box exactly (also when hw differs from hh).  The source computes the
vertical half extent of every quadrant from `hw` instead of `hh`, so for a box
with hw = 1, hh = 2 split at its center (0,0), the point (0, -3/2) lies in
the original box but in none of the four returned quadrant boxes. -/

/-- C6: claim falsified on the code.  For the box centered (0,0) with
half-width 1 and half-height 2, split at the interior point (0,0), the point
(0, -3/2) lies inside the original box but inside none of the four returned
quadrant boxes, so their union has a gap: split is not an exact partition. -/
theorem C6_split_gap_at_tall_box :
    (D.le 0 (1 : D) = true ∧ D.le 0 (2 : D) = true) ∧
    (AABB.mk 0 0 1 2).insidePoint 0 0 = true ∧
    (AABB.mk 0 0 1 2).insidePoint 0 (-(3/2)) = true ∧
    (∀ q : Quadrant, ((AABB.mk 0 0 1 2).split 0 0 q).insidePoint 0 (-(3/2)) = false) := by
  refine ⟨by decide, by decide, by decide, ?_⟩
  intro q
  cases q <;> decide

end Foolysh

namespace Foolysh

/-! ## Scene graph (src/ext/src/node.cpp and src/scenegraph_dev/src/node.cpp)

The NodeData header is not in src/; the record's fields and defaults are
reconstructed from the NodeData() constructor (node.cpp lines 42-54 in both
revisions) and from the member uses across node.cpp.  Doubles are embedded as
exact values (D), as for the quadtree.  C++ Vector2::rotate uses sin and cos,
which have no exact embedding: every function that can rotate takes the
rotation as an explicit parameter `rot`; all claims keep every angle at zero,
where the source never rotates, so the parameter is never applied there. -/

/-- Origin enum (node.hpp lines 50-60). -/
inductive Origin where
  | TOP_LEFT
  | TOP_CENTER
  | TOP_RIGHT
  | CENTER_LEFT
  | CENTER
  | CENTER_RIGHT
  | BOTTOM_LEFT
  | BOTTOM_CENTER
  | BOTTOM_RIGHT
  deriving DecidableEq, Repr

/-- 2-D vector (vector2.hpp), exact-value embedding of the double pair. -/
structure Vector2 where
  x : D := 0
  y : D := 0
  deriving DecidableEq, Repr

namespace Vector2

/-- operator+(const Vector2&). -/
def add (a b : Vector2) : Vector2 := ⟨a.x + b.x, a.y + b.y⟩

/-- operator-(const Vector2&). -/
def sub (a b : Vector2) : Vector2 := ⟨a.x - b.x, a.y - b.y⟩

/-- operator== on the represented values (C++ compares the doubles). -/
def beq (a b : Vector2) : Bool := D.beq a.x b.x && D.beq a.y b.y

end Vector2

/-- Scale (node.hpp lines 62-96). -/
structure Scale where
  sx : D := 1
  sy : D := 1
  deriving DecidableEq, Repr

namespace Scale

/-- operator*(const Scale&). -/
def mul (a b : Scale) : Scale := ⟨a.sx * b.sx, a.sy * b.sy⟩

/-- operator!=(const double): some component differs from the value. -/
def neD (a : Scale) (r : D) : Bool := !(D.beq a.sx r) || !(D.beq a.sy r)

end Scale

/-- Size (node.hpp lines 98-108). -/
structure Size where
  w : D := 0
  h : D := 0
  deriving DecidableEq, Repr

/-- Size::operator*(const Scale&). -/
def Size.mulScale (s : Size) (r : Scale) : Size := ⟨s.w * r.sx, s.h * r.sy⟩

/-- Size equality on the represented values. -/
def Size.beq (a b : Size) : Bool := D.beq a.w b.w && D.beq a.h b.h

/-- AABB operator!= compares the four doubles; its value-level equality. -/
def AABB.beqv (a b : AABB) : Bool :=
  D.beq a.x b.x && D.beq a.y b.y && D.beq a.hw b.hw && D.beq a.hh b.hh

/-- Child-list cell (`ChildNode`). -/
structure ChildNode where
  node_id : Int
  next : Int := -1
  deriving DecidableEq, Repr

/-- Entry scheduled for quadtree maintenance during a traverse. -/
structure QuadtreeEntry where
  node_id : Int
  aabb : AABB := AABB.default
  deriving DecidableEq, Repr

/-- Per-node record (NodeData); defaults from the constructor, node.cpp
lines 42-54, and C++ default construction of the members. -/
structure NodeData where
  node_data_id : Int := 0
  dirty : Bool := true
  isnew : Bool := true
  distance_relative : Bool := false
  hidden : Bool := false
  parent : Int := -1
  first_child : Int := -1
  angle : D := 0
  r_angle : D := 0
  depth : Int := 1
  r_depth : Int := 1
  origin : Origin := .TOP_LEFT
  position : Vector2 := {}
  r_position : Vector2 := {}
  tl_position : Vector2 := {}
  scale : Scale := {}
  r_scale : Scale := {}
  size : Size := {}
  r_size : Size := {}
  rot_center : Vector2 := {}
  aabb : AABB := AABB.default
  tmp_quadtree_entry : List QuadtreeEntry := []
  quadtree : Option Quadtree := none
  ref_count : Int := 1
  deriving DecidableEq, Repr

/-- Modify the payload of an ExtFreeList slot in place (C++ `l[n].f = v`). -/
def ExtFreeList.modify (l : ExtFreeList α) (n : Int) (g : α → α) : ExtFreeList α :=
  match listGet? l.data n with
  | some c => { l with data := listSet l.data n { c with element := g c.element } }
  | none => l  -- out-of-range write in C++

/-- The two stores of the scene graph (`_nd` and `_child_nodes`; members of
SceneGraphDataHandler in src/ext, statics of NodeData in scenegraph_dev). -/
structure SG where
  nd : ExtFreeList NodeData := {}
  child_nodes : ExtFreeList ChildNode := {}
  deriving DecidableEq, Repr

namespace SG

/-- Raw `*_nd[id]` dereference (out-of-range is UB in C++). -/
def read (st : SG) (id : Int) : Except QtFault NodeData :=
  match st.nd.get? id with
  | some nd => .ok nd
  | none => .error .oob

/-- Write back through a `NodeData&` reference. -/
def write (st : SG) (id : Int) (nd : NodeData) : SG :=
  { st with nd := st.nd.modify id (fun _ => nd) }

/-- Raw `_child_nodes[id]` access. -/
def readChild (st : SG) (id : Int) : Except QtFault ChildNode :=
  match st.child_nodes.get? id with
  | some c => .ok c
  | none => .error .oob

/-- Write back through a `ChildNode&` reference. -/
def writeChild (st : SG) (id : Int) (c : ChildNode) : SG :=
  { st with child_nodes := st.child_nodes.modify id (fun _ => c) }

end SG

/-- Ancestor half of NodeData::_propagate_dirty (node.cpp lines 240-247,
identical in both revisions): walk the parent chain marking dirty. -/
def dirtyAncestors (st : SG) : Nat → Int → Except QtFault SG
  | 0, parent => if parent > -1 then .error .fuelOut else .ok st
  | fuel+1, parent =>
      if parent > -1 then
        match st.read parent with
        | .error f => .error f
        | .ok nd => dirtyAncestors (st.write parent { nd with dirty := true }) fuel nd.parent
      else .ok st

/-- Descendant half of _propagate_dirty (lines 248-263): stack walk over the
child-cell lists marking every descendant dirty. -/
def dirtyDescendants : Nat → SG → List Int → Except QtFault SG
  | 0, st, stack => if stack = [] then .ok st else .error .fuelOut
  | _+1, st, [] => .ok st
  | fuel+1, st, cnp_id :: rest => do
      let cnp ← st.readChild cnp_id
      let nd ← st.read cnp.node_id
      let s1 := if cnp.next > -1 then cnp.next :: rest else rest
      let s2 := if nd.first_child > -1 then nd.first_child :: s1 else s1
      dirtyDescendants fuel (st.write cnp.node_id { nd with dirty := true }) s2

/-- NodeData::_propagate_dirty (node.cpp lines 238-265, identical in the
scenegraph_dev revision). -/
def NodeData._propagate_dirty (st : SG) (self : Int) (fuel : Nat) :
    Except QtFault SG :=
  Except.bind (st.read self) fun nd =>
  Except.bind (if nd.parent > -1 then dirtyAncestors st fuel nd.parent else pure st) fun st1 =>
  Except.bind (st1.read self) fun nd1 =>
  Except.bind (if nd1.first_child > -1 then dirtyDescendants fuel st1 [nd1.first_child]
    else pure st1) fun st2 =>
  Except.bind (st2.read self) fun nd2 =>
  pure (st2.write self { nd2 with dirty := true })

/-- Walk to the last cell of a child list (the while of _insert_child,
src/ext/src/node.cpp lines 190-195). -/
def lastChildCell (st : SG) : Nat → Int → Int → Except QtFault Int
  | 0, current, next => if next = -1 then .ok current else .error .fuelOut
  | fuel+1, current, next =>
      if next = -1 then .ok current
      else
        match st.readChild next with
        | .error f => .error f
        | .ok c => lastChildCell st fuel next c.next

/-- NodeData::_insert_child (src/ext/src/node.cpp lines 181-199). -/
def NodeData._insert_child (st : SG) (self : Int) (node_id : Int) (fuel : Nat) :
    Except QtFault SG := do
  let r := st.child_nodes.insert { node_id := node_id }
  let st1 : SG := { st with child_nodes := r.2 }
  let nd ← st1.read self
  let st2 ←
    if nd.first_child = -1 then
      pure (st1.write self { nd with first_child := r.1 })
    else do
      let c0 ← st1.readChild nd.first_child
      let last ← lastChildCell st1 fuel nd.first_child c0.next
      let cl ← st1.readChild last
      pure (st1.writeChild last { cl with next := r.1 })
  NodeData._propagate_dirty st2 self fuel

/-- NodeData::_insert_child of the scenegraph_dev revision (node.cpp lines
166-182).  The while loop redeclares `search_cnp` inside its own body, so the
loop condition keeps reading the first cell and never changes: when the first
cell already has a successor the loop never terminates, and otherwise the
write after the loop goes to the first cell. -/
def NodeData._insert_child_dev (st : SG) (self : Int) (node_id : Int) (fuel : Nat) :
    Except QtFault SG := do
  let r := st.child_nodes.insert { node_id := node_id }
  let st1 : SG := { st with child_nodes := r.2 }
  let nd ← st1.read self
  let st2 ←
    if nd.first_child = -1 then
      pure (st1.write self { nd with first_child := r.1 })
    else do
      let c0 ← st1.readChild nd.first_child
      if c0.next = -1 then
        pure (st1.writeChild nd.first_child { c0 with next := r.1 })
      else (.error .fuelOut : Except QtFault SG)
  NodeData._propagate_dirty st2 self fuel

/-- Search loop of _remove_child (node.cpp lines 222-228, identical in both
revisions).  C++ `cnp` is a reference to the slot of the first child: the
loop's `cnp = cnps[cnp.next]` copy-assigns the next record into that slot,
and `cnp_id = cnp.next` then reads the just-assigned record's link. -/
def removeChildLoop (node_id fc : Int) : Nat → SG → Int → Except QtFault (SG × Int)
  | 0, _, _ => .error .fuelOut
  | fuel+1, st, cnp_id => do
      let c ← st.readChild fc
      match st.child_nodes.get? c.next with
      | none => .error .oob
      | some cnx =>
          if cnx.node_id ≠ node_id then
            if c.next = -1 || !(st.child_nodes.active c.next) then
              .error (.logicError "Child not found")
            else removeChildLoop node_id fc fuel (st.writeChild fc cnx) cnx.next
          else .ok (st, cnp_id)

/-- NodeData::_remove_child (src/ext/src/node.cpp lines 204-232, identical in
the scenegraph_dev revision). -/
def NodeData._remove_child (st : SG) (self : Int) (node_id : Int) (fuel : Nat) :
    Except QtFault SG := do
  let nd ← st.read self
  if nd.first_child = -1 then .error (.logicError "No children")
  else if !(st.child_nodes.active nd.first_child) then
    .error (.logicError "Child is not present")
  else do
    let cnp ← st.readChild nd.first_child
    if cnp.node_id = node_id then
      let st1 := st.write self { nd with first_child := cnp.next }
      pure { st1 with child_nodes := st1.child_nodes.erase nd.first_child }
    else
      if cnp.next = -1 || !(st.child_nodes.active cnp.next) then
        .error (.logicError "Child is not present")
      else do
        let r ← removeChildLoop node_id nd.first_child fuel st nd.first_child
        let c1 ← r.1.readChild nd.first_child
        match r.1.child_nodes.get? c1.next with
        | none => .error .oob
        | some cn2 =>
            let st2 := r.1.writeChild nd.first_child { c1 with next := cn2.next }
            pure { st2 with child_nodes := st2.child_nodes.erase r.2 }

/-- NodeData::_get_offset (src/ext/src/node.cpp lines 389-438). -/
def NodeData._get_offset (nd : NodeData) : Vector2 :=
  match nd.origin with
  | .TOP_LEFT => {}
  | .TOP_CENTER => ⟨-nd.size.w / 2, 0⟩
  | .TOP_RIGHT => ⟨-nd.size.w, 0⟩
  | .CENTER_LEFT => ⟨0, -nd.size.h / 2⟩
  | .CENTER => ⟨-nd.size.w / 2, -nd.size.h / 2⟩
  | .CENTER_RIGHT => ⟨-nd.size.w, -nd.size.h / 2⟩
  | .BOTTOM_LEFT => ⟨0, -nd.size.h⟩
  | .BOTTOM_CENTER => ⟨-nd.size.w / 2, -nd.size.h⟩
  | .BOTTOM_RIGHT => ⟨-nd.size.w, -nd.size.h⟩

/-- Shared tail of NodeData::_update_relative (both revisions agree from the
`position` local on; src/ext/src/node.cpp lines 292-384).  nd0 already holds
the branch's `_r_depth` write; rot stands for Vector2::rotate. -/
def updateRelativeCore (rot : Vector2 → D → Vector2) (st : SG) (self : Int)
    (nd0 : NodeData) (local_origin : Vector2) (base_scale : Scale)
    (base_angle : D) (base_dist_rel : Bool) : SG :=
  let position := nd0.position
  let tl := NodeData._get_offset nd0
  let tr := tl.add ⟨nd0.size.w, 0⟩
  let bl := tl.add ⟨0, nd0.size.h⟩
  let br := tl.add ⟨nd0.size.w, nd0.size.h⟩
  let rotation_center := (tl.add ⟨nd0.size.w / 2, nd0.size.h / 2⟩).add nd0.rot_center
  let doScale := Scale.neD base_scale 1 || Scale.neD nd0.scale 1
  let sx := if Scale.neD nd0.scale 1 then base_scale.sx * nd0.scale.sx else base_scale.sx
  let sy := if Scale.neD nd0.scale 1 then base_scale.sy * nd0.scale.sy else base_scale.sy
  let sc := fun v : Vector2 => if doScale then (⟨v.x * sx, v.y * sy⟩ : Vector2) else v
  let position := if doScale && base_dist_rel then (⟨position.x * sx, position.y * sy⟩ : Vector2) else position
  let tl := sc tl
  let tr := sc tr
  let bl := sc bl
  let br := sc br
  let rotation_center := sc rotation_center
  let rotB := fun v : Vector2 => if !(D.beq base_angle 0) then rot v base_angle else v
  let position := rotB position
  let rotation_center := rotB rotation_center
  let tl := rotB tl
  let tr := rotB tr
  let bl := rotB bl
  let br := rotB br
  let r_position := local_origin.add position
  let tl_position := r_position.add tl
  let r_scale := base_scale.mul nd0.scale
  let r_angle := base_angle + nd0.angle
  let r_size := nd0.size.mulScale r_scale
  let rotation_center := rotation_center.add position
  let tl := tl.add position
  let tr := tr.add position
  let bl := bl.add position
  let br := br.add position
  let rotA := fun v : Vector2 =>
    if !(D.beq nd0.angle 0) then (rot (v.sub rotation_center) nd0.angle).add rotation_center
    else v
  let tl := rotA tl
  let tr := rotA tr
  let bl := rotA bl
  let br := rotA br
  let tl := tl.add local_origin
  let tr := tr.add local_origin
  let bl := bl.add local_origin
  let br := br.add local_origin
  let x_max := D.maxD (D.maxD (D.maxD tl.x tr.x) bl.x) br.x
  let y_max := D.maxD (D.maxD (D.maxD tl.y tr.y) bl.y) br.y
  let x_min := D.minD (D.minD (D.minD tl.x tr.x) bl.x) br.x
  let y_min := D.minD (D.minD (D.minD tl.y tr.y) bl.y) br.y
  let ax := x_min + (x_max - x_min) / 2
  let ay := y_min + (y_max - y_min) / 2
  st.write self
    { nd0 with r_position := r_position, tl_position := tl_position,
               r_scale := r_scale, r_angle := r_angle, r_size := r_size,
               aabb := ⟨ax, ay, ax - x_min, ay - y_min⟩,
               dirty := false, isnew := false }

/-- NodeData::_update_relative (src/ext/src/node.cpp lines 270-384): the root
case uses the origin offset as local origin and the identity base scale. -/
def NodeData._update_relative (rot : Vector2 → D → Vector2) (st : SG) (self : Int) :
    Except QtFault SG := do
  let nd ← st.read self
  if nd.parent > -1 then do
    let p ← st.read nd.parent
    let nd1 := { nd with r_depth := p.r_depth + nd.depth }
    pure (updateRelativeCore rot st self nd1 p.r_position p.r_scale p.r_angle
      (p.distance_relative || nd.distance_relative))
  else
    let nd1 := { nd with r_depth := nd.depth }
    pure (updateRelativeCore rot st self nd1 (NodeData._get_offset nd) {} 0
      nd.distance_relative)

/-- NodeData::_update_relative of the scenegraph_dev revision (node.cpp lines
253-366): in the root case the local origin stays default-constructed and
base_scale is the node's OWN scale, which then enters _r_scale a second time
through `_r_scale = base_scale * _scale`. -/
def NodeData._update_relative_dev (rot : Vector2 → D → Vector2) (st : SG) (self : Int) :
    Except QtFault SG := do
  let nd ← st.read self
  if nd.parent > -1 then do
    let p ← st.read nd.parent
    let nd1 := { nd with r_depth := p.r_depth + nd.depth }
    pure (updateRelativeCore rot st self nd1 p.r_position p.r_scale p.r_angle
      (p.distance_relative || nd.distance_relative))
  else
    let nd1 := { nd with r_depth := nd.depth }
    pure (updateRelativeCore rot st self nd1 {} nd.scale 0 nd.distance_relative)

/-- Root finding (`while (_nd[id]->_parent > -1)`, node.cpp lines 67-70). -/
def findRoot (st : SG) : Nat → Int → Except QtFault Int
  | 0, id => do
      let nd ← st.read id
      if nd.parent > -1 then .error .fuelOut else .ok id
  | fuel+1, id => do
      let nd ← st.read id
      if nd.parent > -1 then findRoot st fuel nd.parent else .ok id

/-- Child walk of the traverse stack loop (node.cpp lines 86-91): push every
child id, last pushed on top. -/
def collectChildren (st : SG) : Nat → Int → List Int → Except QtFault (List Int)
  | 0, child_id, acc => if child_id = -1 then .ok acc else .error .fuelOut
  | fuel+1, child_id, acc =>
      if child_id = -1 then .ok acc
      else
        match st.child_nodes.get? child_id with
        | none => .error .oob
        | some cn => collectChildren st fuel cn.next (cn.node_id :: acc)

/-- Exact value of DBL_MAX, i.e. (2^53 - 1) * 2^971, written in digits so the
kernel never reduces an exponentiation. -/
def dblMax : D := ⟨179769313486231570814527423731704356798070567525844996598917476803157260780028538760589558632766878171540458953514382464234321326889464182768467546703537516986049910576551282076245490090389328944075868508455133942304583236903222948165808559332123348274797826204144723168738177180919299881250404026184124858368, 1⟩

/-- Stack loop of NodeData::_traverse (node.cpp lines 82-106): per dirty node
push the children, record the pre-update entry, update the relatives, track
the bounding extremes, record the post-update entry. -/
def traverseLoop (upd : SG → Int → Except QtFault SG) (root : Int) :
    Nat → SG → List Int → D → D → D → D → Except QtFault (SG × D × D × D × D)
  | 0, st, stack, x_max, y_max, x_min, y_min =>
      if stack = [] then .ok (st, x_max, y_max, x_min, y_min) else .error .fuelOut
  | _+1, st, [], x_max, y_max, x_min, y_min => .ok (st, x_max, y_max, x_min, y_min)
  | fuel+1, st, node_id :: rest, x_max, y_max, x_min, y_min => do
      let nd ← st.read node_id
      if nd.dirty then do
        let stack1 ← collectChildren st fuel nd.first_child rest
        let rootNd ← st.read root
        let qe1 : QuadtreeEntry :=
          ⟨if nd.isnew then -1 else nd.node_data_id, nd.aabb⟩
        let st1 := st.write root
          { rootNd with tmp_quadtree_entry := rootNd.tmp_quadtree_entry ++ [qe1] }
        let st2 ← upd st1 node_id
        let nd2 ← st2.read node_id
        let x_max := D.maxD x_max (nd2.aabb.x + nd2.aabb.hw)
        let y_max := D.maxD y_max (nd2.aabb.y + nd2.aabb.hh)
        let x_min := D.minD x_min (nd2.aabb.x - nd2.aabb.hw)
        let y_min := D.minD y_min (nd2.aabb.y - nd2.aabb.hh)
        let rootNd2 ← st2.read root
        let qe2 : QuadtreeEntry := ⟨nd2.node_data_id, nd2.aabb⟩
        let st3 := st2.write root
          { rootNd2 with tmp_quadtree_entry := rootNd2.tmp_quadtree_entry ++ [qe2] }
        traverseLoop upd root fuel st3 stack1 x_max y_max x_min y_min
      else traverseLoop upd root fuel st rest x_max y_max x_min y_min

/-- Quadtree maintenance loop of _traverse (node.cpp lines 123-134) on the
reversed entry list: the source reads the vector's last two entries as
(to, from) and pops both. -/
def qtPairLoop : Nat → Quadtree → List QuadtreeEntry → Except QtFault Quadtree
  | 0, q, l => if l = [] then .ok q else .error .fuelOut
  | _+1, q, [] => .ok q
  | _+1, _, [_] => .error .oob
  | fuel+1, q, qe_to :: qe_from :: rest =>
      if qe_from.node_id = -1 then
        match q.insert qe_to.node_id qe_to.aabb with
        | (q', .ok _) => qtPairLoop fuel q' rest
        | (_, .error f) => .error f
      else if !(AABB.beqv qe_from.aabb qe_to.aabb) then
        match q.move qe_from.node_id qe_from.aabb qe_to.aabb with
        | (q', .ok _) => qtPairLoop fuel q' rest
        | (_, .error f) => .error f
      else qtPairLoop fuel q rest

/-- NodeData::_traverse (node.cpp lines 65-137), parameterized over the
_update_relative revision. -/
def traverseWith (upd : SG → Int → Except QtFault SG) (st : SG) (self : Int)
    (fuel : Nat) : Except QtFault (SG × Bool) := do
  let root ← findRoot st fuel self
  let rootNd ← st.read root
  if !rootNd.dirty then pure (st, false)
  else do
    let st1 := st.write root { rootNd with tmp_quadtree_entry := [] }
    let r ← traverseLoop upd root fuel st1 [root] (-dblMax) (-dblMax) dblMax dblMax
    let st2 := r.1
    let hw := (r.2.1 - r.2.2.2.1) / 2
    let hh := (r.2.2.1 - r.2.2.2.2) / 2
    let qt : AABB := ⟨r.2.2.2.1 + hw, r.2.2.2.2 + hh, hw, hh⟩
    let rootNd2 ← st2.read root
    let q0 ←
      match rootNd2.quadtree with
      | none => pure (Quadtree.make qt 8 8)
      | some q =>
          if !(q.inside r.2.2.2.1 r.2.2.2.2) || !(q.inside r.2.1 r.2.2.1) then
            match q.resize qt with
            | (q', none) => pure q'
            | (_, some f) => (.error f : Except QtFault Quadtree)
          else pure q
    if rootNd2.tmp_quadtree_entry.length % 2 = 1 then
      .error (.logicError "Collected quadtree entries are not a multiple of 2.")
    else do
      let q1 ← qtPairLoop fuel q0 rootNd2.tmp_quadtree_entry.reverse
      let q2 := q1.cleanup
      pure (st2.write root
        { rootNd2 with tmp_quadtree_entry := [], quadtree := some q2 }, true)

/-- Node::_get_node_data (src/ext/src/node.cpp lines 638-644). -/
def Node._get_node_data (st : SG) (id : Int) : Except QtFault NodeData :=
  if st.nd.active id then
    match st.nd.get? id with
    | some nd => .ok nd
    | none => .error .oob
  else .error (.logicError "Tried to access invalid NodeData")

/-- Node::Node (src/ext/src/node.cpp lines 450-454): allocate a NodeData and
record its own id. -/
def Node.new (st : SG) : SG × Int :=
  let r := st.nd.insert {}
  ({ st with nd := r.2.modify r.1 (fun nd => { nd with node_data_id := r.1 }) }, r.1)

/-- Node::attach_node (src/ext/src/node.cpp lines 529-540). -/
def Node.attach_node (st : SG) (self : Int) (fuel : Nat) : Except QtFault (SG × Int) := do
  let r := Node.new st
  let cnd ← Node._get_node_data r.1 r.2
  let tnd ← Node._get_node_data r.1 self
  let _ := tnd
  let st2 := r.1.write r.2
    { cnd with parent := self, distance_relative := tnd.distance_relative,
               origin := tnd.origin }
  let st3 ← NodeData._insert_child st2 self r.2 fuel
  let st4 ← NodeData._propagate_dirty st3 self fuel
  pure (st4, r.2)

/-- Node::traverse of src/ext (node.cpp lines 582-585). -/
def Node.traverse (rot : Vector2 → D → Vector2) (st : SG) (self : Int) (fuel : Nat) :
    Except QtFault (SG × Bool) := do
  let _ ← Node._get_node_data st self
  traverseWith (fun s i => NodeData._update_relative rot s i) st self fuel

/-- Node::traverse of the scenegraph_dev revision (node.cpp lines 562-565). -/
def Node.traverse_dev (rot : Vector2 → D → Vector2) (st : SG) (self : Int) (fuel : Nat) :
    Except QtFault (SG × Bool) := do
  let _ ← Node._get_node_data st self
  traverseWith (fun s i => NodeData._update_relative_dev rot s i) st self fuel

/-- Node::set_pos(double, double) (src/ext/src/node.cpp lines 695-703). -/
def Node.set_pos (st : SG) (self : Int) (x y : D) (fuel : Nat) : Except QtFault SG := do
  let nd ← Node._get_node_data st self
  if !(D.beq nd.position.x x) || !(D.beq nd.position.y y) then
    NodeData._propagate_dirty (st.write self { nd with position := ⟨x, y⟩ }) self fuel
  else pure st

/-- Node::set_scale(double, double) (src/ext/src/node.cpp lines 797-808). -/
def Node.set_scale (st : SG) (self : Int) (sx sy : D) (fuel : Nat) : Except QtFault SG := do
  if D.le sx 0 || D.le sy 0 then .error (.logicError "Scale must be positive.")
  else do
    let nd ← Node._get_node_data st self
    if !(D.beq nd.scale.sx sx) || !(D.beq nd.scale.sy sy) then
      NodeData._propagate_dirty (st.write self { nd with scale := ⟨sx, sy⟩ }) self fuel
    else pure st

/-- Node::set_size(const Size&) (src/ext/src/node.cpp lines 1086-1096):
unlike every other setter, no comparison against the current value guards
the dirty propagation. -/
def Node.set_size (st : SG) (self : Int) (s : Size) (fuel : Nat) : Except QtFault SG := do
  let nd ← Node._get_node_data st self
  if D.le 0 s.w && D.le 0 s.h then
    NodeData._propagate_dirty (st.write self { nd with size := s }) self fuel
  else .error (.logicError "Size must be positive.")

/-- Node::set_size(double, double) (src/ext/src/node.cpp lines 1101-1112). -/
def Node.set_size2 (st : SG) (self : Int) (w h : D) (fuel : Nat) : Except QtFault SG := do
  let nd ← Node._get_node_data st self
  if D.le 0 w && D.le 0 h then
    NodeData._propagate_dirty (st.write self { nd with size := ⟨w, h⟩ }) self fuel
  else .error (.logicError "Size must be positive.")

/-- Node::set_size(double, double) of the scenegraph_dev revision (node.cpp
lines 898-910): sets the size but never calls _propagate_dirty. -/
def Node.set_size2_dev (st : SG) (self : Int) (w h : D) : Except QtFault SG := do
  let nd ← Node._get_node_data st self
  if D.le 0 w && D.le 0 h then
    pure (st.write self { nd with size := ⟨w, h⟩ })
  else .error (.logicError "Size must be positive.")

/-- Node::hide (src/ext/src/node.cpp lines 599-606). -/
def Node.hide (st : SG) (self : Int) (fuel : Nat) : Except QtFault SG := do
  let nd ← Node._get_node_data st self
  if !nd.hidden then
    NodeData._propagate_dirty (st.write self { nd with hidden := true }) self fuel
  else pure st

/-- Node::reparent_to of the scenegraph_dev revision (node.cpp lines 525-538):
unlike src/ext's reparent_to, there is no walk of the new parent's ancestor
chain, so nothing rejects reparenting under one's own descendant. -/
def Node.reparent_to_dev (st : SG) (self : Int) (parent : Int) (fuel : Nat) :
    Except QtFault SG := do
  let nd ← Node._get_node_data st self
  let st1 ←
    if nd.parent > -1 then NodeData._remove_child st nd.parent self fuel
    else pure st
  let nd1 ← st1.read self
  let st2 := st1.write self { nd1 with tmp_quadtree_entry := [], parent := parent }
  let st3 ← NodeData._insert_child_dev st2 parent self fuel
  NodeData._propagate_dirty st3 self fuel

/-- Depth-sort record of the ext Node::_query. -/
structure DepthData where
  node_id : Int
  depth : Int
  deriving DecidableEq, Repr

/-- Modelled from the spec: common.hpp (declaring DepthData's comparison
comp_depth_data) is not in src/; the key is the relative depth.  The C9
theorem relies only on the sort permuting its input. -/
def comp_depth_data (a b : DepthData) : Bool := a.depth < b.depth

/-- Visibility filter of _query (node.cpp lines 153-159): pop every quadtree
hit and keep the ids whose own record is not hidden. -/
def queryFilter (st : SG) : List Int → List Int → Except QtFault (List Int)
  | [], acc => .ok acc
  | id :: rest, acc => do
      let nd ← st.read id
      queryFilter st rest (if nd.hidden then acc else acc ++ [id])

/-- Relative depths of the filtered ids (node.cpp lines 165-169). -/
def depthsOf (st : SG) : List Int → Except QtFault (List DepthData)
  | [] => .ok []
  | id :: rest => do
      let nd ← st.read id
      let v ← depthsOf st rest
      pure (⟨id, nd.r_depth⟩ :: v)

/-- NodeData::_query (src/ext/src/node.cpp lines 142-176).  std::sort is
modelled by a sorting function that permutes its input. -/
def NodeData._query (st : SG) (self : Int) (aabb : AABB) (depth_sorted : Bool)
    (fuel : Nat) : Except QtFault (List Int) := do
  let root ← findRoot st fuel self
  let rootNd ← st.read root
  match rootNd.quadtree with
  | none => .error (.logicError "Quadtree not built yet")
  | some qt => do
      let result ← queryFilter st (qt.query aabb).reverse []
      if !depth_sorted then pure result
      else do
        let v ← depthsOf st result
        pure ((v.mergeSort comp_depth_data).map (·.node_id))

/-- Node::query (src/ext/src/node.cpp lines 591-594). -/
def Node.query (st : SG) (self : Int) (aabb : AABB) (depth_sorted : Bool)
    (fuel : Nat) : Except QtFault (List Int) := do
  let _ ← Node._get_node_data st self
  NodeData._query st self aabb depth_sorted fuel

/-- Harness: unwrap an Except-valued scene-graph run (never hit on the
concrete scenarios below). -/
def runSG (r : Except QtFault SG) : SG :=
  match r with
  | .ok st => st
  | .error _ => {}

/-- Identity in place of Vector2::rotate; sound on every path with zero
angles, where the source applies no rotation. -/
def rotId : Vector2 → D → Vector2 := fun v _ => v

/-! ## C1: relative scale along a chain after a clean -/

/-- The dev revision's one-node chain: a fresh root whose scale is (2, 2). -/
def c1st : SG := runSG (Node.set_scale (Node.new {}).1 0 2 2 10)

set_option maxRecDepth 200000 in
/-- C1: the claim says the relative scale after a clean is the product of the
chain's local scales — in particular a root's relative scale equals its own
local scale.  In the scenegraph_dev revision of _update_relative the root
case seeds base_scale with the root's OWN scale, and `_r_scale = base_scale *
_scale` then squares it: for the one-node chain with s1 = (2,2) the traverse
leaves relative scale (4,4) ≠ s1.  (The src/ext revision uses the identity
base scale and satisfies the product law.) -/
theorem C1_dev_root_relative_scale_squared :
    ∃ st, Node.traverse_dev rotId c1st 0 30 = .ok (st, true) ∧
      (st.nd.get? 0).map (·.scale) = some ⟨2, 2⟩ ∧
      (st.nd.get? 0).map (·.r_scale) = some ⟨4, 4⟩ ∧
      (st.nd.get? 0).map (fun nd =>
        D.beq nd.r_scale.sx nd.scale.sx && D.beq nd.r_scale.sy nd.scale.sy) = some false := by
  refine ⟨runSG ((Node.traverse_dev rotId c1st 0 30).map (·.1)), ?_⟩
  decide

/-! ## C2: setters and the dirty flag -/

/-- A cleaned two-node graph (root 0, child 1): built, then traversed so that
every dirty flag is down. -/
def c2st : SG := runSG (do
  let r1 ← Node.attach_node (Node.new {}).1 0 10
  let r ← Node.traverse rotId r1.1 0 30
  pure r.1)

set_option maxRecDepth 200000 in
/-- C2: the claim says a setter call with the current value leaves every
dirty flag unchanged, and a value-changing call dirties node, ancestors and
descendants.  set_size breaks both halves: the src/ext set_size(const Size&)
has no equality guard, so re-setting the current size (0,0) on the clean
child redirties the whole graph; the scenegraph_dev set_size(double, double)
never calls _propagate_dirty, so changing the size to (2,3) leaves every
dirty flag down. -/
theorem C2_set_size_dirty_divergence :
    ((c2st.nd.get? 0).map (·.dirty) = some false ∧
     (c2st.nd.get? 1).map (·.dirty) = some false ∧
     (c2st.nd.get? 1).map (·.size) = some ⟨0, 0⟩) ∧
    (∃ st1, Node.set_size c2st 1 ⟨0, 0⟩ 10 = .ok st1 ∧
      (st1.nd.get? 0).map (·.dirty) = some true ∧
      (st1.nd.get? 1).map (·.dirty) = some true) ∧
    (∃ st2, Node.set_size2_dev c2st 1 2 3 = .ok st2 ∧
      (st2.nd.get? 1).map (·.size) = some ⟨2, 3⟩ ∧
      (st2.nd.get? 0).map (·.dirty) = some false ∧
      (st2.nd.get? 1).map (·.dirty) = some false) := by
  refine ⟨by decide,
    ⟨runSG (Node.set_size c2st 1 ⟨0, 0⟩ 10), by decide⟩,
    ⟨runSG (Node.set_size2_dev c2st 1 2 3), by decide⟩⟩

/-! ## C5: the concrete grandchild scenario -/

/-- Root R (node 0); child A (node 1) with size (10,10), position (0,0);
grandchild B (node 2) under A with size (4,4), position (2,2); then
A.set_scale(2,2), everything else at defaults. -/
def c5b : SG := runSG (do
  let r1 ← Node.attach_node (Node.new {}).1 0 10
  let st3 ← Node.set_size2 r1.1 r1.2 10 10 10
  let st4 ← Node.set_pos st3 r1.2 0 0 10
  let r2 ← Node.attach_node st4 r1.2 10
  let st6 ← Node.set_size2 r2.1 r2.2 4 4 10
  let st7 ← Node.set_pos st6 r2.2 2 2 10
  Node.set_scale st7 1 2 2 10)

set_option maxRecDepth 200000 in
/-- C5 (amended): after A.set_scale(2,2) and a clean, B's relative position
is (2,2) — the distance_relative flag is false by default, so the local
position (2,2) is NOT scaled by A's relative scale — and B's relative size
is (4,4)·(2,2) = (8,8) as claimed. -/
theorem C5_grandchild_relative_values :
    ∃ st, Node.traverse rotId c5b 0 60 = .ok (st, true) ∧
      (st.nd.get? 2).map (fun nd => Vector2.beq nd.r_position ⟨2, 2⟩) = some true ∧
      (st.nd.get? 2).map (fun nd => Size.beq nd.r_size ⟨8, 8⟩) = some true := by
  refine ⟨runSG ((Node.traverse rotId c5b 0 60).map (·.1)), ?_⟩
  decide

set_option maxRecDepth 200000 in
/-- C5 (counterexample to the claimed (4,4)): in the same scenario B's
relative position does not equal (4,4). -/
theorem C5_relative_pos_not_four_four :
    ∃ st, Node.traverse rotId c5b 0 60 = .ok (st, true) ∧
      (st.nd.get? 2).map (fun nd => Vector2.beq nd.r_position ⟨4, 4⟩) = some false := by
  refine ⟨runSG ((Node.traverse rotId c5b 0 60).map (·.1)), ?_⟩
  decide

/-! ## C3: reparenting under one's own descendant -/

/-- Root 0 with one child, node 1. -/
def c3st : SG := runSG ((Node.attach_node (Node.new {}).1 0 10).map (·.1))

/-- The graph reached by the dev reparent_to(0 → under 1) right before its
dirty propagation: node 0's parent is already 1 and vice versa. -/
def c3cyc : SG :=
  { nd := { data := [
      { element := { node_data_id := 0, parent := 1, first_child := 0 }, next := -1 },
      { element := { node_data_id := 1, parent := 0, first_child := 1 }, next := -1 }] },
    child_nodes := { data := [
      { element := { node_id := 1 }, next := -1 },
      { element := { node_id := 0 }, next := -1 }] } }

/-- On the 0 ↔ 1 parent cycle the ancestor walk of _propagate_dirty never
reaches a -1 parent: it runs out of any amount of fuel. -/
theorem dirtyAncestors_c3cyc : ∀ fuel,
    dirtyAncestors c3cyc fuel 0 = .error .fuelOut ∧
    dirtyAncestors c3cyc fuel 1 = .error .fuelOut := by
  intro fuel
  induction fuel with
  | zero => exact ⟨rfl, rfl⟩
  | succ f ih =>
      refine ⟨?_, ?_⟩
      · have h : dirtyAncestors c3cyc (f + 1) 0 = dirtyAncestors c3cyc f 1 := rfl
        rw [h]
        exact ih.2
      · have h : dirtyAncestors c3cyc (f + 1) 1 = dirtyAncestors c3cyc f 0 := rfl
        rw [h]
        exact ih.1

/-! ## C9: query and the hidden flag -/

/-- Except bind on a success (specialization for rewriting do-chains). -/
theorem bind_ok_ex (a : α) (f : α → Except ε β) :
    (Bind.bind (Except.ok a) f : Except ε β) = f a := rfl

/-- Except bind on a failure. -/
theorem bind_err_ex (e : ε) (f : α → Except ε β) :
    (Bind.bind (Except.error e) f : Except ε β) = Except.error e := rfl

/-- Except.bind on a success, spelled without the Bind class. -/
theorem exbind_ok (a : α) (f : α → Except ε β) :
    Except.bind (Except.ok a) f = f a := rfl

/-- Except.bind on a failure, spelled without the Bind class. -/
theorem exbind_err (e : ε) (f : α → Except ε β) :
    Except.bind (Except.error e) f = Except.error e := rfl

/-- SG.read succeeds exactly on a stored record. -/
theorem SG.read_eq_ok {st : SG} {p : Int} {nd : NodeData} :
    st.read p = Except.ok nd ↔ st.nd.get? p = some nd := by
  unfold SG.read
  cases h : st.nd.get? p <;> simp

/-- get? after an in-place modify, other slot. -/
theorem ExtFreeList.get?_modify_ne (l : ExtFreeList α) (n : Int) (g : α → α)
    (m : Int) (h : m ≠ n) : (l.modify n g).get? m = l.get? m := by
  unfold ExtFreeList.modify
  cases hg : listGet? l.data n with
  | none => rfl
  | some c =>
      show (listGet? (listSet l.data n _) m).map (·.element) = _
      rw [listGet?_listSet_ne _ _ _ _ (fun he => h he.symm)]
      rfl

/-- get? after an in-place modify, same slot. -/
theorem ExtFreeList.get?_modify_self (l : ExtFreeList α) (n : Int) (g : α → α) :
    (l.modify n g).get? n = (l.get? n).map g := by
  unfold ExtFreeList.modify
  cases hg : listGet? l.data n with
  | none =>
      show l.get? n = (l.get? n).map g
      unfold ExtFreeList.get?
      rw [hg]
      rfl
  | some c =>
      obtain ⟨h0, hb⟩ := listGet?_eq_some_iff.mp hg
      show (listGet? (listSet l.data n _) n).map (·.element) = _
      rw [listGet?_listSet_self _ _ _ h0 hb.choose]
      show some (g c.element) = _
      unfold ExtFreeList.get?
      rw [hg]
      rfl

/-- Writing back a record with an unchanged hidden flag preserves every
hidden-flag view of the node store. -/
theorem SG.write_hidden_frame {st : SG} {j : Int} {nd0 : NodeData} (nd : NodeData)
    (hr : st.nd.get? j = some nd0) (hh : nd.hidden = nd0.hidden) (id : Int) :
    ((st.write j nd).nd.get? id).map (·.hidden) = (st.nd.get? id).map (·.hidden) := by
  by_cases hij : id = j
  · subst hij
    show ((st.nd.modify id (fun _ => nd)).get? id).map (·.hidden) = _
    rw [ExtFreeList.get?_modify_self, hr]
    show some nd.hidden = some nd0.hidden
    rw [hh]
  · show ((st.nd.modify j (fun _ => nd)).get? id).map (·.hidden) = _
    rw [ExtFreeList.get?_modify_ne _ _ _ _ hij]

/-- The ancestor walk of _propagate_dirty only touches dirty flags. -/
theorem dirtyAncestors_hidden : ∀ (fuel : Nat) (p : Int) {st st' : SG},
    dirtyAncestors st fuel p = .ok st' →
    ∀ id, (st'.nd.get? id).map (·.hidden) = (st.nd.get? id).map (·.hidden) := by
  intro fuel
  induction fuel with
  | zero =>
      intro p st st' h id
      unfold dirtyAncestors at h
      split at h
      · exact Except.noConfusion h
      · injection h with h
        subst h
        rfl
  | succ f ih =>
      intro p st st' h id
      unfold dirtyAncestors at h
      split at h
      · cases hr : st.read p with
        | error f2 =>
            rw [hr] at h
            exact Except.noConfusion h
        | ok nd =>
            rw [hr] at h
            have hframe := ih nd.parent h id
            rw [hframe]
            exact SG.write_hidden_frame { nd with dirty := true } (SG.read_eq_ok.mp hr) rfl id
      · injection h with h
        subst h
        rfl

/-- The descendant walk of _propagate_dirty only touches dirty flags. -/
theorem dirtyDescendants_hidden : ∀ (fuel : Nat) (stack : List Int) {st st' : SG},
    dirtyDescendants fuel st stack = .ok st' →
    ∀ id, (st'.nd.get? id).map (·.hidden) = (st.nd.get? id).map (·.hidden) := by
  intro fuel
  induction fuel with
  | zero =>
      intro stack st st' h id
      unfold dirtyDescendants at h
      split at h
      · injection h with h
        subst h
        rfl
      · exact Except.noConfusion h
  | succ f ih =>
      intro stack st st' h id
      cases stack with
      | nil =>
          unfold dirtyDescendants at h
          injection h with h
          subst h
          rfl
      | cons cnp_id rest =>
          unfold dirtyDescendants at h
          cases hc : st.readChild cnp_id with
          | error f2 =>
              rw [hc] at h
              exact Except.noConfusion h
          | ok cnp =>
              rw [hc] at h
              replace h := show Except.bind (st.read cnp.node_id) _ = Except.ok st' from h
              cases hr : st.read cnp.node_id with
              | error f2 =>
                  rw [hr] at h
                  exact Except.noConfusion h
              | ok nd =>
                  rw [hr] at h
                  have hframe := ih _ h id
                  rw [hframe]
                  exact SG.write_hidden_frame { nd with dirty := true } (SG.read_eq_ok.mp hr) rfl id

/-- _propagate_dirty only touches dirty flags. -/
theorem propagate_dirty_hidden {st st' : SG} {self : Int} {fuel : Nat}
    (h : NodeData._propagate_dirty st self fuel = .ok st') :
    ∀ id, (st'.nd.get? id).map (·.hidden) = (st.nd.get? id).map (·.hidden) := by
  intro id
  unfold NodeData._propagate_dirty at h
  cases hr : st.read self with
  | error f =>
      rw [hr] at h
      exact Except.noConfusion h
  | ok nd =>
      rw [hr] at h
      replace h := show Except.bind
        (if nd.parent > -1 then dirtyAncestors st fuel nd.parent else pure st) _ =
        Except.ok st' from h
      cases h1 : (if nd.parent > -1 then dirtyAncestors st fuel nd.parent else pure st) with
      | error f =>
          rw [h1] at h
          exact Except.noConfusion h
      | ok st1 =>
          rw [h1] at h
          simp only [bind_ok_ex, exbind_ok] at h
          have hf1 : ∀ j, (st1.nd.get? j).map (·.hidden) = (st.nd.get? j).map (·.hidden) := by
            by_cases hp : nd.parent > -1
            · rw [if_pos hp] at h1
              exact fun j => dirtyAncestors_hidden fuel nd.parent h1 j
            · rw [if_neg hp] at h1
              have h1' : Except.ok st = Except.ok st1 := h1
              injection h1' with he
              subst he
              exact fun j => rfl
          cases hr1 : st1.read self with
          | error f =>
              rw [hr1] at h
              exact Except.noConfusion h
          | ok nd1 =>
              rw [hr1] at h
              replace h := show Except.bind
                (if nd1.first_child > -1 then dirtyDescendants fuel st1 [nd1.first_child]
                 else pure st1) _ = Except.ok st' from h
              cases h2 : (if nd1.first_child > -1 then dirtyDescendants fuel st1 [nd1.first_child]
                  else pure st1) with
              | error f =>
                  rw [h2] at h
                  exact Except.noConfusion h
              | ok st2 =>
                  rw [h2] at h
                  simp only [bind_ok_ex, exbind_ok] at h
                  have hf2 : ∀ j, (st2.nd.get? j).map (·.hidden) =
                      (st1.nd.get? j).map (·.hidden) := by
                    by_cases hc : nd1.first_child > -1
                    · rw [if_pos hc] at h2
                      exact fun j => dirtyDescendants_hidden fuel _ h2 j
                    · rw [if_neg hc] at h2
                      have h2' : Except.ok st1 = Except.ok st2 := h2
                      injection h2' with he
                      subst he
                      exact fun j => rfl
                  cases hr2 : st2.read self with
                  | error f =>
                      rw [hr2] at h
                      exact Except.noConfusion h
                  | ok nd2 =>
                      rw [hr2] at h
                      have h' : Except.ok (st2.write self { nd2 with dirty := true }) =
                          Except.ok st' := h
                      injection h' with he
                      rw [← he]
                      rw [SG.write_hidden_frame { nd2 with dirty := true } (SG.read_eq_ok.mp hr2) rfl id, hf2 id, hf1 id]

/-- Node._get_node_data only succeeds on a stored record. -/
theorem get_node_data_ok {st : SG} {id : Int} {nd : NodeData}
    (h : Node._get_node_data st id = Except.ok nd) : st.nd.get? id = some nd := by
  unfold Node._get_node_data at h
  split at h
  · cases hg : st.nd.get? id with
    | none =>
        rw [hg] at h
        exact Except.noConfusion h
    | some nd2 =>
        rw [hg] at h
        injection h with he
        rw [he]
  · exact Except.noConfusion h

/-- Node::hide sets exactly the node's own hidden flag: afterwards the node
is hidden and every other node's hidden flag is what it was. -/
theorem hide_spec {st0 st : SG} {H : Int} {fuel : Nat}
    (h : Node.hide st0 H fuel = .ok st) :
    (st.nd.get? H).map (·.hidden) = some true ∧
    (∀ id, id ≠ H →
      (st.nd.get? id).map (·.hidden) = (st0.nd.get? id).map (·.hidden)) := by
  unfold Node.hide at h
  cases hg : Node._get_node_data st0 H with
  | error f =>
      rw [hg] at h
      exact Except.noConfusion h
  | ok nd =>
      rw [hg] at h
      have hget : st0.nd.get? H = some nd := get_node_data_ok hg
      by_cases hh : nd.hidden
      · replace h := show (if !nd.hidden then
            NodeData._propagate_dirty (st0.write H { nd with hidden := true }) H fuel
          else pure st0) = Except.ok st from h
        rw [if_neg (by simp [hh])] at h
        have h' : Except.ok st0 = Except.ok st := h
        injection h' with he
        subst he
        refine ⟨?_, fun id _ => rfl⟩
        rw [hget]
        simp [hh]
      · replace h := show (if !nd.hidden then
            NodeData._propagate_dirty (st0.write H { nd with hidden := true }) H fuel
          else pure st0) = Except.ok st from h
        rw [if_pos (by simp [hh])] at h
        have hfr := propagate_dirty_hidden h
        constructor
        · rw [hfr H]
          show ((st0.nd.modify H (fun _ => { nd with hidden := true })).get? H).map (·.hidden) = _
          rw [ExtFreeList.get?_modify_self, hget]
          rfl
        · intro id hid
          rw [hfr id]
          show ((st0.nd.modify H (fun _ => { nd with hidden := true })).get? id).map (·.hidden) = _
          rw [ExtFreeList.get?_modify_ne _ _ _ _ hid]

/-- The visibility filter of _query keeps exactly the non-hidden ids. -/
theorem queryFilter_spec (st : SG) : ∀ (l acc : List Int),
    (∀ id ∈ l, ∃ nd, st.read id = Except.ok nd) →
    ∃ res, queryFilter st l acc = .ok res ∧
      ∀ id, id ∈ res ↔ id ∈ acc ∨
        (id ∈ l ∧ ∃ nd, st.read id = Except.ok nd ∧ nd.hidden = false) := by
  intro l
  induction l with
  | nil =>
      intro acc hl
      refine ⟨acc, rfl, fun id => ?_⟩
      simp
  | cons a rest ih =>
      intro acc hl
      obtain ⟨nda, hnda⟩ := hl a (by simp)
      obtain ⟨res, hres, hmem⟩ := ih (if nda.hidden then acc else acc ++ [a])
        (fun id hid => hl id (by simp [hid]))
      refine ⟨res, ?_, ?_⟩
      · show queryFilter st (a :: rest) acc = _
        unfold queryFilter
        rw [hnda]
        simp only [bind_ok_ex, exbind_ok]
        exact hres
      · intro id
        rw [hmem id]
        by_cases hh : nda.hidden
        · rw [if_pos hh]
          constructor
          · rintro (hacc | ⟨hrest, hP⟩)
            · exact Or.inl hacc
            · exact Or.inr ⟨by simp [hrest], hP⟩
          · rintro (hacc | ⟨hmem2, nd, hread, hhid⟩)
            · exact Or.inl hacc
            · rcases List.mem_cons.mp hmem2 with rfl | hmem3
              · rw [hnda] at hread
                injection hread with he
                subst he
                exact absurd hh (by simp [hhid])
              · exact Or.inr ⟨hmem3, nd, hread, hhid⟩
        · rw [if_neg hh]
          constructor
          · rintro (hacc | ⟨hrest, hP⟩)
            · rcases List.mem_append.mp hacc with h1 | h1
              · exact Or.inl h1
              · rw [List.mem_singleton] at h1
                subst h1
                exact Or.inr ⟨by simp, nda, hnda, by simpa using hh⟩
            · exact Or.inr ⟨by simp [hrest], hP⟩
          · rintro (hacc | ⟨hmem2, hP⟩)
            · exact Or.inl (by simp [hacc])
            · rcases List.mem_cons.mp hmem2 with rfl | hmem3
              · exact Or.inl (by simp)
              · exact Or.inr ⟨hmem3, hP⟩

/-- The depth-collection step of _query succeeds and keeps the id list. -/
theorem depthsOf_spec (st : SG) : ∀ (l : List Int),
    (∀ id ∈ l, ∃ nd, st.read id = Except.ok nd) →
    ∃ v, depthsOf st l = .ok v ∧ v.map (·.node_id) = l := by
  intro l
  induction l with
  | nil => exact fun _ => ⟨[], rfl, rfl⟩
  | cons a rest ih =>
      intro hl
      obtain ⟨nda, hnda⟩ := hl a (by simp)
      obtain ⟨v, hv, hmap⟩ := ih (fun id hid => hl id (by simp [hid]))
      refine ⟨⟨a, nda.r_depth⟩ :: v, ?_, by simp [hmap]⟩
      show depthsOf st (a :: rest) = _
      unfold depthsOf
      rw [hnda]
      simp only [bind_ok_ex, exbind_ok]
      rw [hv]
      simp only [bind_ok_ex, exbind_ok]
      rfl

/-- The quadtree hit list at a graph's root, the input that _query filters. -/
def rootQtQuery (st : SG) (root : Int) (aabb : AABB) : Option (List Int) :=
  match st.nd.get? root with
  | none => none
  | some nd =>
      match nd.quadtree with
      | none => none
      | some qt => some (qt.query aabb)

/-- C9: after hide() on H (and no later show), Node::_query excludes exactly
the ids whose own hidden flag is set: the result is the quadtree hit list
filtered by each node's OWN flag, H itself is absent, every non-hidden hit —
including any non-hidden descendant of H — is present, and hide() set no
hidden flag other than H's, so hiddenness is not inherited at query time. -/
theorem C9_query_excludes_exactly_own_hidden
    {st0 st : SG} {H self root : Int} {fuel : Nat} {aabb : AABB}
    {qes : List Int} (depth_sorted : Bool)
    (hhide : Node.hide st0 H fuel = .ok st)
    (hroot : findRoot st fuel self = .ok root)
    (hqr : rootQtQuery st root aabb = some qes)
    (hact : ∀ id ∈ qes, ∃ nd, st.read id = Except.ok nd) :
    ∃ res, NodeData._query st self aabb depth_sorted fuel = .ok res ∧
      (∀ id, id ∈ res ↔
        id ∈ qes ∧ ∃ nd, st.read id = Except.ok nd ∧ nd.hidden = false) ∧
      H ∉ res ∧
      (∀ d nd, st.read d = Except.ok nd → nd.hidden = false → d ∈ qes → d ∈ res) ∧
      (st.nd.get? H).map (·.hidden) = some true ∧
      (∀ id, id ≠ H →
        (st.nd.get? id).map (·.hidden) = (st0.nd.get? id).map (·.hidden)) := by
  obtain ⟨hHh, hframe⟩ := hide_spec hhide
  unfold rootQtQuery at hqr
  cases hg : st.nd.get? root with
  | none =>
      rw [hg] at hqr
      exact Option.noConfusion hqr
  | some rootNd =>
      rw [hg] at hqr
      replace hqr := show (match rootNd.quadtree with
        | none => none
        | some qt => some (qt.query aabb)) = some qes from hqr
      cases hq : rootNd.quadtree with
      | none =>
          rw [hq] at hqr
          exact Option.noConfusion hqr
      | some qt =>
          rw [hq] at hqr
          replace hqr := show some (qt.query aabb) = some qes from hqr
          injection hqr with hqes
          have hact' : ∀ id ∈ (qt.query aabb).reverse, ∃ nd, st.read id = Except.ok nd := by
            intro id hid
            refine hact id ?_
            rw [← hqes]
            exact List.mem_reverse.mp hid
          obtain ⟨res0, hres0, hmem0⟩ := queryFilter_spec st (qt.query aabb).reverse [] hact'
          have hres0act : ∀ id ∈ res0, ∃ nd, st.read id = Except.ok nd := by
            intro id hid
            rcases (hmem0 id).mp hid with h1 | ⟨-, nd, hr, -⟩
            · exact absurd h1 (List.not_mem_nil id)
            · exact ⟨nd, hr⟩
          have hmemc : ∀ id, id ∈ res0 ↔
              id ∈ qes ∧ ∃ nd, st.read id = Except.ok nd ∧ nd.hidden = false := by
            intro id
            rw [hmem0 id]
            constructor
            · rintro (habs | ⟨h1, hP⟩)
              · exact absurd habs (List.not_mem_nil id)
              · refine ⟨?_, hP⟩
                rw [← hqes]
                exact List.mem_reverse.mp h1
            · rintro ⟨h1, hP⟩
              refine Or.inr ⟨List.mem_reverse.mpr ?_, hP⟩
              rw [hqes]
              exact h1
          have hread : st.read root = Except.ok rootNd := SG.read_eq_ok.mpr hg
          have hq1 : ∃ res, NodeData._query st self aabb depth_sorted fuel = .ok res ∧
              ∀ id, id ∈ res ↔ id ∈ res0 := by
            cases depth_sorted with
            | false =>
                refine ⟨res0, ?_, fun id => Iff.rfl⟩
                unfold NodeData._query
                rw [hroot]
                simp only [bind_ok_ex, exbind_ok]
                rw [hread]
                simp only [bind_ok_ex, exbind_ok]
                rw [hq]
                show Except.bind (queryFilter st (qt.query aabb).reverse []) _ = _
                rw [hres0]
                simp only [bind_ok_ex, exbind_ok]
                rfl
            | true =>
                obtain ⟨v, hv, hvmap⟩ := depthsOf_spec st res0 hres0act
                refine ⟨(v.mergeSort comp_depth_data).map (·.node_id), ?_, ?_⟩
                · unfold NodeData._query
                  rw [hroot]
                  simp only [bind_ok_ex, exbind_ok]
                  rw [hread]
                  simp only [bind_ok_ex, exbind_ok]
                  rw [hq]
                  show Except.bind (queryFilter st (qt.query aabb).reverse []) _ = _
                  rw [hres0]
                  simp only [bind_ok_ex, exbind_ok]
                  show Except.bind (depthsOf st res0) _ = _
                  rw [hv]
                  simp only [bind_ok_ex, exbind_ok]
                  rfl
                · intro id
                  rw [← hvmap]
                  simp only [List.mem_map]
                  constructor
                  · rintro ⟨dd, hdd, rfl⟩
                    exact ⟨dd, List.mem_mergeSort.mp hdd, rfl⟩
                  · rintro ⟨dd, hdd, rfl⟩
                    exact ⟨dd, List.mem_mergeSort.mpr hdd, rfl⟩
          obtain ⟨res, hreseq, hres_iff⟩ := hq1
          refine ⟨res, hreseq, ?_, ?_, ?_, hHh, hframe⟩
          · intro id
            rw [hres_iff id, hmemc id]
          · intro hHin
            rw [hres_iff H, hmemc H] at hHin
            obtain ⟨-, nd, hr, hhid⟩ := hHin
            have hgH : st.nd.get? H = some nd := SG.read_eq_ok.mp hr
            rw [hgH] at hHh
            have : nd.hidden = true := by
              injection hHh
            rw [this] at hhid
            exact Bool.noConfusion hhid
          · intro d nd hr hhid hdin
            rw [hres_iff d, hmemc d]
            exact ⟨hdin, nd, hr, hhid⟩

set_option maxRecDepth 200000 in
/-- C3: the claim says reparenting a node under its own descendant raises an
error (found by walking the target's ancestor chain) and leaves the graph
unchanged.  The scenegraph_dev Node::reparent_to has no such walk: it
relinks 0 under its child 1 without any exception, and the dirty propagation
then loops forever over the freshly created 0 ↔ 1 parent cycle — for every
amount of fuel the call diverges instead of erroring out.  (The src/ext
revision performs the ancestor-chain walk and throws before mutating.) -/
theorem C3_dev_reparent_to_descendant_diverges (fuel : Nat) :
    Node.reparent_to_dev c3st 0 1 fuel = .error .fuelOut := by
  have h := (dirtyAncestors_c3cyc fuel).1
  calc Node.reparent_to_dev c3st 0 1 fuel
      = Except.bind (Except.bind (dirtyAncestors c3cyc fuel 0) _) _ := rfl
    _ = .error .fuelOut := by rw [h, exbind_err, exbind_err]

/-- C9's concrete scenario, before hiding: root 0 with children 1 and 2, node
3 a child of 1, traversed so the quadtree is built. -/
def c9base : SG := runSG (do
  let r1 ← Node.attach_node (Node.new {}).1 0 10
  let r2 ← Node.attach_node r1.1 0 10
  let r3 ← Node.attach_node r2.1 1 10
  let r ← Node.traverse rotId r3.1 0 60
  pure r.1)

/-- The same scene after hide() on node 1. -/
def c9st : SG := runSG (Node.hide c9base 1 30)

/-- The C9 query box. -/
def c9box : AABB := ⟨0, 0, 1, 1⟩

/-- The quadtree hits of the C9 scenario. -/
def c9qes : List Int := [3, 1, 2, 0]

set_option maxRecDepth 200000 in
/-- Witness for C9: in the concrete scene, hiding node 1 and querying
excludes exactly node 1; node 3, the non-hidden child of the hidden node 1,
is still returned. -/
theorem C9_query_excludes_exactly_own_hidden_witness :
    Node.hide c9base 1 30 = .ok c9st ∧
    findRoot c9st 30 2 = .ok 0 ∧
    rootQtQuery c9st 0 c9box = some c9qes ∧
    (∃ res, NodeData._query c9st 2 c9box true 30 = .ok res ∧
      (∀ id, id ∈ res ↔
        id ∈ c9qes ∧ ∃ nd, c9st.read id = Except.ok nd ∧ nd.hidden = false) ∧
      (1 : Int) ∉ res ∧
      (∀ d nd, c9st.read d = Except.ok nd → nd.hidden = false → d ∈ c9qes → d ∈ res) ∧
      (c9st.nd.get? 1).map (·.hidden) = some true ∧
      (∀ id, id ≠ (1 : Int) →
        (c9st.nd.get? id).map (·.hidden) = (c9base.nd.get? id).map (·.hidden))) :=
  ⟨by decide, by decide, by decide,
    C9_query_excludes_exactly_own_hidden true
      (show Node.hide c9base 1 30 = Except.ok c9st by decide)
      (show findRoot c9st 30 2 = Except.ok 0 by decide)
      (show rootQtQuery c9st 0 c9box = some c9qes by decide)
      (by
        intro id hid
        simp only [c9qes, List.mem_cons, List.not_mem_nil, or_false] at hid
        rcases hid with rfl | rfl | rfl | rfl <;> exact ⟨_, rfl⟩)⟩

end Foolysh
